import Mathlib

/-!
Verification of the KarpelesLab/dns wire-format library (packages `dnsmsg`
and `dnssec`) against its natural-language specification.

The Go sources are shallowly embedded: byte buffers are `List Nat` (each
element a byte value `< 256`), machine integers are `Nat` with explicit
`% 2^w` where Go truncates, Go's `(value, error)` returns become sum types,
and in-place mutation of the encode/decode `context` becomes explicit state
passing.  External collaborators (Go standard-library crypto primitives,
`sort.Slice`, the process-wide random source) are universally-quantified
parameters, mirroring the repository boundary.
-/

namespace DnsProof

/-! ## Byte-level helpers -/

/-- Big-endian encoding of a 16-bit value (Go `binary.Write(c, BigEndian, uint16)`).
For inputs `< 65536` the two bytes are `v >> 8` and `v & 0xff`; the `% 256`
mirrors Go's truncation of each byte. -/
def u16 (v : Nat) : List Nat := [v / 256 % 256, v % 256]

/-- Big-endian encoding of a 32-bit value. -/
def u32 (v : Nat) : List Nat :=
  [v / 16777216 % 256, v / 65536 % 256, v / 256 % 256, v % 256]

/-- Big-endian 48-bit encoding used by the TSIG `TimeSigned` field. -/
def u48 (v : Nat) : List Nat :=
  [v / 1099511627776 % 256, v / 4294967296 % 256, v / 16777216 % 256,
   v / 65536 % 256, v / 256 % 256, v % 256]

/-- Go `strings.ToLower` on a single ASCII byte (only A-Z are mapped). -/
def toLowerB (b : Nat) : Nat := if 65 ≤ b ∧ b ≤ 90 then b + 32 else b

/-- Go `strings.ToLower` on a byte string. -/
def lowerBytes (s : List Nat) : List Nat := s.map toLowerB

/-- Whether a byte string ends with `'.'` (byte 46), Go `strings.HasSuffix(s, ".")`. -/
def hasDotSuffix (s : List Nat) : Bool := s.getLast? = some 46

/-- Index of the first `'.'` byte, Go `strings.IndexByte(s, '.')` (`none` = -1). -/
def idxDot (s : List Nat) : Option Nat := s.findIdx? (· = 46)

/-- Big-endian interpretation of a byte string as an unsigned integer,
Go `new(big.Int).SetBytes(b)`. -/
def bytesToNat (bs : List Nat) : Nat := bs.foldl (fun acc b => acc * 256 + b) 0

/-! ## Errors (`dnsmsg/error.go`, `io` sentinel errors, panics) -/

/-- Error values surfaced by the `dnsmsg` package.  `eof` / `unexpectedEOF`
are the `io` sentinel errors produced by short reads; `panicOOB` marks a Go
index-out-of-range panic (readLabel dereferences `buf[0]` unconditionally);
the three ip errors are the distinct `errors.New` values in `RDataIP.encode`. -/
inductive DnsErr where
  | invalidLen | notSupport | nameTooLong | labelTooLong | invalidLabel
  | eof | unexpectedEOF | panicOOB
  | notIPv4 | notIPv6 | badIPRecordType
  deriving DecidableEq, Repr

/-! ## The encode/decode context (`dnsmsg/context.go`)

Go's `context` holds the raw message buffer, the label-compression cache
(a `map[string]uint16`), a read cursor, the default name suffix and the
`marshal` flag.  The cache is modeled as an association list with
prepend-insert / first-match-lookup, which coincides with Go map semantics
because the source only inserts a key after a failed lookup. -/

structure Ctx where
  rawMsg : List Nat
  labelMap : List (List Nat × Nat)
  name : List Nat
  marshal : Bool
  deriving Repr

/-- Lookup in the label-compression cache. -/
def lookupMap (m : List (List Nat × Nat)) (k : List Nat) : Option Nat :=
  match m with
  | [] => none
  | (k', v) :: rest => if k' = k then some v else lookupMap rest k

/-- Append bytes to the message buffer (Go `context.Write`, which never fails). -/
def wr (c : Ctx) (bs : List Nat) : Ctx := { c with rawMsg := c.rawMsg ++ bs }

/-- Overwrite two bytes at `pos` with a big-endian 16-bit value
(Go `context.putUint16`). -/
def putU16 (c : Ctx) (pos v : Nat) : Ctx :=
  { c with rawMsg := c.rawMsg.take pos ++ u16 v ++ c.rawMsg.drop (pos + 2) }

/-! ## Name decoding (`context.readLabel`, context.go lines 147-207)

The Go function loops forever; each compression pointer restarts the scan at
`c.rawMsg[pos:]`.  The loop is embedded with a `fuel` parameter that is spent
only on pointer hops (label steps recurse structurally on the shrinking
buffer), so `none` means the Go original is still chasing pointers after
`fuel` hops — in particular `(∀ fuel, … = none)` certifies divergence. -/

/-- Result of one `readLabel` call: Go returns `(string(res), read, err)`;
the partial `res`/`read` values accompanying an error are preserved. -/
inductive LabelOut where
  | ok (nm : List Nat) (cnt : Nat)
  | err (e : DnsErr) (nm : List Nat) (cnt : Nat)
  | panicked
  deriving DecidableEq, Repr

/-- Shallow embedding of `context.readLabel` (non-marshal path; the `marshal`
branch is embedded separately as `readLabelMarshal`).  State: `msg` is
`c.rawMsg`, `buf` the current scan window, `res`/`read`/`readMode` the local
variables of the Go loop.  One unit of `fuel` is spent per loop iteration, so
`none` means the Go loop is still running after `fuel` iterations and
`(∀ fuel, … = none)` certifies divergence. -/
def readLabelGo (msg : List Nat) : Nat → List Nat → List Nat → Nat → Bool → Option LabelOut
  | 0, _, _, _, _ => none
  | fuel + 1, buf, res, read, readMode =>
    match buf with
    | [] => some .panicked
    | v :: rest =>
      let read1 := if readMode then read + 1 else read
      if v = 0 then some (.ok res read1)
      else if v &&& 0xc0 = 0xc0 then
        match rest with
        | [] => some (.err .invalidLabel res read1)
        | w :: _ =>
          let read2 := if readMode then read1 + 1 else read1
          let pos := (v * 256 + w) &&& 0x3fff
          if pos ≥ msg.length then some (.err .invalidLabel res read2)
          else readLabelGo msg fuel (msg.drop pos) res read2 false
      else if v > 63 then some (.err .invalidLabel res read1)
      else if v ≥ rest.length then some (.err .invalidLabel res read1)
      else
        let read3 := if readMode then read1 + v else read1
        readLabelGo msg fuel (rest.drop v) (res ++ rest.take v ++ [46]) read3 readMode

/-- Shallow embedding of the `c.marshal` branch of `readLabel`: a single
length-prefixed chunk, no compression. -/
def readLabelMarshal (buf : List Nat) : LabelOut :=
  match buf with
  | [] => .panicked
  | l :: rest =>
    if l = 0 then .ok [] 1
    else if rest.length < l then .err .unexpectedEOF [] 0
    else .ok (rest.take l) (l + 1)

/-! ## Name encoding (`context.appendLabel`, context.go lines 60-131)

Go mutates the context in place and may leave partial writes and cache
entries behind on an error path, so the embedding returns the updated
context together with an optional error. -/

/-- One pass of the `for` loop of `appendLabel` with an explicit iteration
budget (each Go iteration strictly shrinks `lbl`, so `lbl.length + 1`
iterations always suffice; the `fuel = 0` case is unreachable and marked with
a sentinel error).  Structural recursion on the budget keeps the function
kernel-computable. -/
def appendLabelLoopF (c : Ctx) : Nat → List Nat → Ctx × Option DnsErr
  | 0, _ => (c, some .panicOOB)
  | fuel + 1, lbl =>
    match lookupMap c.labelMap (lowerBytes lbl) with
    | some p => (wr c (u16 p), none)
    | none =>
      let c :=
        if c.rawMsg.length < 0x3fff then
          { c with labelMap := (lowerBytes lbl, c.rawMsg.length ||| 0xc000) :: c.labelMap }
        else c
      match idxDot lbl with
      | none =>
        if lbl.length = 0 then (c, some .invalidLabel)
        else if lbl.length > 63 then (c, some .labelTooLong)
        else (wr c ([lbl.length] ++ lbl ++ [0]), none)
      | some pos =>
        if pos = 0 then (c, some .invalidLabel)
        else if pos > 63 then (c, some .labelTooLong)
        else appendLabelLoopF (wr c ([pos] ++ lbl.take pos)) fuel (lbl.drop (pos + 1))

/-- The `appendLabel` compression loop, entered with a sufficient iteration
budget. -/
def appendLabelLoop (c : Ctx) (lbl : List Nat) : Ctx × Option DnsErr :=
  appendLabelLoopF c (lbl.length + 1) lbl

/-- Shallow embedding of `context.appendLabel`.  The byte 64 is `'@'`,
byte 46 is `'.'`. -/
def appendLabel (c : Ctx) (lbl : List Nat) : Ctx × Option DnsErr :=
  if lbl.length > 255 then (c, some .nameTooLong)
  else if c.marshal then (wr c ([lbl.length] ++ lbl), none)
  else if hasDotSuffix lbl then appendLabelLoop c lbl.dropLast
  else if c.name = [] then (c, some .invalidLabel)
  else
    let lbl2 := if lbl = [] ∨ lbl = [64] then c.name else lbl ++ [46] ++ c.name
    if lbl2.length > 255 then (c, some .nameTooLong)
    else appendLabelLoop c lbl2

/-! ## Claim C1: compression-pointer guards in `readLabel`

The adversarial packets from the repository's own
`TestCompressionPointerLoop` and `TestForwardCompressionPointer`. -/

/-- Header with QDCOUNT=1 followed by the question name `C0 0C` (a pointer to
offset 12, its own position) and TYPE/CLASS, exactly as built by
`TestCompressionPointerLoop`. -/
def loopPacket : List Nat :=
  [0x12, 0x34, 0x01, 0x00, 0x00, 0x01, 0, 0, 0, 0, 0, 0,
   0xc0, 0x0c, 0x00, 0x01, 0x00, 0x01]

/-- Header, question name `C0 20` (forward pointer to offset 0x20), TYPE and
CLASS, 20 bytes of padding and a valid label, exactly as built by
`TestForwardCompressionPointer`. -/
def fwdPacket : List Nat :=
  [0x12, 0x34, 0x01, 0x00, 0x00, 0x01, 0, 0, 0, 0, 0, 0,
   0xc0, 0x20, 0x00, 0x01, 0x00, 0x01] ++ List.replicate 20 0 ++
  [4, 116, 101, 115, 116, 0]

/-- Claim C1 (code_bug evidence).  `readLabel` implements only the
target-past-message-length check: on the self-pointing question name `C0 0C`
at offset 12 it diverges (for every iteration budget the loop is still
running — it neither fails `InvalidLabel` nor returns), and on the forward
pointer `C0 20` it succeeds (returning the empty name with 2 octets
consumed) instead of failing `InvalidLabel`.  This contradicts the claimed
visited-set and forward-pointer rejection. -/
theorem readLabel_pointer_guards_missing :
    (∀ fuel, readLabelGo loopPacket fuel (loopPacket.drop 12) [] 0 true = none) ∧
    readLabelGo fwdPacket 50 (fwdPacket.drop 12) [] 0 true = some (.ok [] 2) := by
  constructor
  · have aux : ∀ fuel, readLabelGo loopPacket fuel (loopPacket.drop 12) [] 2 false = none := by
      intro fuel
      induction fuel with
      | zero => rfl
      | succ f ih => exact ih
    intro fuel
    cases fuel with
    | zero => rfl
    | succ f => exact aux f
  · decide

/-! ## Claim C9: octet count returned by the name decoder -/

/-- The compressed `google.com` A response from the repository's
`TestParseResponse`: the answer owner name at offset 28 is the pointer
`C0 0C` to the question name at offset 12. -/
def gResponsePacket : List Nat :=
  [0x23, 0x6f, 0x81, 0x80, 0, 1, 0, 1, 0, 0, 0, 1,
   6, 0x67, 0x6f, 0x6f, 0x67, 0x6c, 0x65, 3, 0x63, 0x6f, 0x6d, 0,
   0, 1, 0, 1,
   0xc0, 0x0c, 0, 1, 0, 1, 0, 0, 0, 0xcd, 0, 4, 0xac, 0xd9, 0xaf, 0x6e,
   0, 0, 0x29, 2, 0, 0, 0, 0, 0, 0, 0]

/-- Modelled from the spec (§4.1 decode): the octet count of a name read at
its original offset, computed directly from the buffer at that offset —
each length byte and its label bytes before the first compression pointer,
the terminating zero when no pointer occurs, and the first pointer as
exactly two octets (nothing behind the pointer is counted).  The iteration
budget mirrors `readLabelGo`; a successful decode always supplies enough. -/
def specConsumedF : Nat → List Nat → Option Nat
  | 0, _ => none
  | fuel + 1, buf =>
    match buf with
    | [] => none
    | v :: rest =>
      if v = 0 then some 1
      else if v &&& 0xc0 = 0xc0 then
        match rest with
        | [] => none
        | _ :: _ => some 2
      else if v > 63 then none
      else if v ≥ rest.length then none
      else
        match specConsumedF fuel (rest.drop v) with
        | some n => some (1 + v + n)
        | none => none

/-- Once the first pointer has been followed (`readMode = false`), the Go
loop never changes `read` again: a successful return yields the count it
entered with. -/
theorem readLabel_false_read_const :
    ∀ fuel msg buf res read nm n,
      readLabelGo msg fuel buf res read false = some (.ok nm n) → n = read := by
  intro fuel
  induction fuel with
  | zero => intro msg buf res read nm n h; simp [readLabelGo] at h
  | succ f ih =>
    intro msg buf res read nm n h
    match buf with
    | [] => simp [readLabelGo] at h
    | v :: rest =>
      simp only [readLabelGo] at h
      by_cases h0 : v = 0
      · simp [h0] at h; omega
      · simp only [h0, if_false, if_neg] at h
        by_cases hp : v &&& 0xc0 = 0xc0
        · simp only [hp, if_true, if_pos] at h
          match rest with
          | [] => simp at h
          | w :: rest' =>
            simp only at h
            by_cases hlen : (v * 256 + w) &&& 0x3fff ≥ msg.length
            · simp [hlen] at h
            · simp only [hlen, if_false, if_neg] at h
              exact ih msg _ res read nm n h
        · simp only [hp, if_false, if_neg] at h
          by_cases h63 : v > 63
          · simp [h63] at h
          · simp only [h63, if_false, if_neg] at h
            by_cases hrl : v ≥ rest.length
            · simp [hrl] at h
            · simp only [hrl, if_false, if_neg] at h
              exact ih msg _ _ read nm n h

/-- Claim C9.  Whenever `readLabel` succeeds, the octet count it returns is
exactly the count computed at the original offset (`specConsumedF`): length
and label bytes read before the first compression pointer plus the
terminating zero, or the bytes up to and including a first pointer counted
as two octets — independent of everything read after following a pointer. -/
theorem readLabel_count_is_local :
    ∀ fuel msg buf res read nm n,
      readLabelGo msg fuel buf res read true = some (.ok nm n) →
      read ≤ n ∧ specConsumedF fuel buf = some (n - read) := by
  intro fuel
  induction fuel with
  | zero => intro msg buf res read nm n h; simp [readLabelGo] at h
  | succ f ih =>
    intro msg buf res read nm n h
    match buf with
    | [] => simp [readLabelGo] at h
    | v :: rest =>
      simp only [readLabelGo] at h
      by_cases h0 : v = 0
      · simp only [h0, if_pos, if_true] at h ⊢
        simp only [Option.some.injEq, LabelOut.ok.injEq] at h
        simp [specConsumedF, h0, ← h.2]
      · simp only [h0, if_false, if_neg] at h
        by_cases hp : v &&& 0xc0 = 0xc0
        · simp only [hp, if_true, if_pos] at h
          match rest with
          | [] => simp at h
          | w :: rest' =>
            simp only at h
            by_cases hlen : (v * 256 + w) &&& 0x3fff ≥ msg.length
            · simp [hlen] at h
            · simp only [hlen, if_false, if_neg] at h
              have := readLabel_false_read_const f msg _ res (read + 1 + 1) nm n h
              subst this
              simp [specConsumedF, h0, hp]
              all_goals omega
        · simp only [hp, if_false, if_neg] at h
          by_cases h63 : v > 63
          · simp [h63] at h
          · simp only [h63, if_false, if_neg] at h
            by_cases hrl : v ≥ rest.length
            · simp [hrl] at h
            · simp only [hrl, if_false, if_neg] at h
              obtain ⟨hle, hspec⟩ := ih msg _ _ (read + 1 + v) nm n h
              refine ⟨by omega, ?_⟩
              simp [specConsumedF, h0, hp, h63, hrl, hspec]
              all_goals omega

/-- Claim C9 witness: in the compressed `google.com` response, reading the
answer owner name at offset 28 (a bare pointer to offset 12) succeeds with
count 2, and the locally-computed count agrees. -/
theorem readLabel_count_is_local_witness :
    0 ≤ 2 ∧ specConsumedF 20 (gResponsePacket.drop 28) = some (2 - 0) :=
  readLabel_count_is_local 20 gResponsePacket (gResponsePacket.drop 28) [] 0
    [103, 111, 111, 103, 108, 101, 46, 99, 111, 109, 46] 2 (by decide)

/-! ## Claim C8: label / name length boundaries in `appendLabel`

Encoding starts from the fresh context `MarshalBinary` creates (empty
buffer, empty compression cache, no default suffix, marshal flag clear).
The boundary names use labels of bytes `'a'`/`'b'`/`'c'`/`'d'`. -/

/-- The fresh context `Message.MarshalBinary` builds. -/
def freshCtx : Ctx := ⟨[], [], [], false⟩

/-- Name with a single 63-octet label: `a^63.` (wire form: 65 octets). -/
def name63 : List Nat := List.replicate 63 97 ++ [46]

/-- Name with a single 64-octet label: `a^64.`. -/
def name64 : List Nat := List.replicate 64 97 ++ [46]

/-- Four labels of 63+63+63+61 octets: textual form 254 octets (with the
trailing dot), wire form exactly 255 octets. -/
def nameWire255 : List Nat :=
  List.replicate 63 97 ++ [46] ++ List.replicate 63 98 ++ [46] ++
  List.replicate 63 99 ++ [46] ++ List.replicate 61 100 ++ [46]

/-- Four labels of 63+63+63+62 octets: textual form 255 octets, wire form
exactly 256 octets. -/
def nameWire256 : List Nat :=
  List.replicate 63 97 ++ [46] ++ List.replicate 63 98 ++ [46] ++
  List.replicate 63 99 ++ [46] ++ List.replicate 62 100 ++ [46]

/-- Four labels of 63 octets each: textual form 256 octets, wire form 257. -/
def nameWire257 : List Nat :=
  List.replicate 63 97 ++ [46] ++ List.replicate 63 98 ++ [46] ++
  List.replicate 63 99 ++ [46] ++ List.replicate 63 100 ++ [46]

set_option maxRecDepth 10000

/-- Claim C8 counterexample.  The claim says a name whose encoded form
totals 256 octets fails with `NameTooLong`; in fact `appendLabel` encodes it
successfully (emitting all 256 octets), because the length guard tests the
textual form (255 octets here) rather than the encoded form. -/
theorem name_256_wire_octets_encodes :
    (appendLabel freshCtx nameWire256).2 = none ∧
    (appendLabel freshCtx nameWire256).1.rawMsg.length = 256 := by decide

/-- Claim C8 (amended).  A 63-octet label encodes and a 64-octet label fails
with `LabelTooLong`; the name limit is enforced on the textual form (at most
255 octets including the trailing dot, i.e. encoded form at most 256): wire
forms of 255 and 256 octets both encode successfully, and a name whose wire
form is 257 octets (textual form 256) fails with `NameTooLong`. -/
theorem appendLabel_length_boundaries :
    (appendLabel freshCtx name63).2 = none ∧
    (appendLabel freshCtx name63).1.rawMsg.length = 65 ∧
    (appendLabel freshCtx name64).2 = some .labelTooLong ∧
    (appendLabel freshCtx nameWire255).2 = none ∧
    (appendLabel freshCtx nameWire255).1.rawMsg.length = 255 ∧
    (appendLabel freshCtx nameWire256).2 = none ∧
    (appendLabel freshCtx nameWire256).1.rawMsg.length = 256 ∧
    (appendLabel freshCtx nameWire257).2 = some .nameTooLong := by decide

/-! ## Canonical form and key tags (`dnssec` package) -/

/-- Go `strings.Split(s, ".")` with an explicit iteration budget (each step
strictly shrinks `s`, so `s.length + 1` always suffices).  Note Go returns
`[""]` for the empty string, matching the `fuel = 0`/`none` branches. -/
def goSplitDotF : Nat → List Nat → List (List Nat)
  | 0, s => [s]
  | fuel + 1, s =>
    match idxDot s with
    | none => [s]
    | some i => s.take i :: goSplitDotF fuel (s.drop (i + 1))

/-- Go `strings.Split(s, ".")`. -/
def goSplitDot (s : List Nat) : List (List Nat) := goSplitDotF (s.length + 1) s

/-- Shallow embedding of `dnssec.CanonicalName`: lowercase, force a trailing
dot, then emit each dot-separated part as a length byte (Go `byte(len)`,
hence `% 256`) followed by the part, terminated by a zero octet. -/
def CanonicalName (name : List Nat) : List Nat :=
  let n := lowerBytes name
  let n := if hasDotSuffix n then n else n ++ [46]
  let parts := goSplitDot n.dropLast
  (parts.map (fun l => (l.length % 256) :: l)).flatten ++ [0]

/-- Shallow embedding of `dnssec.CountLabels`: strip one trailing dot, return
0 for the empty remainder, else the dot count plus one truncated to `uint8`. -/
def CountLabels (name : List Nat) : Nat :=
  let n := if hasDotSuffix name then name.dropLast else name
  if n = [] then 0 else (n.count 46 + 1) % 256

/-- DNSKEY record data (`dnsmsg.RDataDNSKEY`). -/
structure RDataDNSKEY where
  Flags : Nat
  Protocol : Nat
  Algorithm : Nat
  PublicKey : List Nat
  deriving DecidableEq, Repr

/-- DNSKEY RDATA wire form: flags (2 bytes, big endian), protocol, algorithm,
then the public key verbatim (`KeyTag`'s `wire` buffer and
`RDataDNSKEY.encode`). -/
def dnskeyWire (k : RDataDNSKEY) : List Nat :=
  [k.Flags / 256 % 256, k.Flags % 256, k.Protocol % 256, k.Algorithm % 256] ++ k.PublicKey

/-- The RSAMD5 special case (`dnssec.keyTagAlg1`): the big-endian `uint16`
formed by the final two public-key octets, 0 if the key is shorter than 2. -/
def keyTagAlg1 (k : RDataDNSKEY) : Nat :=
  if k.PublicKey.length < 2 then 0
  else (k.PublicKey.getD (k.PublicKey.length - 2) 0) * 256 +
       (k.PublicKey.getD (k.PublicKey.length - 1) 0)

/-- The accumulation loop of `dnssec.KeyTag`: `ac` is a Go `uint32`, so every
addition is reduced `% 2^32`. -/
def keyTagAcc : List Nat → Nat → Nat → Nat
  | [], _, ac => ac
  | b :: rest, i, ac =>
    let ac := if i % 2 = 0 then (ac + b * 256) % 4294967296 else (ac + b) % 4294967296
    keyTagAcc rest (i + 1) ac

/-- Shallow embedding of `dnssec.KeyTag`.  The Go function contains a dead
prelude (it accumulates a few flag terms and then resets `ac = 0` before the
real loop); only the live computation is embedded. -/
def KeyTag (k : RDataDNSKEY) : Nat :=
  if k.Algorithm = 1 then keyTagAlg1 k
  else
    let ac := keyTagAcc (dnskeyWire k) 0 0
    let ac := (ac + ac / 65536) % 4294967296
    ac % 65536

/-- Modelled from the spec (§4.7): the RFC 4034 accumulation written as a
plain sum — `byte << 8` at even 0-based indices, `byte` at odd indices,
starting at index `i`. -/
def specKeyTagSum : List Nat → Nat → Nat
  | [], _ => 0
  | b :: rest, i => (if i % 2 = 0 then b * 256 else b) + specKeyTagSum rest (i + 1)

/-- Modelled from the spec (§4.7): `ac` is the 32-bit accumulation over the
wire-form RDATA, then `ac += ac >> 16` and the tag is `ac & 0xFFFF`. -/
def specKeyTag (k : RDataDNSKEY) : Nat :=
  let ac := specKeyTagSum (dnskeyWire k) 0 % 4294967296
  ((ac + ac / 65536) % 4294967296) % 65536

/-- The running 32-bit accumulation equals the plain sum reduced `% 2^32`. -/
theorem keyTagAcc_eq_sum :
    ∀ (l : List Nat) (i ac : Nat), ac < 4294967296 →
      keyTagAcc l i ac = (ac + specKeyTagSum l i) % 4294967296 := by
  intro l
  induction l with
  | nil => intro i ac h; simp [keyTagAcc, specKeyTagSum, Nat.mod_eq_of_lt h]
  | cons b rest ih =>
    intro i ac h
    simp only [keyTagAcc, specKeyTagSum]
    by_cases hi : i % 2 = 0
    · simp only [hi, if_true, if_pos]
      rw [ih _ _ (Nat.mod_lt _ (by norm_num)), Nat.mod_add_mod]
      ring_nf
    · simp only [hi, if_false, if_neg]
      rw [ih _ _ (Nat.mod_lt _ (by norm_num)), Nat.mod_add_mod]
      ring_nf

/-- Claim C4.  For every DNSKEY whose algorithm is not RSAMD5 (1), `KeyTag`
equals the RFC 4034 accumulation over the wire-form RDATA; for RSAMD5 keys
with at least two public-key octets it is the big-endian `uint16` formed by
the final two octets. -/
theorem KeyTag_matches_rfc4034 (k : RDataDNSKEY) :
    (k.Algorithm ≠ 1 → KeyTag k = specKeyTag k) ∧
    (k.Algorithm = 1 → 2 ≤ k.PublicKey.length →
      KeyTag k = (k.PublicKey.getD (k.PublicKey.length - 2) 0) * 256 +
                 (k.PublicKey.getD (k.PublicKey.length - 1) 0)) := by
  constructor
  · intro halg
    simp only [KeyTag, specKeyTag, halg, if_neg, if_false]
    rw [keyTagAcc_eq_sum _ _ _ (by norm_num)]
    simp
  · intro halg hlen
    simp only [KeyTag, keyTagAlg1, halg, if_pos, if_true]
    rw [if_neg (by omega)]

/-- Claim C4 witness: a non-RSAMD5 key matches the RFC accumulation, and an
RSAMD5 key's tag is its final two public-key octets (`5*256+6 = 1286`). -/
theorem KeyTag_matches_rfc4034_witness :
    KeyTag ⟨256, 3, 15, [1, 2, 3, 4]⟩ = specKeyTag ⟨256, 3, 15, [1, 2, 3, 4]⟩ ∧
    KeyTag ⟨257, 3, 1, [9, 9, 5, 6]⟩ = 5 * 256 + 6 := by
  refine ⟨(KeyTag_matches_rfc4034 _).1 (by decide), ?_⟩
  have := (KeyTag_matches_rfc4034 ⟨257, 3, 1, [9, 9, 5, 6]⟩).2 rfl (by decide)
  simpa using this

/-! ## DS records (`dnssec/ds.go`) — claim C6

The hash primitives (`crypto/sha1`, `crypto/sha256`, `crypto/sha512`) are Go
standard-library collaborators, embedded as function parameters. -/

/-- DS record data (`dnsmsg.RDataDS`). -/
structure RDataDS where
  KeyTag : Nat
  Algorithm : Nat
  DigestType : Nat
  Digest : List Nat
  deriving DecidableEq, Repr

/-- Shallow embedding of `dnssec.computeDSDigest`: hash the canonical owner
name followed by the DNSKEY RDATA, dispatching on the digest type
(1 = SHA-1, 2 = SHA-256, 4 = SHA-384); any other type is
`ErrUnsupportedDigestType`, modeled as `none`. -/
def computeDSDigest (sha1F sha256F sha384F : List Nat → List Nat)
    (owner : List Nat) (key : RDataDNSKEY) (digestType : Nat) : Option (List Nat) :=
  let data := CanonicalName owner ++ dnskeyWire key
  if digestType = 1 then some (sha1F data)
  else if digestType = 2 then some (sha256F data)
  else if digestType = 4 then some (sha384F data)
  else none

/-- Shallow embedding of `dnssec.VerifyDS`: key-tag check, algorithm check,
then digest comparison (an unsupported digest type yields `false`). -/
def VerifyDS (sha1F sha256F sha384F : List Nat → List Nat)
    (ds : RDataDS) (owner : List Nat) (key : RDataDNSKEY) : Bool :=
  if ds.KeyTag ≠ KeyTag key then false
  else if ds.Algorithm ≠ key.Algorithm then false
  else
    match computeDSDigest sha1F sha256F sha384F owner key ds.DigestType with
    | none => false
    | some digest => ds.Digest == digest

/-- Modelled from the spec (§4.8): the DS hash input `canonical_owner ||
DNSKEY_RDATA`. -/
def specDSInput (owner : List Nat) (key : RDataDNSKEY) : List Nat :=
  CanonicalName owner ++ dnskeyWire key

/-- Claim C6.  `VerifyDS` returns `true` iff the DS digest equals the hash of
`canonical_owner || DNSKEY_RDATA` under the DS's digest type (SHA-1 for
type 1, SHA-256 for type 2, SHA-384 for type 4) and the DS key tag and
algorithm match the DNSKEY; every other digest type yields `false`. -/
theorem VerifyDS_iff (sha1F sha256F sha384F : List Nat → List Nat)
    (ds : RDataDS) (owner : List Nat) (key : RDataDNSKEY) :
    VerifyDS sha1F sha256F sha384F ds owner key = true ↔
      (ds.KeyTag = KeyTag key ∧ ds.Algorithm = key.Algorithm ∧
        ((ds.DigestType = 1 ∧ ds.Digest = sha1F (specDSInput owner key)) ∨
         (ds.DigestType = 2 ∧ ds.Digest = sha256F (specDSInput owner key)) ∨
         (ds.DigestType = 4 ∧ ds.Digest = sha384F (specDSInput owner key)))) := by
  simp only [VerifyDS, computeDSDigest, specDSInput]
  by_cases hkt : ds.KeyTag = KeyTag key
  · by_cases halg : ds.Algorithm = key.Algorithm
    · simp only [hkt, halg, ne_eq, not_true_eq_false, if_false, if_neg, true_and]
      by_cases h1 : ds.DigestType = 1
      · simp [h1, beq_iff_eq]
      · by_cases h2 : ds.DigestType = 2
        · simp [h1, h2, beq_iff_eq]
        · by_cases h4 : ds.DigestType = 4
          · simp [h1, h2, h4, beq_iff_eq]
          · simp [h1, h2, h4]
    · simp [hkt, halg]
  · simp [hkt]

/-! ## The record-data model (`dnsmsg` RData implementations)

One constructor per Go implementation of the `RData` interface.  Go's
`Type`/`Class` fields are named `RType`/`RClass`/`QType`/`QClass` here
(`Type` is not a usable identifier in Lean); `DnsOpt` is a `(code, data)`
pair. -/

/-- RRSIG record data (`dnsmsg.RDataRRSIG`). -/
structure RDataRRSIG where
  TypeCovered : Nat
  Algorithm : Nat
  Labels : Nat
  OrigTTL : Nat
  Expiration : Nat
  Inception : Nat
  KeyTag : Nat
  SignerName : List Nat
  Signature : List Nat
  deriving DecidableEq, Repr

/-- The record-data variants: `RDataIP`, `RDataLabel`, `RDataRaw`,
`RDataTXT`, `RDataMX`, `RDataSOA`, `RDataOPT`, the DNSSEC records, and the
remaining per-RFC records of `part_006`. -/
inductive RData where
  | ip (ipb : List Nat) (t : Nat)
  | lbl (l : List Nat) (t : Nat)
  | raw (d : List Nat) (t : Nat)
  | txt (s : List Nat)
  | mx (pref : Nat) (server : List Nat)
  | soa (mname rname : List Nat) (serial refresh retry expire minimum : Nat)
  | opt (opts : List (Nat × List Nat))
  | dnskey (k : RDataDNSKEY)
  | rrsig (r : RDataRRSIG)
  | ds (d : RDataDS)
  | nsec (next bitmap : List Nat)
  | nsec3 (halg flags iter : Nat) (salt nexth bitmap : List Nat)
  | nsec3param (halg flags iter : Nat) (salt : List Nat)
  | cert (ctype ktag alg : Nat) (certData : List Nat)
  | tsig (alg : List Nat) (timeSigned fudge : Nat) (mac : List Nat) (origID errCode : Nat) (other : List Nat)
  | tkey (alg : List Nat) (incep expir mode errCode : Nat) (keyData other : List Nat)
  | srv (prio weight port : Nat) (target : List Nat)
  | tlsa (usage sel mtype : Nat) (certData : List Nat)
  | sshfp (alg ftype : Nat) (fp : List Nat)
  | caa (flags : Nat) (tag value : List Nat)
  | uri (prio weight : Nat) (target : List Nat)
  | naptr (order pref : Nat) (flags service regexp replacement : List Nat)
  | hinfo (cpu os : List Nat)
  | rp (mbox txtName : List Nat)
  | afsdb (subtype : Nat) (hostname : List Nat)
  deriving DecidableEq, Repr

/-- Numeric record type of each variant (the Go `GetType` methods). -/
def RData.getType : RData → Nat
  | .ip _ t => t
  | .lbl _ t => t
  | .raw _ t => t
  | .txt _ => 16
  | .mx _ _ => 15
  | .soa _ _ _ _ _ _ _ => 6
  | .opt _ => 41
  | .dnskey _ => 48
  | .rrsig _ => 46
  | .ds _ => 43
  | .nsec _ _ => 47
  | .nsec3 _ _ _ _ _ _ => 50
  | .nsec3param _ _ _ _ => 51
  | .cert _ _ _ _ => 37
  | .tsig _ _ _ _ _ _ _ => 250
  | .tkey _ _ _ _ _ _ _ => 249
  | .srv _ _ _ _ => 33
  | .tlsa _ _ _ _ => 52
  | .sshfp _ _ _ => 44
  | .caa _ _ _ => 257
  | .uri _ _ _ => 256
  | .naptr _ _ _ _ _ _ => 35
  | .hinfo _ _ => 13
  | .rp _ _ => 17
  | .afsdb _ _ => 18

/-- A DNS question (`dnsmsg.Question`). -/
structure Question where
  Name : List Nat
  QType : Nat
  QClass : Nat
  deriving DecidableEq, Repr

/-- A DNS resource record (`dnsmsg.Resource`). -/
structure Resource where
  Name : List Nat
  RType : Nat
  RClass : Nat
  TTL : Nat
  Data : RData
  deriving DecidableEq, Repr

/-- A DNS message (`dnsmsg.Message`, msg.go lines 81-107). -/
structure Message where
  ID : Nat
  Bits : Nat
  Question : List Question
  Answer : List Resource
  Authority : List Resource
  Additional : List Resource
  HasEDNS : Bool
  Opts : List (Nat × List Nat)
  ReqUDPSize : Nat
  OptRCode : Nat
  Base : List Nat
  deriving DecidableEq, Repr

/-! ## Record-data encoders (`encode` methods) -/

/-- Error-propagating sequencing of context transformers: Go's
`if err != nil { return err }` between writes. -/
def andThen (r : Ctx × Option DnsErr) (f : Ctx → Ctx × Option DnsErr) : Ctx × Option DnsErr :=
  match r with
  | (c, some e) => (c, some e)
  | (c, none) => f c

/-- Go `net.IP.To4`: a 4-byte address, or the low 4 bytes of a
v4-in-v6-mapped 16-byte address. -/
def goTo4 (ip : List Nat) : Option (List Nat) :=
  if ip.length = 4 then some ip
  else if ip.length = 16 ∧ ip.take 12 = [0, 0, 0, 0, 0, 0, 0, 0, 0, 0, 255, 255] then
    some (ip.drop 12)
  else none

/-- Go `net.IP.To16`: a 16-byte address, or a 4-byte address widened to its
v4-in-v6-mapped form. -/
def goTo16 (ip : List Nat) : Option (List Nat) :=
  if ip.length = 16 then some ip
  else if ip.length = 4 then some ([0, 0, 0, 0, 0, 0, 0, 0, 0, 0, 255, 255] ++ ip)
  else none

/-- TXT wire form (`RDataTXT.encode`): split into length-prefixed chunks of
at most 255 octets; the budget (one chunk per unit) makes the recursion
structural, and `data.length + 1` always suffices. -/
def txtChunksF : Nat → List Nat → List Nat
  | 0, _ => []
  | fuel + 1, data =>
    match data with
    | [] => []
    | _ :: _ =>
      let n := min data.length 255
      (n :: data.take n) ++ txtChunksF fuel (data.drop n)

/-- TXT wire form. -/
def txtChunks (data : List Nat) : List Nat := txtChunksF (data.length + 1) data

/-- A length-prefixed character string (`writeCharString`). -/
def writeCharString (c : Ctx) (s : List Nat) : Ctx × Option DnsErr :=
  if s.length > 255 then (c, some .invalidLen)
  else (wr c ([s.length] ++ s), none)

/-- OPT RDATA: the `(code, length, data)` option triples
(`RDataOPT.encode`). -/
def encodeOpts (c : Ctx) : List (Nat × List Nat) → Ctx × Option DnsErr
  | [] => (c, none)
  | (code, data) :: rest =>
    if data.length > 0xffff then (c, some .invalidLen)
    else encodeOpts (wr c (u16 code ++ u16 data.length ++ data)) rest

/-- Shallow embedding of the per-variant `encode` methods.  Multi-byte
integers are big endian; single bytes are `% 256` (Go's `byte(...)`
truncation of wider fields). -/
def encodeRData (c : Ctx) : RData → Ctx × Option DnsErr
  | .ip ipb t =>
    if t = 1 then
      match goTo4 ipb with
      | none => (c, some .notIPv4)
      | some i => (wr c i, none)
    else if t = 28 then
      match goTo16 ipb with
      | none => (c, some .notIPv6)
      | some i => (wr c i, none)
    else (c, some .badIPRecordType)
  | .lbl l _ => appendLabel c l
  | .raw d _ => (wr c d, none)
  | .txt s => (wr c (txtChunks s), none)
  | .mx pref server => appendLabel (wr c (u16 pref)) server
  | .soa mname rname serial refresh retry expire minimum =>
    andThen (appendLabel c mname) fun c =>
    andThen (appendLabel c rname) fun c =>
    (wr c (u32 serial ++ u32 refresh ++ u32 retry ++ u32 expire ++ u32 minimum), none)
  | .opt opts => encodeOpts c opts
  | .dnskey k =>
    (wr c (u16 k.Flags ++ [k.Protocol % 256, k.Algorithm % 256] ++ k.PublicKey), none)
  | .rrsig r =>
    andThen (appendLabel (wr c (u16 r.TypeCovered ++ [r.Algorithm % 256, r.Labels % 256] ++
      u32 r.OrigTTL ++ u32 r.Expiration ++ u32 r.Inception ++ u16 r.KeyTag)) r.SignerName) fun c =>
    (wr c r.Signature, none)
  | .ds d =>
    (wr c (u16 d.KeyTag ++ [d.Algorithm % 256, d.DigestType % 256] ++ d.Digest), none)
  | .nsec next bitmap =>
    andThen (appendLabel c next) fun c => (wr c bitmap, none)
  | .nsec3 halg flags iter salt nexth bitmap =>
    (wr c ([halg % 256, flags % 256] ++ u16 iter ++ [salt.length % 256] ++ salt ++
      [nexth.length % 256] ++ nexth ++ bitmap), none)
  | .nsec3param halg flags iter salt =>
    (wr c ([halg % 256, flags % 256] ++ u16 iter ++ [salt.length % 256] ++ salt), none)
  | .cert ctype ktag alg certData =>
    (wr c (u16 ctype ++ u16 ktag ++ [alg % 256] ++ certData), none)
  | .tsig alg timeSigned fudge mac origID errCode other =>
    andThen (appendLabel c alg) fun c =>
    (wr c (u48 timeSigned ++ u16 fudge ++ u16 mac.length ++ mac ++ u16 origID ++
      u16 errCode ++ u16 other.length ++ other), none)
  | .tkey alg incep expir mode errCode keyData other =>
    andThen (appendLabel c alg) fun c =>
    (wr c (u32 incep ++ u32 expir ++ u16 mode ++ u16 errCode ++ u16 keyData.length ++
      keyData ++ u16 other.length ++ other), none)
  | .srv prio weight port target =>
    appendLabel (wr c (u16 prio ++ u16 weight ++ u16 port)) target
  | .tlsa usage sel mtype certData =>
    (wr c ([usage % 256, sel % 256, mtype % 256] ++ certData), none)
  | .sshfp alg ftype fp =>
    (wr c ([alg % 256, ftype % 256] ++ fp), none)
  | .caa flags tag value =>
    (wr c ([flags % 256, tag.length % 256] ++ tag ++ value), none)
  | .uri prio weight target =>
    (wr c (u16 prio ++ u16 weight ++ target), none)
  | .naptr order pref flags service regexp replacement =>
    andThen (writeCharString (wr c (u16 order ++ u16 pref)) flags) fun c =>
    andThen (writeCharString c service) fun c =>
    andThen (writeCharString c regexp) fun c =>
    appendLabel c replacement
  | .hinfo cpu os =>
    andThen (writeCharString c cpu) fun c => writeCharString c os
  | .rp mbox txtName =>
    andThen (appendLabel c mbox) fun c => appendLabel c txtName
  | .afsdb subtype hostname =>
    appendLabel (wr c (u16 subtype)) hostname

/-- Shallow embedding of `Question.encode`: name, type, class. -/
def encodeQuestion (c : Ctx) (q : Question) : Ctx × Option DnsErr :=
  andThen (appendLabel c q.Name) fun c => (wr c (u16 q.QType ++ u16 q.QClass), none)

/-- Shallow embedding of `Resource.encode`: name, type, class, TTL, a 2-byte
RDLENGTH placeholder, the record data, then back-patch RDLENGTH with the
measured byte count.  NOTE: the Go source assigns the record-data encode
error to `err` but never checks it (`resource.go`), so a failing record-data
encode leaves partial bytes behind and the resource still "succeeds"; the
embedding reproduces this by discarding the inner error. -/
def encodeResource (c : Ctx) (r : Resource) : Ctx × Option DnsErr :=
  andThen (appendLabel c r.Name) fun c =>
    let c := wr c (u16 r.RType ++ u16 r.RClass ++ u32 r.TTL)
    let pos := c.rawMsg.length
    let c := wr c [0, 0]
    let start := c.rawMsg.length
    let c := (encodeRData c r.Data).1
    let rdlen := c.rawMsg.length - start
    if rdlen > 0xffff then (c, some .invalidLen)
    else (putU16 c pos rdlen, none)

/-- Encode a section by folding the element encoder, failing fast. -/
def encList (enc : Ctx → α → Ctx × Option DnsErr) (c : Ctx) : List α → Ctx × Option DnsErr
  | [] => (c, none)
  | x :: xs => andThen (enc c x) (fun c => encList enc c xs)

/-- Shallow embedding of `Message.MarshalBinary` (msg.go lines 120-173):
fresh context (empty buffer, empty compression cache, `name := m.Base`),
12-byte header, then the four sections.  No OPT record is synthesized from
the EDNS fields. -/
def MarshalBinary (m : Message) : Ctx × Option DnsErr :=
  let c : Ctx := ⟨[], [], m.Base, false⟩
  let c := wr c (u16 m.ID ++ u16 m.Bits ++ u16 m.Question.length ++ u16 m.Answer.length ++
                 u16 m.Authority.length ++ u16 m.Additional.length)
  andThen (encList encodeQuestion c m.Question) fun c =>
  andThen (encList encodeResource c m.Answer) fun c =>
  andThen (encList encodeResource c m.Authority) fun c =>
  encList encodeResource c m.Additional

/-- The byte slice `MarshalBinary` returns (`nil` on error). -/
def marshalBytes (m : Message) : Option (List Nat) :=
  match MarshalBinary m with
  | (c, none) => some c.rawMsg
  | (_, some _) => none

/-- The `Message` value `dnsmsg.New()` returns, with the process-wide random
transaction identifier made explicit as the `id` parameter. -/
def newMessage (id : Nat) : Message :=
  ⟨id, 0, [], [], [], [], false, [], 0, 0, []⟩

/-! ## Canonical RRset ordering and the signed-data blob
(`dnssec` CanonicalRRset / BuildSignedData, claim C3)

`CanonicalRRset` sorts with `sort.Slice` and the comparator
`bytes.Compare(encodeRData(rr_i), encodeRData(rr_j)) < 0`, where `encodeRData`
marshals a whole fresh message (`dnsmsg.New()` draws a **fresh random
transaction ID** per call) around the record and returns all of its bytes.
The random IDs are made explicit as `id` parameters, and the standard-library
sort is an uninterpreted `sortImpl` parameter. -/

/-- Go `bytes.Compare(a, b) < 0`: strict lexicographic order on byte
strings, a proper prefix ordering first. -/
def bytesLt : List Nat → List Nat → Bool
  | [], [] => false
  | [], _ :: _ => true
  | _ :: _, [] => false
  | a :: as, b :: bs => if a < b then true else if b < a then false else bytesLt as bs

/-- Shallow embedding of the `dnssec.encodeRData` sort key: marshal a fresh
message around the record and return the entire encoding (header included);
`nil` on a marshal error.  `id` is the random transaction ID `dnsmsg.New()`
draws for this call. -/
def encodeRDataSortKey (id : Nat) (rr : Resource) : List Nat :=
  match MarshalBinary { newMessage id with Answer := [rr] } with
  | (c, none) => c.rawMsg
  | (_, some _) => []

/-- Shallow embedding of `dnssec.encodeRDataDirect`: the canonical RDATA of
a record (embedded names in canonical form, no compression).  The default
branch falls back to marshalling a fresh message (again with a random
transaction ID `id`) and stripping the 12-byte header. -/
def encodeRDataDirect (id : Nat) (rr : Resource) : List Nat :=
  match rr.Data with
  | .ip ipb _ => ipb
  | .txt s => txtChunks s
  | .mx pref server => u16 pref ++ CanonicalName server
  | .soa mname rname serial refresh retry expire minimum =>
    CanonicalName mname ++ CanonicalName rname ++ u32 serial ++ u32 refresh ++
    u32 retry ++ u32 expire ++ u32 minimum
  | .lbl l _ => CanonicalName l
  | .dnskey k => dnskeyWire k
  | .ds d => u16 d.KeyTag ++ [d.Algorithm % 256, d.DigestType % 256] ++ d.Digest
  | _ =>
    match MarshalBinary { newMessage id with Answer := [rr] } with
    | (c, none) => if c.rawMsg.length > 12 then c.rawMsg.drop 12 else []
    | (_, some _) => []

/-- Shallow embedding of `dnssec.CanonicalRRset`: RRsets of at most one
record are returned unchanged; larger ones are handed to `sort.Slice`
(standard library, uninterpreted `sortImpl`) under the randomized
comparator. -/
def CanonicalRRset (sortImpl : List Resource → List Resource)
    (rrset : List Resource) : List Resource :=
  if rrset.length ≤ 1 then rrset else sortImpl rrset

/-- Shallow embedding of `dnssec.BuildSignedData`: the RRSIG RDATA without
the signature (type covered, algorithm, labels, original TTL, expiration,
inception, key tag, canonical signer name) followed by each record of the
sorted RRset as `canonical_owner || type || class || OrigTTL || rdlength ||
rdata`, with `rdata = encodeRDataDirect` (whose fallback branch draws the
random ID `ids i` for the i-th record).  The Go function's error result is
always `nil`, so the embedding returns the bytes directly. -/
def BuildSignedData (sortImpl : List Resource → List Resource) (ids : Nat → Nat)
    (rrsig : RDataRRSIG) (rrset : List Resource) : List Nat :=
  let pre := u16 rrsig.TypeCovered ++ [rrsig.Algorithm % 256, rrsig.Labels % 256] ++
             u32 rrsig.OrigTTL ++ u32 rrsig.Expiration ++ u32 rrsig.Inception ++
             u16 rrsig.KeyTag ++ CanonicalName rrsig.SignerName
  let sorted := CanonicalRRset sortImpl rrset
  pre ++ (sorted.enum.map (fun p =>
    let rr := p.2
    let rdata := encodeRDataDirect (ids p.1) rr
    CanonicalName rr.Name ++ u16 rr.RType ++ u16 rr.RClass ++ u32 rrsig.OrigTTL ++
    u16 rdata.length ++ rdata)).flatten

/-- Two A records for `example.com.` differing only in their addresses
(192.0.2.1 and 192.0.2.2): a well-formed two-element RRset. -/
def exampleName : List Nat := [101, 120, 97, 109, 112, 108, 101, 46, 99, 111, 109, 46]

/-- First member of the C3 RRset. -/
def recA1 : Resource := ⟨exampleName, 1, 1, 300, .ip [192, 0, 2, 1] 1⟩

/-- Second member of the C3 RRset. -/
def recA2 : Resource := ⟨exampleName, 1, 1, 300, .ip [192, 0, 2, 2] 1⟩

/-- Claim C3 (code_bug evidence).  The `CanonicalRRset` sort comparator does
not compare canonical RDATA: its key is the entire marshalled message whose
first two bytes are a fresh random transaction ID, so the comparison of the
same two records flips with the drawn IDs (first two conjuncts), even though
their canonical RDATA (`encodeRDataDirect`) are constantly ordered (third
conjunct); and the sort key differs from the canonical RDATA (fourth
conjunct).  Hence the signed-data blob is not a deterministic function of
the RRSIG fields and the RRset, and records are not ordered by canonical
RDATA. -/
theorem rrset_sort_key_is_randomized :
    bytesLt (encodeRDataSortKey 256 recA1) (encodeRDataSortKey 512 recA2) = true ∧
    bytesLt (encodeRDataSortKey 512 recA1) (encodeRDataSortKey 256 recA2) = false ∧
    bytesLt (encodeRDataDirect 0 recA1) (encodeRDataDirect 0 recA2) = true ∧
    encodeRDataSortKey 256 recA1 ≠ encodeRDataDirect 0 recA1 := by decide

/-! ## Signature verification (`dnssec/verify.go`) — claims C5 and C10

The Go crypto primitives (`crypto/rsa`, `crypto/ecdsa`, `crypto/ed25519` and
the SHA hash functions) are standard-library collaborators, bundled as the
uninterpreted `CryptoPrims` parameter; the repository's own wrapper logic
(key parsing, length checks, error mapping) is embedded faithfully. -/

/-- The `dnssec` error values relevant to verification. -/
inductive VerErr where
  | sigExpired | sigNotYetValid | noMatchingKey | invalidSig
  | unsupportedAlg | invalidKey | typeMismatch
  deriving DecidableEq, Repr

/-- An RSA public key (`rsa.PublicKey`; `big.Int` values are `Nat`). -/
structure RSAPub where
  N : Nat
  E : Nat
  deriving DecidableEq, Repr

/-- The hash-function selector (`crypto.Hash` constants used by the repo). -/
inductive HashK where
  | h256 | h384 | h512
  deriving DecidableEq, Repr

/-- The Go standard-library crypto primitives as uninterpreted functions.
`ecdsaVerifyF` and `isOnCurveF` take the coordinate length (32 = P-256,
48 = P-384) standing for the curve choice. -/
structure CryptoPrims where
  sha256F : List Nat → List Nat
  sha384F : List Nat → List Nat
  sha512F : List Nat → List Nat
  rsaVerifyF : RSAPub → HashK → List Nat → List Nat → Bool
  ecdsaVerifyF : Nat → Nat → Nat → List Nat → Nat → Nat → Bool
  isOnCurveF : Nat → Nat → Nat → Bool
  ed25519VerifyF : List Nat → List Nat → List Nat → Bool

/-- Tail of `parseRSAPublicKey` after the exponent length and offset have
been decoded. -/
def parseRSAKeyAt (data : List Nat) (expLen off : Nat) : Except VerErr RSAPub :=
  if data.length < off + expLen then .error .invalidKey
  else
    let expBytes := (data.drop off).take expLen
    let modBytes := data.drop (off + expLen)
    if modBytes.length = 0 then .error .invalidKey
    else
      let e := bytesToNat expBytes
      if e > 2147483647 then .error .invalidKey
      else .ok ⟨bytesToNat modBytes, e⟩

/-- Shallow embedding of `dnssec.parseRSAPublicKey` (RFC 3110 layout:
1- or 3-byte exponent-length prefix, exponent, modulus).  Go additionally
rejects exponents that do not fit `int64`; for natural numbers that check is
subsumed by the `2^31 - 1` bound. -/
def parseRSAPublicKey (data : List Nat) : Except VerErr RSAPub :=
  if data.length < 3 then .error .invalidKey
  else if data.getD 0 0 = 0 then
    if data.length < 4 then .error .invalidKey
    else parseRSAKeyAt data ((data.getD 1 0) * 256 + data.getD 2 0) 3
  else parseRSAKeyAt data (data.getD 0 0) 1

/-- Shallow embedding of `dnssec.verifyRSA`: parse the key, hash per the
selector (the Go switch supports SHA-256 and SHA-512, anything else is
`ErrUnsupportedAlgorithm`), then PKCS#1 v1.5 verification; a crypto failure
surfaces as `ErrInvalidSignature`. -/
def verifyRSA (P : CryptoPrims) (pubKeyData data sig : List Nat) (h : HashK) : Option VerErr :=
  match parseRSAPublicKey pubKeyData with
  | .error e => some e
  | .ok pub =>
    match h with
    | .h256 => if P.rsaVerifyF pub .h256 (P.sha256F data) sig then none else some .invalidSig
    | .h512 => if P.rsaVerifyF pub .h512 (P.sha512F data) sig then none else some .invalidSig
    | .h384 => some .unsupportedAlg

/-- Shallow embedding of `dnssec.parseECDSAPublicKey`: `X || Y`, each
`coordLen` bytes, curve chosen by `coordLen`, point-on-curve required. -/
def parseECDSAPublicKey (P : CryptoPrims) (data : List Nat) (coordLen : Nat) :
    Except VerErr (Nat × Nat) :=
  if data.length ≠ coordLen * 2 then .error .invalidKey
  else if coordLen ≠ 32 ∧ coordLen ≠ 48 then .error .invalidKey
  else
    let x := bytesToNat (data.take coordLen)
    let y := bytesToNat (data.drop coordLen)
    if P.isOnCurveF coordLen x y then .ok (x, y) else .error .invalidKey

/-- Shallow embedding of `dnssec.verifyECDSA`: parse the key, check the
signature is `r || s` of the right length, hash per the selector (SHA-256
and SHA-384 supported), then curve verification. -/
def verifyECDSA (P : CryptoPrims) (pubKeyData data sig : List Nat) (h : HashK)
    (coordLen : Nat) : Option VerErr :=
  match parseECDSAPublicKey P pubKeyData coordLen with
  | .error e => some e
  | .ok (x, y) =>
    if sig.length ≠ coordLen * 2 then some .invalidSig
    else
      let r := bytesToNat (sig.take coordLen)
      let s := bytesToNat (sig.drop coordLen)
      match h with
      | .h256 => if P.ecdsaVerifyF coordLen x y (P.sha256F data) r s then none else some .invalidSig
      | .h384 => if P.ecdsaVerifyF coordLen x y (P.sha384F data) r s then none else some .invalidSig
      | .h512 => some .unsupportedAlg

/-- Shallow embedding of `dnssec.verifyEd25519`: size checks then pure
EdDSA over the raw signed data. -/
def verifyEd25519 (P : CryptoPrims) (pubKeyData data sig : List Nat) : Option VerErr :=
  if pubKeyData.length ≠ 32 then some .invalidKey
  else if sig.length ≠ 64 then some .invalidSig
  else if P.ed25519VerifyF pubKeyData data sig then none else some .invalidSig

/-- The algorithm-dispatch switch at the end of `VerifyRRSIGAt`. -/
def verifyAlgSwitch (P : CryptoPrims) (rrsig : RDataRRSIG) (key : RDataDNSKEY)
    (signedData : List Nat) : Option VerErr :=
  if rrsig.Algorithm = 8 then verifyRSA P key.PublicKey signedData rrsig.Signature .h256
  else if rrsig.Algorithm = 10 then verifyRSA P key.PublicKey signedData rrsig.Signature .h512
  else if rrsig.Algorithm = 13 then verifyECDSA P key.PublicKey signedData rrsig.Signature .h256 32
  else if rrsig.Algorithm = 14 then verifyECDSA P key.PublicKey signedData rrsig.Signature .h384 48
  else if rrsig.Algorithm = 15 then verifyEd25519 P key.PublicKey signedData rrsig.Signature
  else some .unsupportedAlg

/-- A placeholder resource for the (never-consulted) `rrset.headD` default. -/
def defaultResource : Resource := ⟨[], 0, 0, 0, .raw [] 0⟩

/-- Shallow embedding of `dnssec.VerifyRRSIGAt` (verify.go lines 43-89):
expiration check, inception check, key-tag check, algorithm check, the
type-covered check guarded by `len(rrset) > 0`, then the signed-data build
(whose Go error result is always `nil`) and the algorithm dispatch.
`now` is the `uint32`-truncated Unix time. -/
def VerifyRRSIGAt (P : CryptoPrims) (sortImpl : List Resource → List Resource)
    (ids : Nat → Nat) (rrsig : RDataRRSIG) (key : RDataDNSKEY)
    (rrset : List Resource) (now : Nat) : Option VerErr :=
  if now > rrsig.Expiration then some .sigExpired
  else if now < rrsig.Inception then some .sigNotYetValid
  else if KeyTag key ≠ rrsig.KeyTag then some .noMatchingKey
  else if key.Algorithm ≠ rrsig.Algorithm then some .noMatchingKey
  else if rrset.length > 0 ∧ (rrset.headD defaultResource).RType ≠ rrsig.TypeCovered then
    some .typeMismatch
  else verifyAlgSwitch P rrsig key (BuildSignedData sortImpl ids rrsig rrset)

/-- `parseRSAKeyAt` fails only with `InvalidKey`. -/
theorem parseRSAKeyAt_err {data : List Nat} {expLen off : Nat} {e : VerErr}
    (h : parseRSAKeyAt data expLen off = .error e) : e = .invalidKey := by
  unfold parseRSAKeyAt at h
  split at h
  · simp_all
  · simp only [] at h
    split at h
    · simp_all
    · split at h <;> simp_all

/-- `parseRSAPublicKey` fails only with `InvalidKey`. -/
theorem parseRSAPublicKey_err {data : List Nat} {e : VerErr}
    (h : parseRSAPublicKey data = .error e) : e = .invalidKey := by
  unfold parseRSAPublicKey at h
  split_ifs at h
  all_goals first
    | exact parseRSAKeyAt_err h
    | simp_all

/-- `parseECDSAPublicKey` fails only with `InvalidKey`. -/
theorem parseECDSAPublicKey_err {P : CryptoPrims} {data : List Nat} {coordLen : Nat}
    {e : VerErr} (h : parseECDSAPublicKey P data coordLen = .error e) :
    e = .invalidKey := by
  unfold parseECDSAPublicKey at h
  split at h
  · simp_all
  · split at h
    · simp_all
    · simp only [] at h
      split at h <;> simp_all

/-- `verifyRSA` only surfaces key, signature, or algorithm errors. -/
theorem verifyRSA_err_mem {P : CryptoPrims} {pk d s : List Nat} {hk : HashK} {e : VerErr}
    (h : verifyRSA P pk d s hk = some e) :
    e = .invalidKey ∨ e = .invalidSig ∨ e = .unsupportedAlg := by
  unfold verifyRSA at h
  split at h
  · exact Or.inl (by have := parseRSAPublicKey_err ‹_›; simp_all)
  · cases hk <;> simp only at h <;> repeat' split at h
    all_goals simp_all

/-- `verifyECDSA` only surfaces key, signature, or algorithm errors. -/
theorem verifyECDSA_err_mem {P : CryptoPrims} {pk d s : List Nat} {hk : HashK}
    {coordLen : Nat} {e : VerErr} (h : verifyECDSA P pk d s hk coordLen = some e) :
    e = .invalidKey ∨ e = .invalidSig ∨ e = .unsupportedAlg := by
  unfold verifyECDSA at h
  split at h
  · exact Or.inl (by have := parseECDSAPublicKey_err ‹_›; simp_all)
  · split at h
    · simp_all
    · cases hk <;> simp only at h <;> repeat' split at h
      all_goals simp_all

/-- `verifyEd25519` only surfaces key or signature errors. -/
theorem verifyEd25519_err_mem {P : CryptoPrims} {pk d s : List Nat} {e : VerErr}
    (h : verifyEd25519 P pk d s = some e) :
    e = .invalidKey ∨ e = .invalidSig ∨ e = .unsupportedAlg := by
  unfold verifyEd25519 at h
  repeat' split at h
  all_goals simp_all

/-- The algorithm dispatch only surfaces key/signature/algorithm errors:
never a time-window error and never `TypeMismatch`. -/
theorem verifyAlgSwitch_err_range (P : CryptoPrims) (rrsig : RDataRRSIG)
    (key : RDataDNSKEY) (signedData : List Nat) :
    verifyAlgSwitch P rrsig key signedData ≠ some .sigExpired ∧
    verifyAlgSwitch P rrsig key signedData ≠ some .sigNotYetValid ∧
    verifyAlgSwitch P rrsig key signedData ≠ some .typeMismatch := by
  have core : ∀ e, verifyAlgSwitch P rrsig key signedData = some e →
      e = .invalidKey ∨ e = .invalidSig ∨ e = .unsupportedAlg := by
    intro e h
    unfold verifyAlgSwitch at h
    repeat' split at h
    all_goals first
      | exact verifyRSA_err_mem h
      | exact verifyECDSA_err_mem h
      | exact verifyEd25519_err_mem h
      | simp_all
  refine ⟨?_, ?_, ?_⟩ <;> · intro h; rcases core _ h with h' | h' | h' <;> simp_all

/-- Trivial instantiation of the crypto primitives (hashes return the empty
string, every verification fails), used for the closed counterexamples and
witnesses. -/
def trivPrims : CryptoPrims :=
  ⟨fun _ => [], fun _ => [], fun _ => [],
   fun _ _ _ _ => false, fun _ _ _ _ _ _ => false, fun _ _ _ => false,
   fun _ _ _ => false⟩

/-- An RRSIG whose `Expiration` (50) precedes its `Inception` (100), used by
the claim C5 counterexample at `now = 70`. -/
def crossedRRSIG : RDataRRSIG := ⟨1, 15, 2, 300, 50, 100, 1039, exampleName, []⟩

/-- An Ed25519 DNSKEY with an all-zero 32-byte key; its key tag is 1039. -/
def edKey : RDataDNSKEY := ⟨256, 3, 15, List.replicate 32 0⟩

/-- Claim C5 counterexample.  At `now = 70 < Inception = 100` (with
`Expiration = 50`), the claim requires `SignatureNotYetValid`; the code
checks expiration first and returns `SignatureExpired`. -/
theorem verify_time_order_counterexample :
    VerifyRRSIGAt trivPrims id (fun _ => 0) crossedRRSIG edKey [] 70 = some .sigExpired ∧
    some VerErr.sigExpired ≠ some VerErr.sigNotYetValid := by decide

/-- Claim C5 (amended).  With `now` a 32-bit timestamp: verification fails
`SignatureExpired` whenever `now > Expiration` (this check runs first), fails
`SignatureNotYetValid` when `now ≤ Expiration` and `now < Inception`, and
both time-window failures occur before any key-tag, algorithm, or
cryptographic check (the first two parts hold for every key and every
crypto primitive); when `Inception ≤ now ≤ Expiration` neither time error
is returned. -/
theorem verify_time_window (P : CryptoPrims) (sortImpl : List Resource → List Resource)
    (ids : Nat → Nat) (rrsig : RDataRRSIG) (key : RDataDNSKEY)
    (rrset : List Resource) (now : Nat) (_hnow : now < 4294967296) :
    (now > rrsig.Expiration →
      VerifyRRSIGAt P sortImpl ids rrsig key rrset now = some .sigExpired) ∧
    (now ≤ rrsig.Expiration → now < rrsig.Inception →
      VerifyRRSIGAt P sortImpl ids rrsig key rrset now = some .sigNotYetValid) ∧
    (rrsig.Inception ≤ now → now ≤ rrsig.Expiration →
      VerifyRRSIGAt P sortImpl ids rrsig key rrset now ≠ some .sigExpired ∧
      VerifyRRSIGAt P sortImpl ids rrsig key rrset now ≠ some .sigNotYetValid) := by
  refine ⟨?_, ?_, ?_⟩
  · intro hexp
    simp [VerifyRRSIGAt, hexp]
  · intro hexp hinc
    simp [VerifyRRSIGAt, hinc, Nat.not_lt.mpr hexp]
  · intro hinc hexp
    have h1 : ¬ now > rrsig.Expiration := Nat.not_lt.mpr hexp
    have h2 : ¬ now < rrsig.Inception := Nat.not_lt.mpr hinc
    obtain ⟨ha, hb, -⟩ := verifyAlgSwitch_err_range P rrsig key
      (BuildSignedData sortImpl ids rrsig rrset)
    unfold VerifyRRSIGAt
    rw [if_neg h1, if_neg h2]
    constructor <;> intro hcontra <;> (repeat' split at hcontra) <;> simp_all

/-- Claim C5 witness: with inception 100 and expiration 200, `now = 300`
yields `SignatureExpired`, `now = 50` yields `SignatureNotYetValid`, and
`now = 150` yields neither time error. -/
theorem verify_time_window_witness :
    (VerifyRRSIGAt trivPrims id (fun _ => 0) ⟨1, 15, 2, 300, 200, 100, 1039, [], []⟩
        edKey [] 300 = some .sigExpired) ∧
    (VerifyRRSIGAt trivPrims id (fun _ => 0) ⟨1, 15, 2, 300, 200, 100, 1039, [], []⟩
        edKey [] 50 = some .sigNotYetValid) ∧
    (VerifyRRSIGAt trivPrims id (fun _ => 0) ⟨1, 15, 2, 300, 200, 100, 1039, [], []⟩
        edKey [] 150 ≠ some .sigExpired) := by
  refine ⟨?_, ?_, ?_⟩
  · exact (verify_time_window trivPrims id (fun _ => 0) _ edKey [] 300 (by decide)).1
      (by decide)
  · exact (verify_time_window trivPrims id (fun _ => 0) _ edKey [] 50 (by decide)).2.1
      (by decide) (by decide)
  · exact ((verify_time_window trivPrims id (fun _ => 0) _ edKey [] 150 (by decide)).2.2
      (by decide) (by decide)).1

/-- Claim C10.  For an empty RRset, `VerifyRRSIGAt` never returns
`TypeMismatch` (the type-covered comparison is guarded by
`len(rrset) > 0`), and once the time window, key tag and algorithm checks
pass it proceeds to build the signed data over the empty RRset and run the
cryptographic dispatch. -/
theorem verify_empty_rrset_no_type_mismatch (P : CryptoPrims)
    (sortImpl : List Resource → List Resource) (ids : Nat → Nat)
    (rrsig : RDataRRSIG) (key : RDataDNSKEY) (now : Nat) :
    VerifyRRSIGAt P sortImpl ids rrsig key [] now ≠ some .typeMismatch ∧
    (now ≤ rrsig.Expiration → rrsig.Inception ≤ now →
      KeyTag key = rrsig.KeyTag → key.Algorithm = rrsig.Algorithm →
      VerifyRRSIGAt P sortImpl ids rrsig key [] now =
        verifyAlgSwitch P rrsig key (BuildSignedData sortImpl ids rrsig [])) := by
  constructor
  · intro h
    obtain ⟨-, -, hc⟩ := verifyAlgSwitch_err_range P rrsig key
      (BuildSignedData sortImpl ids rrsig [])
    unfold VerifyRRSIGAt at h
    repeat' split at h
    all_goals simp_all
  · intro hexp hinc hkt halg
    simp [VerifyRRSIGAt, Nat.not_lt.mpr hexp, Nat.not_lt.mpr hinc, hkt, halg]

/-- Claim C10 witness: a concrete in-window, key-matching instance on the
empty RRset (the dispatch result with the trivial primitives is
`InvalidSignature`, i.e. the cryptographic check was reached). -/
theorem verify_empty_rrset_no_type_mismatch_witness :
    (VerifyRRSIGAt trivPrims id (fun _ => 0) ⟨1, 15, 2, 300, 200, 100, 1039, [], []⟩
        edKey [] 150 ≠ some .typeMismatch) ∧
    (VerifyRRSIGAt trivPrims id (fun _ => 0) ⟨1, 15, 2, 300, 200, 100, 1039, [], []⟩
        edKey [] 150 =
      verifyAlgSwitch trivPrims ⟨1, 15, 2, 300, 200, 100, 1039, [], []⟩ edKey
        (BuildSignedData id (fun _ => 0) ⟨1, 15, 2, 300, 200, 100, 1039, [], []⟩ [])) := by
  refine ⟨(verify_empty_rrset_no_type_mismatch trivPrims id (fun _ => 0) _ edKey 150).1, ?_⟩
  exact (verify_empty_rrset_no_type_mismatch trivPrims id (fun _ => 0) _ edKey 150).2
    (by decide) (by decide) (by decide) (by decide)

/-! ## Signing (`dnssec/sign.go`) — claim C7 -/

/-- The signer state (`dnssec.Signer`): the DNSKEY and its key tag (the
private key lives behind the `sigF` parameter of `SignRRset`). -/
structure SignerS where
  Key : RDataDNSKEY
  keyTag : Nat
  deriving DecidableEq, Repr

/-- Signing errors. -/
inductive SignE where
  | emptyRRset | signingFailed
  deriving DecidableEq, Repr

/-- Shallow embedding of `Signer.SignRRset` (sign.go lines 54-85): reject an
empty RRset, build the RRSIG with `Labels = CountLabels(rrset[0].Name)`,
build the signed data, then sign (the `crypto.Signer` dispatch of
`Signer.sign` is the uninterpreted `sigF`, `none` = signing error). -/
def SignRRset (sigF : Nat → List Nat → Option (List Nat))
    (sortImpl : List Resource → List Resource) (ids : Nat → Nat)
    (s : SignerS) (rrset : List Resource) (signerName : List Nat)
    (ttl incep expir : Nat) : Except SignE RDataRRSIG :=
  match rrset with
  | [] => .error .emptyRRset
  | r0 :: _ =>
    let rrsig : RDataRRSIG :=
      ⟨r0.RType, s.Key.Algorithm, CountLabels r0.Name, ttl, expir, incep, s.keyTag,
       signerName, []⟩
    let signedData := BuildSignedData sortImpl ids rrsig rrset
    match sigF s.Key.Algorithm signedData with
    | none => .error .signingFailed
    | some sig => .ok { rrsig with Signature := sig }

/-- The wildcard owner name `*.example.com.` (`'*'` is byte 42). -/
def starName : List Nat := [42, 46] ++ exampleName

/-- The `Labels` field of a successfully produced RRSIG (sentinel 999 on
error). -/
def okLabels : Except SignE RDataRRSIG → Nat
  | .ok r => r.Labels
  | .error _ => 999

/-- Claim C7 (code_bug evidence).  `CountLabels` does not exclude a leading
wildcard label: for `*.example.com.` it returns 3 (the claim and RFC 4034
§3.1.3 require 2), and `SignRRset` stores that 3 in the RRSIG `Labels`
field.  The root name `.` and `example.com.` are counted as the claim
states (0 and 2). -/
theorem signrrset_wildcard_labels :
    CountLabels starName = 3 ∧ CountLabels [46] = 0 ∧ CountLabels exampleName = 2 ∧
    okLabels (SignRRset (fun _ _ => some []) id (fun _ => 0) ⟨⟨256, 3, 15, []⟩, 0⟩
      [⟨starName, 1, 1, 300, .ip [192, 0, 2, 1] 1⟩] exampleName 300 100 200) = 3 := by
  decide

/-! ## Message decoding (`Parse` / `UnmarshalBinary`, claim C2)

The decoder threads `(msg, rpos)` explicitly.  The Go name decoder recurses
without bound (see claim C1); the embedding passes every `readLabel` call
the budget `parseFuel msg`, which (as proved below) suffices for every
buffer the encoder can produce.  A budget exhaustion surfaces as the
sentinel `outOfRecursionBudget`, which the round-trip theorem shows is
never reached on encoder output. -/

/-- Sentinel errors of the decode embedding: `outOfRecursionBudget` stands
for a still-running (divergent) Go name decode. -/
inductive PErr where
  | go (e : DnsErr)
  | outOfRecursionBudget
  deriving DecidableEq, Repr

instance {ε α : Type _} [DecidableEq ε] [DecidableEq α] : DecidableEq (Except ε α)
  | .error e, .error f =>
    if h : e = f then .isTrue (by rw [h]) else .isFalse (by simp [h])
  | .error _, .ok _ => .isFalse (by simp)
  | .ok _, .error _ => .isFalse (by simp)
  | .ok a, .ok b =>
    if h : a = b then .isTrue (by rw [h]) else .isFalse (by simp [h])

/-- Name-decode budget handed to every `readLabel` call by the decoder
embedding (a quadratic overapproximation of any terminating run). -/
def parseFuel (msg : List Nat) : Nat :=
  (msg.length + 2) * (msg.length + 2) + msg.length + 2

/-- Wrapper around `readLabelGo` used for names inside RDATA slices
(Go `c.readLabel(d)`), with an explicit recursion budget `F`; the Go
original recurses without bound, so its behavior is the `F → ∞` limit. -/
def rdReadLabel (F : Nat) (msg : List Nat) (d : List Nat) : Except PErr (List Nat × Nat) :=
  match readLabelGo msg F d [] 0 true with
  | none => .error .outOfRecursionBudget
  | some (.ok nm n) => .ok (nm, n)
  | some (.err e _ _) => .error (.go e)
  | some .panicked => .error (.go .panicOOB)

/-- Go `context.parseLabel`: EOF at the end of the buffer, otherwise a name
read at the cursor, advancing by the consumed octet count. -/
def parseLabel (F : Nat) (msg : List Nat) (rpos : Nat) : Except PErr (List Nat × Nat) :=
  if rpos ≥ msg.length then .error (.go .eof)
  else
    match rdReadLabel F msg (msg.drop rpos) with
    | .error e => .error e
    | .ok (nm, n) => .ok (nm, rpos + n)

/-- `binary.Read` of `n` bytes at the cursor (EOF at the end,
`io.ErrUnexpectedEOF` on a short read, per `io.ReadFull` semantics). -/
def readN (msg : List Nat) (rpos n : Nat) : Except PErr (List Nat × Nat) :=
  if rpos ≥ msg.length then .error (.go .eof)
  else if rpos + n > msg.length then .error (.go .unexpectedEOF)
  else .ok ((msg.drop rpos).take n, rpos + n)

/-- `binary.Read` of a big-endian `uint16` at the cursor. -/
def readU16 (msg : List Nat) (rpos : Nat) : Except PErr (Nat × Nat) :=
  match readN msg rpos 2 with
  | .error e => .error e
  | .ok (bs, p) => .ok (bs.getD 0 0 * 256 + bs.getD 1 0, p)

/-- `binary.Read` of a big-endian `uint32` at the cursor. -/
def readU32 (msg : List Nat) (rpos : Nat) : Except PErr (Nat × Nat) :=
  match readN msg rpos 4 with
  | .error e => .error e
  | .ok (bs, p) =>
    .ok (bs.getD 0 0 * 16777216 + bs.getD 1 0 * 65536 + bs.getD 2 0 * 256 + bs.getD 3 0, p)

/-- Go `context.readLen`: `nil` for a zero length, EOF past the end. -/
def readLenGo (msg : List Nat) (rpos l : Nat) : Except PErr (List Nat × Nat) :=
  if l = 0 then .ok ([], rpos)
  else if rpos + l > msg.length then .error (.go .eof)
  else .ok ((msg.drop rpos).take l, rpos + l)

/-- `parseTXT` (rdata-rfc1035.go): concatenate the character-string chunks.
The cursor loop strictly advances, so `d.length + 1` iterations suffice. -/
def parseTXTF : Nat → List Nat → Nat → List Nat → Except PErr (List Nat)
  | 0, _, _, acc => .ok acc
  | fuel + 1, d, pos, acc =>
    if pos < d.length then
      let strLen := d.getD pos 0
      if pos + 1 + strLen > d.length then .error (.go .invalidLen)
      else parseTXTF fuel d (pos + 1 + strLen) (acc ++ (d.drop (pos + 1)).take strLen)
    else .ok acc

/-- `parseTXT`. -/
def parseTXT (d : List Nat) : Except PErr (List Nat) := parseTXTF (d.length + 1) d 0 []

/-- `RDataOPT.decode`: read `(code, length, data)` triples until the RDATA
is exhausted (`binary.Read` semantics over a `bytes.Reader`). -/
def decodeOptsF : Nat → List Nat → List (Nat × List Nat) →
    Except PErr (List (Nat × List Nat))
  | 0, _, acc => .ok acc
  | fuel + 1, d, acc =>
    match d with
    | [] => .ok acc
    | [_] => .error (.go .unexpectedEOF)
    | b0 :: b1 :: rest =>
      let code := b0 * 256 + b1
      match rest with
      | [] => .error (.go .eof)
      | [_] => .error (.go .unexpectedEOF)
      | l0 :: l1 :: rest2 =>
        let l := l0 * 256 + l1
        if rest2.length < l then .error (.go .unexpectedEOF)
        else decodeOptsF fuel (rest2.drop l) (acc ++ [(code, rest2.take l)])

/-- `RDataOPT.decode`. -/
def decodeOpts (d : List Nat) : Except PErr (List (Nat × List Nat)) :=
  decodeOptsF (d.length + 1) d []

/-- `RDataSOA.decode`: two names then five 32-bit integers. -/
def decodeSOA (F : Nat) (msg d : List Nat) : Except PErr RData :=
  match rdReadLabel F msg d with
  | .error e => .error e
  | .ok (mname, n) =>
    let d := d.drop n
    match rdReadLabel F msg d with
    | .error e => .error e
    | .ok (rname, n2) =>
      let d := d.drop n2
      if d.length < 20 then .error (.go .invalidLen)
      else
        .ok (.soa mname rname
          (d.getD 0 0 * 16777216 + d.getD 1 0 * 65536 + d.getD 2 0 * 256 + d.getD 3 0)
          (d.getD 4 0 * 16777216 + d.getD 5 0 * 65536 + d.getD 6 0 * 256 + d.getD 7 0)
          (d.getD 8 0 * 16777216 + d.getD 9 0 * 65536 + d.getD 10 0 * 256 + d.getD 11 0)
          (d.getD 12 0 * 16777216 + d.getD 13 0 * 65536 + d.getD 14 0 * 256 + d.getD 15 0)
          (d.getD 16 0 * 16777216 + d.getD 17 0 * 65536 + d.getD 18 0 * 256 + d.getD 19 0))

/-- Big-endian `uint16` of two adjacent list entries. -/
def be16 (d : List Nat) (i : Nat) : Nat := d.getD i 0 * 256 + d.getD (i + 1) 0

/-- Big-endian `uint32` of four adjacent list entries. -/
def be32 (d : List Nat) (i : Nat) : Nat :=
  d.getD i 0 * 16777216 + d.getD (i + 1) 0 * 65536 + d.getD (i + 2) 0 * 256 + d.getD (i + 3) 0

/-- `readCharString` (part_006): a length-prefixed string inside RDATA. -/
def readCharString (d : List Nat) : Except PErr (List Nat × Nat) :=
  match d with
  | [] => .error (.go .invalidLen)
  | strLen :: rest =>
    if rest.length < strLen then .error (.go .invalidLen)
    else .ok (rest.take strLen, 1 + strLen)

/-- `RDataTSIG.decode`. -/
def decodeTSIG (F : Nat) (msg d : List Nat) : Except PErr RData :=
  if d.length < 1 then .error (.go .invalidLen)
  else
    match rdReadLabel F msg d with
    | .error e => .error e
    | .ok (alg, n) =>
      let d := d.drop n
      if d.length < 16 then .error (.go .invalidLen)
      else
        let timeSigned := d.getD 0 0 * 1099511627776 + d.getD 1 0 * 4294967296 +
          d.getD 2 0 * 16777216 + d.getD 3 0 * 65536 + d.getD 4 0 * 256 + d.getD 5 0
        let fudge := be16 d 6
        let macLen := be16 d 8
        let d := d.drop 10
        if d.length < macLen + 6 then .error (.go .invalidLen)
        else
          let mac := d.take macLen
          let d := d.drop macLen
          let origID := be16 d 0
          let errCode := be16 d 2
          let otherLen := be16 d 4
          let d := d.drop 6
          if d.length < otherLen then .error (.go .invalidLen)
          else .ok (.tsig alg timeSigned fudge mac origID errCode (d.take otherLen))

/-- `RDataTKEY.decode`. -/
def decodeTKEY (F : Nat) (msg d : List Nat) : Except PErr RData :=
  if d.length < 1 then .error (.go .invalidLen)
  else
    match rdReadLabel F msg d with
    | .error e => .error e
    | .ok (alg, n) =>
      let d := d.drop n
      if d.length < 16 then .error (.go .invalidLen)
      else
        let incep := be32 d 0
        let expir := be32 d 4
        let mode := be16 d 8
        let errCode := be16 d 10
        let keyLen := be16 d 12
        let d := d.drop 14
        if d.length < keyLen + 2 then .error (.go .invalidLen)
        else
          let keyData := d.take keyLen
          let d := d.drop keyLen
          let otherLen := be16 d 0
          let d := d.drop 2
          if d.length < otherLen then .error (.go .invalidLen)
          else .ok (.tkey alg incep expir mode errCode keyData (d.take otherLen))

/-- `RDataNAPTR.decode`. -/
def decodeNAPTR (F : Nat) (msg d : List Nat) : Except PErr RData :=
  if d.length < 4 then .error (.go .invalidLen)
  else
    let order := be16 d 0
    let pref := be16 d 2
    let d := d.drop 4
    match readCharString d with
    | .error e => .error e
    | .ok (flags, r1) =>
      let d := d.drop r1
      match readCharString d with
      | .error e => .error e
      | .ok (service, r2) =>
        let d := d.drop r2
        match readCharString d with
        | .error e => .error e
        | .ok (regexp, r3) =>
          let d := d.drop r3
          match rdReadLabel F msg d with
          | .error e => .error e
          | .ok (replacement, _) => .ok (.naptr order pref flags service regexp replacement)

/-- `RDataNSEC3.decode`. -/
def decodeNSEC3 (d : List Nat) : Except PErr RData :=
  if d.length < 5 then .error (.go .invalidLen)
  else
    let saltLen := d.getD 4 0
    if d.length < 5 + saltLen + 1 then .error (.go .invalidLen)
    else
      let hashLen := d.getD (5 + saltLen) 0
      if d.length < 5 + saltLen + 1 + hashLen then .error (.go .invalidLen)
      else
        .ok (.nsec3 (d.getD 0 0) (d.getD 1 0) (be16 d 2)
          ((d.drop 5).take saltLen)
          ((d.drop (6 + saltLen)).take hashLen)
          (d.drop (6 + saltLen + hashLen)))

/-- Shallow embedding of `context.parseRData` (rdata.go lines 100-323): the
per-type dispatch.  Types without a case are `ErrNotSupport`. -/
def parseRData (F : Nat) (msg : List Nat) (t : Nat) (d : List Nat) : Except PErr RData :=
  if t = 1 then
    if d.length ≠ 4 then .error (.go .invalidLen) else .ok (.ip d t)
  else if t = 2 ∨ t = 3 ∨ t = 4 ∨ t = 5 ∨ t = 7 ∨ t = 8 ∨ t = 9 ∨ t = 12 ∨ t = 39 then
    match rdReadLabel F msg d with
    | .error e => .error e
    | .ok (l, _) => .ok (.lbl l t)
  else if t = 6 then decodeSOA F msg d
  else if t = 10 then .ok (.raw d t)
  else if t = 15 then
    if d.length < 3 then .error (.go .invalidLen)
    else
      match rdReadLabel F msg (d.drop 2) with
      | .error e => .error e
      | .ok (l, _) => .ok (.mx (be16 d 0) l)
  else if t = 16 then
    match parseTXT d with
    | .error e => .error e
    | .ok s => .ok (.txt s)
  else if t = 28 then
    if d.length ≠ 16 then .error (.go .invalidLen) else .ok (.ip d t)
  else if t = 41 then
    match decodeOpts d with
    | .error e => .error e
    | .ok opts => .ok (.opt opts)
  else if t = 48 then
    if d.length < 4 then .error (.go .invalidLen)
    else .ok (.dnskey ⟨be16 d 0, d.getD 2 0, d.getD 3 0, d.drop 4⟩)
  else if t = 46 then
    if d.length < 18 then .error (.go .invalidLen)
    else
      match rdReadLabel F msg (d.drop 18) with
      | .error e => .error e
      | .ok (signerName, n) =>
        .ok (.rrsig ⟨be16 d 0, d.getD 2 0, d.getD 3 0, be32 d 4, be32 d 8, be32 d 12,
          be16 d 16, signerName, d.drop (18 + n)⟩)
  else if t = 43 then
    if d.length < 4 then .error (.go .invalidLen)
    else .ok (.ds ⟨be16 d 0, d.getD 2 0, d.getD 3 0, d.drop 4⟩)
  else if t = 47 then
    if d.length < 1 then .error (.go .invalidLen)
    else
      match rdReadLabel F msg d with
      | .error e => .error e
      | .ok (next, n) => .ok (.nsec next (d.drop n))
  else if t = 50 then decodeNSEC3 d
  else if t = 51 then
    if d.length < 5 then .error (.go .invalidLen)
    else
      let saltLen := d.getD 4 0
      if d.length < 5 + saltLen then .error (.go .invalidLen)
      else .ok (.nsec3param (d.getD 0 0) (d.getD 1 0) (be16 d 2) ((d.drop 5).take saltLen))
  else if t = 37 then
    if d.length < 5 then .error (.go .invalidLen)
    else .ok (.cert (be16 d 0) (be16 d 2) (d.getD 4 0) (d.drop 5))
  else if t = 250 then decodeTSIG F msg d
  else if t = 249 then decodeTKEY F msg d
  else if t = 33 then
    if d.length < 7 then .error (.go .invalidLen)
    else
      match rdReadLabel F msg (d.drop 6) with
      | .error e => .error e
      | .ok (target, _) => .ok (.srv (be16 d 0) (be16 d 2) (be16 d 4) target)
  else if t = 52 then
    if d.length < 3 then .error (.go .invalidLen)
    else .ok (.tlsa (d.getD 0 0) (d.getD 1 0) (d.getD 2 0) (d.drop 3))
  else if t = 44 then
    if d.length < 2 then .error (.go .invalidLen)
    else .ok (.sshfp (d.getD 0 0) (d.getD 1 0) (d.drop 2))
  else if t = 257 then
    if d.length < 2 then .error (.go .invalidLen)
    else
      let tagLen := d.getD 1 0
      if d.length < 2 + tagLen then .error (.go .invalidLen)
      else .ok (.caa (d.getD 0 0) ((d.drop 2).take tagLen) (d.drop (2 + tagLen)))
  else if t = 256 then
    if d.length < 4 then .error (.go .invalidLen)
    else .ok (.uri (be16 d 0) (be16 d 2) (d.drop 4))
  else if t = 35 then decodeNAPTR F msg d
  else if t = 13 then
    match readCharString d with
    | .error e => .error e
    | .ok (cpu, r1) =>
      match readCharString (d.drop r1) with
      | .error e => .error e
      | .ok (os, _) => .ok (.hinfo cpu os)
  else if t = 17 then
    match rdReadLabel F msg d with
    | .error e => .error e
    | .ok (mbox, n) =>
      match rdReadLabel F msg (d.drop n) with
      | .error e => .error e
      | .ok (txtName, _) => .ok (.rp mbox txtName)
  else if t = 18 then
    if d.length < 3 then .error (.go .invalidLen)
    else
      match rdReadLabel F msg (d.drop 2) with
      | .error e => .error e
      | .ok (hostname, _) => .ok (.afsdb (be16 d 0) hostname)
  else .error (.go .notSupport)

/-- Shallow embedding of `context.parseQuestion`. -/
def parseQuestion (F : Nat) (msg : List Nat) (rpos : Nat) : Except PErr (Question × Nat) :=
  match parseLabel F msg rpos with
  | .error e => .error e
  | .ok (nm, p) =>
    match readU16 msg p with
    | .error e => .error e
    | .ok (t, p) =>
      match readU16 msg p with
      | .error e => .error e
      | .ok (cl, p) => .ok (⟨nm, t, cl⟩, p)

/-- Shallow embedding of `context.parseResource`. -/
def parseResource (F : Nat) (msg : List Nat) (rpos : Nat) : Except PErr (Resource × Nat) :=
  match parseLabel F msg rpos with
  | .error e => .error e
  | .ok (nm, p) =>
    match readU16 msg p with
    | .error e => .error e
    | .ok (t, p) =>
      match readU16 msg p with
      | .error e => .error e
      | .ok (cl, p) =>
        match readU32 msg p with
        | .error e => .error e
        | .ok (ttl, p) =>
          match readU16 msg p with
          | .error e => .error e
          | .ok (l, p) =>
            match readLenGo msg p l with
            | .error e => .error e
            | .ok (rdbuf, p) =>
              match parseRData F msg t rdbuf with
              | .error e => .error e
              | .ok rd => .ok (⟨nm, t, cl, ttl, rd⟩, p)

/-- The question-section loop of `UnmarshalBinary`. -/
def parseQuestions (F : Nat) (msg : List Nat) : Nat → Nat → List Question →
    Except PErr (List Question × Nat)
  | 0, rpos, acc => .ok (acc, rpos)
  | n + 1, rpos, acc =>
    match parseQuestion F msg rpos with
    | .error e => .error e
    | .ok (q, p) => parseQuestions F msg n p (acc ++ [q])

/-- The answer/authority resource loops of `UnmarshalBinary`. -/
def parseResources (F : Nat) (msg : List Nat) : Nat → Nat → List Resource →
    Except PErr (List Resource × Nat)
  | 0, rpos, acc => .ok (acc, rpos)
  | n + 1, rpos, acc =>
    match parseResource F msg rpos with
    | .error e => .error e
    | .ok (r, p) => parseResources F msg n p (acc ++ [r])

/-- The additional-section loop of `UnmarshalBinary`: a resource of type OPT
(41) is not appended; instead it sets the EDNS fields (`HasEDNS`, `Opts`,
`ReqUDPSize` from the class field, `OptRCode` from the TTL field). -/
def parseAdditional (F : Nat) (msg : List Nat) :
    Nat → Nat → Message → Except PErr (Message × Nat)
  | 0, rpos, m => .ok (m, rpos)
  | n + 1, rpos, m =>
    match parseResource F msg rpos with
    | .error e => .error e
    | .ok (r, p) =>
      if r.RType = 41 then
        let opts := match r.Data with
          | .opt os => os
          | _ => []
        parseAdditional F msg n p
          { m with HasEDNS := true, Opts := opts, ReqUDPSize := r.RClass, OptRCode := r.TTL }
      else
        parseAdditional F msg n p { m with Additional := m.Additional ++ [r] }

/-- Shallow embedding of `Message.UnmarshalBinary` / `Parse`
(part_002 lines 20-91): header, questions, answers, authority, additional
with the OPT special case; trailing bytes are ignored.
NOTE: the Go type assertion `r.Data.(*RDataOPT)` in the OPT branch would
panic if a type-41 resource carried other data; `parseRData` always yields
an `.opt` for type 41, so the embedding's defaulting is unreachable. -/
def ParseF (F : Nat) (msg : List Nat) : Except PErr Message :=
  match readU16 msg 0 with
  | .error e => .error e
  | .ok (id, p) =>
    match readU16 msg p with
    | .error e => .error e
    | .ok (bits, p) =>
      match readU16 msg p with
      | .error e => .error e
      | .ok (qd, p) =>
        match readU16 msg p with
        | .error e => .error e
        | .ok (an, p) =>
          match readU16 msg p with
          | .error e => .error e
          | .ok (ns, p) =>
            match readU16 msg p with
            | .error e => .error e
            | .ok (ar, p) =>
              match parseQuestions F msg qd p [] with
              | .error e => .error e
              | .ok (qs, p) =>
                match parseResources F msg an p [] with
                | .error e => .error e
                | .ok (ans, p) =>
                  match parseResources F msg ns p [] with
                  | .error e => .error e
                  | .ok (auth, p) =>
                    match parseAdditional F msg ar p
                        ⟨id, bits, qs, ans, auth, [], false, [], 0, 0, []⟩ with
                    | .error e => .error e
                    | .ok (m, _) => .ok m

/-- The Go `Parse` entry point: the budget `parseFuel msg` is large enough
for every terminating Go decode of `msg` (and in particular for every
encoder output, as the round-trip theorem shows). -/
def Parse (msg : List Nat) : Except PErr Message := ParseF (parseFuel msg) msg

/-! ## Round-trip infrastructure: pointer arithmetic -/

theorem lor_high {off : Nat} (h : off < 16384) : off ||| 49152 = 49152 + off := by
  have h2 : off < 2 ^ 14 := by omega
  calc off ||| 49152 = 49152 ||| off := Nat.or_comm _ _
    _ = 2 ^ 14 * 3 ||| off := by norm_num
    _ = 2 ^ 14 * 3 + off := (Nat.mul_add_lt_is_or h2 3).symm
    _ = 49152 + off := by norm_num

theorem and14 (x : Nat) : x &&& 16383 = x % 16384 := by
  have h : (16383 : Nat) = 2 ^ 14 - 1 := by norm_num
  have h2 : (16384 : Nat) = 2 ^ 14 := by norm_num
  rw [h, h2, Nat.and_pow_two_sub_one_eq_mod]

theorem u16_ptr {off : Nat} (h : off < 16384) :
    u16 (49152 + off) = [192 + off / 256, off % 256] := by
  simp only [u16, List.cons.injEq, and_true]
  constructor <;> omega

theorem ptrByte_and {off : Nat} (h : off < 16384) : (192 + off / 256) &&& 192 = 192 := by
  have h64 : off / 256 < 64 := by omega
  have : ∀ x, x < 64 → (192 + x) &&& 192 = 192 := by decide
  exact this _ h64

theorem ptrBytes_decode {off : Nat} (h : off < 16384) :
    ((192 + off / 256) * 256 + off % 256) &&& 16383 = off := by
  have h1 : (192 + off / 256) * 256 + off % 256 = 49152 + off := by omega
  rw [h1, and14]
  omega

theorem lowByte_and {v : Nat} (h : v ≤ 63) : v &&& 192 = 0 := by
  have : ∀ x, x < 64 → x &&& 192 = 0 := by decide
  exact this _ (by omega)

theorem ptrByte_ne_zero {v : Nat} (h : v &&& 192 = 192) : v ≠ 0 := by
  intro h0
  rw [h0] at h
  simp at h

/-! ## Round-trip infrastructure: list positioning -/

theorem getElem?_lt {l : List Nat} {n a : Nat} (h : l[n]? = some a) : n < l.length :=
  (List.getElem?_eq_some.1 h).1

theorem getElem?_of_drop {msg : List Nat} {q : Nat} {v : Nat} {tl : List Nat}
    (h : msg.drop q = v :: tl) : msg[q]? = some v := by
  have h0 : (msg.drop q)[0]? = some v := by rw [h]; simp
  rw [List.getElem?_drop] at h0
  simpa using h0

theorem drop_succ_of_drop {msg : List Nat} {q : Nat} {v : Nat} {tl : List Nat}
    (h : msg.drop q = v :: tl) : msg.drop (q + 1) = tl := by
  have h1 : (msg.drop q).drop 1 = tl := by rw [h]; rfl
  rwa [List.drop_drop] at h1

theorem pos_lt_of_drop {msg W rest : List Nat} {q : Nat}
    (h : msg.drop q = W ++ rest) (hW : W ≠ []) : q < msg.length := by
  by_contra hq
  rw [List.drop_eq_nil_of_le (by omega)] at h
  exact hW (by cases W <;> simp_all)

theorem getElem?_ext_left {msg ext : List Nat} {q : Nat} (h : q < msg.length) :
    (msg ++ ext)[q]? = msg[q]? := by
  rw [List.getElem?_append]
  simp [h]

/-! ## Round-trip infrastructure: relocatable name derivations

`SuffN msg a hi p nm` certifies that decoding a name at offset `p` of `msg`
(in pointer-following mode, where the octet count is frozen) terminates and
yields `nm`, reading only positions below `hi` and outside the two-byte
window `a` (the RDLENGTH placeholder being patched, if any).  The bound and
the window make the derivation stable under appends and placeholder
patches, which is how encoder-produced derivations survive until the final
message is assembled. -/

/-- Position `i` avoids the optional two-byte window `a`. -/
def notW : Option Nat → Nat → Prop
  | none, _ => True
  | some b, i => i < b ∨ b + 2 ≤ i

/-- Decoding the name at offset `p` of `msg` yields `nm`; all reads are
below `hi` and outside the window `a`. -/
inductive SuffN (msg : List Nat) (a : Option Nat) (hi : Nat) : Nat → List Nat → Prop where
  | zero {p : Nat} (hb : msg[p]? = some 0) (hhi : p + 1 ≤ hi) (hw : notW a p) :
      SuffN msg a hi p []
  | lab {p v : Nat} {nm : List Nat} (hb : msg[p]? = some v) (h1 : 1 ≤ v) (h63 : v ≤ 63)
      (hlt : p + 1 + v < msg.length) (hhi : p + 1 + v ≤ hi)
      (hw : ∀ i, p ≤ i → i < p + 1 + v → notW a i)
      (h : SuffN msg a hi (p + 1 + v) nm) :
      SuffN msg a hi p ((msg.drop (p + 1)).take v ++ 46 :: nm)
  | ptr {p v w : Nat} {nm : List Nat} (hb : msg[p]? = some v) (hb2 : msg[p + 1]? = some w)
      (hand : v &&& 192 = 192) (hhi : p + 2 ≤ hi) (hw1 : notW a p) (hw2 : notW a (p + 1))
      (h : SuffN msg a hi ((v * 256 + w) &&& 16383) nm) :
      SuffN msg a hi p nm

theorem SuffN.pos_lt {msg : List Nat} {a : Option Nat} {hi p : Nat} {nm : List Nat}
    (h : SuffN msg a hi p nm) : p < msg.length := by
  cases h with
  | zero hb _ _ => exact getElem?_lt hb
  | lab hb _ _ _ _ _ _ => exact getElem?_lt hb
  | ptr hb _ _ _ _ _ _ => exact getElem?_lt hb

theorem SuffN.clearW {msg : List Nat} {b : Nat} {hi p : Nat} {nm : List Nat}
    (h : SuffN msg (some b) hi p nm) : SuffN msg none hi p nm := by
  induction h with
  | zero hb hhi _ => exact .zero hb hhi trivial
  | lab hb h1 h63 hlt hhi _ _ ih => exact .lab hb h1 h63 hlt hhi (fun _ _ _ => trivial) ih
  | ptr hb hb2 hand hhi _ _ _ ih => exact .ptr hb hb2 hand hhi trivial trivial ih

theorem SuffN.setW {msg : List Nat} {b : Nat} {hi p : Nat} {nm : List Nat}
    (hb' : hi ≤ b) (h : SuffN msg none hi p nm) : SuffN msg (some b) hi p nm := by
  induction h with
  | zero hb hhi _ => exact .zero hb hhi (Or.inl (by omega))
  | lab hb h1 h63 hlt hhi _ _ ih =>
    exact .lab hb h1 h63 hlt hhi (fun i _ h2 => Or.inl (by omega)) ih
  | ptr hb hb2 hand hhi _ _ _ ih =>
    exact .ptr hb hb2 hand hhi (Or.inl (by omega)) (Or.inl (by omega)) ih

theorem SuffN.mono {msg : List Nat} {a : Option Nat} {hi hi' p : Nat} {nm : List Nat}
    (hh : hi ≤ hi') (h : SuffN msg a hi p nm) : SuffN msg a hi' p nm := by
  induction h with
  | zero hb hhi hw => exact .zero hb (by omega) hw
  | lab hb h1 h63 hlt hhi hw _ ih => exact .lab hb h1 h63 hlt (by omega) hw ih
  | ptr hb hb2 hand hhi hw1 hw2 _ ih => exact .ptr hb hb2 hand (by omega) hw1 hw2 ih

/-- Segment transport: a window-avoiding below-`hi` slice is unchanged when
only bytes at or above `hi` or inside the window differ. -/
theorem seg_stab {msg msg' : List Nat} {a : Option Nat} {hi p v : Nat}
    (heq : ∀ q, q < hi → notW a q → msg'[q]? = msg[q]?)
    (hhi : p + 1 + v ≤ hi) (hw : ∀ i, p ≤ i → i < p + 1 + v → notW a i) :
    (msg'.drop (p + 1)).take v = (msg.drop (p + 1)).take v := by
  refine List.ext_getElem? fun i => ?_
  rw [List.getElem?_take, List.getElem?_take, List.getElem?_drop, List.getElem?_drop]
  split
  · exact heq (p + 1 + i) (by omega) (hw (p + 1 + i) (by omega) (by omega))
  · rfl

/-- Master stability: a derivation survives any rewrite of the message that
preserves its length lower bound and every readable position. -/
theorem SuffN.stab {msg msg' : List Nat} {a : Option Nat} {hi p : Nat} {nm : List Nat}
    (hlen : msg.length ≤ msg'.length)
    (heq : ∀ q, q < hi → notW a q → msg'[q]? = msg[q]?)
    (h : SuffN msg a hi p nm) : SuffN msg' a hi p nm := by
  induction h with
  | @zero p hb hhi hw =>
    exact .zero (by rw [heq p (by omega) hw]; exact hb) hhi hw
  | @lab p v nm hb h1 h63 hlt hhi hw _ ih =>
    have hseg := seg_stab heq hhi hw
    rw [← hseg]
    exact .lab (by rw [heq p (by omega) (hw p (by omega) (by omega))]; exact hb)
      h1 h63 (by omega) hhi hw ih
  | @ptr p v w nm hb hb2 hand hhi hw1 hw2 _ ih =>
    exact .ptr (by rw [heq p (by omega) hw1]; exact hb)
      (by rw [heq (p + 1) (by omega) hw2]; exact hb2) hand hhi hw1 hw2 ih

/-- A derivation is executable: `readLabelGo` in pointer-following mode
(`readMode = false`) returns the derived name and leaves the octet count
unchanged, for every sufficiently large budget. -/
theorem SuffN.run {msg : List Nat} {a : Option Nat} {hi p : Nat} {nm : List Nat}
    (h : SuffN msg a hi p nm) :
    ∃ K, ∀ f, K ≤ f → ∀ res read,
      readLabelGo msg f (msg.drop p) res read false = some (.ok (res ++ nm) read) := by
  induction h with
  | @zero p hb _ _ =>
    refine ⟨1, fun f hf res read => ?_⟩
    obtain ⟨f', rfl⟩ : ∃ f', f = f' + 1 := ⟨f - 1, by omega⟩
    obtain ⟨hlt, heq⟩ := List.getElem?_eq_some.1 hb
    rw [List.drop_eq_getElem_cons hlt, heq]
    simp [readLabelGo]
  | @lab p v nm hb h1 h63 hlt hhi hw _ ih =>
    obtain ⟨K, hK⟩ := ih
    refine ⟨K + 1, fun f hf res read => ?_⟩
    obtain ⟨f', rfl⟩ : ∃ f', f = f' + 1 := ⟨f - 1, by omega⟩
    obtain ⟨hplt, heq⟩ := List.getElem?_eq_some.1 hb
    rw [List.drop_eq_getElem_cons hplt, heq]
    have hne : ¬ (v = 0) := by omega
    have hnp : ¬ (v &&& 192 = 192) := by rw [lowByte_and h63]; omega
    have hrl : (msg.drop (p + 1)).length = msg.length - (p + 1) := List.length_drop _ _
    have hnl : ¬ (v ≥ (msg.drop (p + 1)).length) := by omega
    have hdd : (msg.drop (p + 1)).drop v = msg.drop (p + 1 + v) := by
      rw [List.drop_drop]
    simp only [readLabelGo]
    rw [if_neg hne, if_neg hnp, if_neg (by omega : ¬ (v > 63)), if_neg hnl, hdd]
    exact (hK f' (by omega) (res ++ (msg.drop (p + 1)).take v ++ [46]) read).trans
      (by simp)
  | @ptr p v w nm hb hb2 hand hhi hw1 hw2 hrec ih =>
    obtain ⟨K, hK⟩ := ih
    refine ⟨K + 1, fun f hf res read => ?_⟩
    obtain ⟨f', rfl⟩ : ∃ f', f = f' + 1 := ⟨f - 1, by omega⟩
    obtain ⟨hplt, heq⟩ := List.getElem?_eq_some.1 hb
    obtain ⟨hplt2, heq2⟩ := List.getElem?_eq_some.1 hb2
    rw [List.drop_eq_getElem_cons hplt, heq, List.drop_eq_getElem_cons hplt2, heq2]
    have hne : ¬ (v = 0) := ptrByte_ne_zero hand
    have hpos : ¬ ((v * 256 + w) &&& 16383 ≥ msg.length) := by
      have := hrec.pos_lt
      omega
    simp only [readLabelGo]
    rw [if_neg hne, if_pos hand, if_neg hpos]
    exact hK f' (by omega) res read

/-! ## Round-trip infrastructure: names at the read cursor

`LocalName msg buf nm cnt` certifies that decoding a name from the in-slice
buffer `buf` (count mode, before any pointer) yields `nm` after consuming
`cnt` octets of the slice. -/

/-- Decoding a name at the head of buffer `buf` (with `msg` available for
pointer targets) yields `nm`, consuming `cnt` octets of `buf`. -/
inductive LocalName (msg : List Nat) : List Nat → List Nat → Nat → Prop where
  | zero {rest : List Nat} : LocalName msg (0 :: rest) [] 1
  | lab {v : Nat} {rest nm : List Nat} {cnt : Nat} (h1 : 1 ≤ v) (h63 : v ≤ 63)
      (hlt : v < rest.length) (h : LocalName msg (rest.drop v) nm cnt) :
      LocalName msg (v :: rest) (rest.take v ++ 46 :: nm) (1 + v + cnt)
  | ptr {v w : Nat} {rest nm : List Nat} {hi : Nat} (hand : v &&& 192 = 192)
      (h : SuffN msg none hi ((v * 256 + w) &&& 16383) nm) :
      LocalName msg (v :: w :: rest) nm 2

/-- A cursor derivation is executable: `readLabelGo` in count mode returns
the derived name and adds the derived octet count. -/
theorem LocalName.runL {msg buf nm : List Nat} {cnt : Nat}
    (h : LocalName msg buf nm cnt) :
    ∃ K, ∀ f, K ≤ f → ∀ res read,
      readLabelGo msg f buf res read true = some (.ok (res ++ nm) (read + cnt)) := by
  induction h with
  | zero =>
    refine ⟨1, fun f hf res read => ?_⟩
    obtain ⟨f', rfl⟩ : ∃ f', f = f' + 1 := ⟨f - 1, by omega⟩
    simp [readLabelGo]
  | @lab v rest nm cnt h1 h63 hlt _ ih =>
    obtain ⟨K, hK⟩ := ih
    refine ⟨K + 1, fun f hf res read => ?_⟩
    obtain ⟨f', rfl⟩ : ∃ f', f = f' + 1 := ⟨f - 1, by omega⟩
    have hne : ¬ (v = 0) := by omega
    have hnp : ¬ (v &&& 192 = 192) := by rw [lowByte_and h63]; omega
    simp only [readLabelGo]
    rw [if_neg hne, if_neg hnp, if_neg (by omega : ¬ (v > 63)), if_neg (by omega : ¬ (v ≥ rest.length))]
    exact (hK f' (by omega) (res ++ rest.take v ++ [46]) ((read + 1) + v)).trans
      (by simp; omega)
  | @ptr v w rest nm hi hand hrec =>
    obtain ⟨K, hK⟩ := hrec.run
    refine ⟨K + 1, fun f hf res read => ?_⟩
    obtain ⟨f', rfl⟩ : ∃ f', f = f' + 1 := ⟨f - 1, by omega⟩
    have hne : ¬ (v = 0) := ptrByte_ne_zero hand
    have hpos : ¬ ((v * 256 + w) &&& 16383 ≥ msg.length) := by
      have := hrec.pos_lt
      omega
    simp only [readLabelGo]
    rw [if_neg hne, if_pos hand, if_neg hpos]
    exact (hK f' (by omega) res ((read + 1) + 1)).trans (by simp)

/-- Lift a cursor derivation to the `rdReadLabel` wrapper. -/
theorem rdReadLabel_run {msg buf nm : List Nat} {cnt : Nat}
    (h : LocalName msg buf nm cnt) :
    ∃ K, ∀ F, K ≤ F → rdReadLabel F msg buf = .ok (nm, cnt) := by
  obtain ⟨K, hK⟩ := h.runL
  refine ⟨K, fun F hF => ?_⟩
  rw [rdReadLabel, hK F hF [] 0]
  simp

/-! ## Round-trip infrastructure: written forms of names -/

/-- Relocatable written form of a name: the byte string an `appendLabel`
call emits, characterized independently of where it lands. -/
inductive WrittenForm (msg : List Nat) (a : Option Nat) (hi : Nat) : List Nat → List Nat → Prop where
  | zero : WrittenForm msg a hi [0] []
  | lab {v : Nat} {l W nm : List Nat} (h1 : 1 ≤ v) (h63 : v ≤ 63) (hl : l.length = v)
      (h : WrittenForm msg a hi W nm) :
      WrittenForm msg a hi (v :: (l ++ W)) (l ++ 46 :: nm)
  | ptr {off : Nat} {nm : List Nat} (ho : off < 16384) (hnm : nm ≠ [])
      (h : SuffN msg a hi off nm) :
      WrittenForm msg a hi (u16 (49152 + off)) nm

theorem WrittenForm.ne_nil {msg : List Nat} {a : Option Nat} {hi : Nat} {W nm : List Nat}
    (h : WrittenForm msg a hi W nm) : W ≠ [] := by
  cases h with
  | zero => simp
  | lab => simp
  | ptr => simp [u16]

theorem WrittenForm.stabW {msg msg2 : List Nat} {a : Option Nat} {hi : Nat} {W nm : List Nat}
    (hlen : msg.length ≤ msg2.length)
    (heq : ∀ q, q < hi → notW a q → msg2[q]? = msg[q]?)
    (h : WrittenForm msg a hi W nm) : WrittenForm msg2 a hi W nm := by
  induction h with
  | zero => exact .zero
  | lab h1 h63 hl _ ih => exact .lab h1 h63 hl ih
  | ptr ho hnm h => exact .ptr ho hnm (h.stab hlen heq)

theorem WrittenForm.clearWF {msg : List Nat} {b hi : Nat} {W nm : List Nat}
    (h : WrittenForm msg (some b) hi W nm) : WrittenForm msg none hi W nm := by
  induction h with
  | zero => exact .zero
  | lab h1 h63 hl _ ih => exact .lab h1 h63 hl ih
  | ptr ho hnm h => exact .ptr ho hnm h.clearW

theorem WrittenForm.monoW {msg : List Nat} {a : Option Nat} {hi hi2 : Nat} {W nm : List Nat}
    (hh : hi ≤ hi2) (h : WrittenForm msg a hi W nm) : WrittenForm msg a hi2 W nm := by
  induction h with
  | zero => exact .zero
  | lab h1 h63 hl _ ih => exact .lab h1 h63 hl ih
  | ptr ho hnm h => exact .ptr ho hnm (h.mono hh)

/-- The uncompressed tail form `len ∥ label ∥ 0`. -/
theorem WrittenForm.plain {msg : List Nat} {a : Option Nat} {hi : Nat} {l : List Nat}
    (h1 : 1 ≤ l.length) (h63 : l.length ≤ 63) :
    WrittenForm msg a hi (l.length :: (l ++ [0])) (l ++ [46]) :=
  .lab h1 h63 rfl .zero

/-- A written form placed at the head of the read buffer decodes in count
mode, consuming exactly its own length. -/
theorem WrittenForm.localName {msg : List Nat} {hi : Nat} {W nm : List Nat}
    (h : WrittenForm msg none hi W nm) :
    ∀ rest, LocalName msg (W ++ rest) nm W.length := by
  induction h with
  | zero => intro rest; exact .zero
  | @lab v l W nm h1 h63 hl hwf ih =>
    intro rest
    have hcons : (v :: (l ++ W)) ++ rest = v :: (l ++ (W ++ rest)) := by simp
    rw [hcons]
    have hW : W ≠ [] := hwf.ne_nil
    have hlen : v < (l ++ (W ++ rest)).length := by
      have : 1 ≤ W.length := by cases W <;> simp_all
      simp [hl]
      omega
    have htake : (l ++ (W ++ rest)).take v = l := List.take_left' hl
    have hdrop : (l ++ (W ++ rest)).drop v = W ++ rest := List.drop_left' hl
    have := LocalName.lab h1 h63 hlen (hdrop ▸ ih rest)
    rw [htake] at this
    have hlw : (v :: (l ++ W)).length = 1 + v + W.length := by simp [hl]; omega
    rw [hlw]
    exact this
  | @ptr off nm ho hnm h =>
    intro rest
    rw [u16_ptr ho]
    have hand := ptrByte_and ho
    have hdec := ptrBytes_decode ho
    have h2 : SuffN msg none hi (((192 + off / 256) * 256 + off % 256) &&& 16383) nm := by
      rw [hdec]
      exact h
    have hln : LocalName msg ((192 + off / 256) :: (off % 256) :: rest) nm 2 :=
      LocalName.ptr hand h2
    simpa [u16] using hln

/-- A written form placed at offset `q` of the message yields a suffix
derivation at `q`. -/
theorem WrittenForm.toSuffN {msg : List Nat} {a : Option Nat} {hi : Nat} {W nm : List Nat}
    (h : WrittenForm msg a hi W nm) :
    ∀ q rest, msg.drop q = W ++ rest → q + W.length ≤ hi →
      (∀ i, q ≤ i → i < q + W.length → notW a i) →
      SuffN msg a hi q nm := by
  induction h with
  | zero =>
    intro q rest hdrop hhi hw
    exact .zero (getElem?_of_drop (by simpa using hdrop)) (by simpa using hhi)
      (hw q (by omega) (by simp))
  | @lab v l W nm h1 h63 hl hwf ih =>
    intro q rest hdrop hhi hw
    have hW : W ≠ [] := hwf.ne_nil
    have hW1 : 1 ≤ W.length := by cases W <;> simp_all
    have hlen : (v :: (l ++ W)).length = 1 + v + W.length := by simp [hl]; omega
    have hdrop1 : msg.drop q = v :: ((l ++ W) ++ rest) := by simpa using hdrop
    have hb : msg[q]? = some v := getElem?_of_drop hdrop1
    have hd1 : msg.drop (q + 1) = l ++ (W ++ rest) := by
      have := drop_succ_of_drop hdrop1
      simpa using this
    have hd2 : msg.drop (q + 1 + v) = W ++ rest := by
      have h2 : (msg.drop (q + 1)).drop v = W ++ rest := by
        rw [hd1]
        exact List.drop_left' hl
      rwa [List.drop_drop] at h2
    have hmlen : q + 1 + v < msg.length := by
      have := pos_lt_of_drop hd2 hW
      omega
    have hsub : SuffN msg a hi (q + 1 + v) nm := by
      refine ih (q + 1 + v) rest hd2 (by rw [hlen] at hhi; omega) ?_
      intro i hi1 hi2
      refine hw i (by omega) ?_
      rw [hlen]
      omega
    have hres := SuffN.lab hb h1 h63 hmlen (by rw [hlen] at hhi; omega)
      (fun i hi1 hi2 => hw i hi1 (by rw [hlen]; omega)) hsub
    have hseg : (msg.drop (q + 1)).take v = l := by
      rw [hd1]
      exact List.take_left' hl
    rwa [hseg] at hres
  | @ptr off nm ho hnm h =>
    intro q rest hdrop hhi hw
    have hW2 : (u16 (49152 + off)).length = 2 := by simp [u16]
    rw [hW2] at hhi hw
    rw [u16_ptr ho] at hdrop
    have hb : msg[q]? = some (192 + off / 256) := getElem?_of_drop hdrop
    have hd1 : msg.drop (q + 1) = (off % 256) :: rest := drop_succ_of_drop hdrop
    have hb2 : msg[q + 1]? = some (off % 256) := getElem?_of_drop hd1
    refine SuffN.ptr hb hb2 (ptrByte_and ho) (by omega) (hw q (by omega) (by omega))
      (hw (q + 1) (by omega) (by omega)) ?_
    rw [ptrBytes_decode ho]
    exact h


/-! ## Round-trip infrastructure: the encoder loop invariant -/

/-! encoder-side invariants -/

theorem lookupMap_mem {m : List (List Nat × Nat)} {k : List Nat} {v : Nat}
    (h : lookupMap m k = some v) : (k, v) ∈ m := by
  induction m with
  | nil => simp [lookupMap] at h
  | cons e rest ih =>
    obtain ⟨k2, v2⟩ := e
    simp only [lookupMap] at h
    by_cases he : k2 = k
    · rw [if_pos he] at h
      simp_all
    · rw [if_neg he] at h
      exact List.mem_cons_of_mem _ (ih h)

theorem idxDot_dotfree {l : List Nat} (hd : ∀ b ∈ l, b ≠ 46) : idxDot l = none := by
  simp only [idxDot, List.findIdx?_eq_none_iff]
  intro x hx
  simpa using hd x hx

theorem idxDot_append {l rest : List Nat} (hd : ∀ b ∈ l, b ≠ 46) :
    idxDot (l ++ 46 :: rest) = some l.length := by
  induction l with
  | nil => simp [idxDot]
  | cons b l ih =>
    have hb : ¬ (b = 46) := hd b (by simp)
    have ih2 := ih (fun x hx => hd x (by simp [hx]))
    simp only [idxDot] at ih2 ⊢
    rw [List.cons_append, List.findIdx?_cons, if_neg (by simpa using hb),
      List.findIdx?_succ, ih2]
    simp

theorem lower46 : toLowerB 46 = 46 := rfl

theorem lower_parts {l rest : List Nat} (h : lowerBytes (l ++ 46 :: rest) = l ++ 46 :: rest) :
    lowerBytes l = l ∧ lowerBytes rest = rest := by
  have hsplit : lowerBytes (l ++ 46 :: rest) = lowerBytes l ++ 46 :: lowerBytes rest := by
    simp [lowerBytes, lower46]
  rw [hsplit] at h
  have hlen : (lowerBytes l).length = l.length := by simp [lowerBytes]
  obtain ⟨h1, h2⟩ := List.append_inj h hlen
  exact ⟨h1, by simpa using h2⟩

/-- A committed compression-cache entry: its value points at a suffix
derivation for its (lowercase) key followed by the trailing dot. -/
def entryOK (msg : List Nat) (a : Option Nat) (e : List Nat × Nat) : Prop :=
  ∃ off hi, e.2 = 49152 + off ∧ off < 16383 ∧ hi ≤ msg.length ∧
    SuffN msg a hi off (e.1 ++ [46])

/-- A cache entry deposited by an enclosing iteration of the same
`appendLabel` call: its key strictly extends the suffix still being
written. -/
def PendingFor (lbl : List Nat) (k : List Nat) : Prop :=
  ∃ pre, pre ≠ [] ∧ k = pre ++ lbl

theorem entryOK_ext {msg ext : List Nat} {a : Option Nat} {e : List Nat × Nat}
    (h : entryOK msg a e) : entryOK (msg ++ ext) a e := by
  obtain ⟨off, hi, hv, hlt, hhi, hs⟩ := h
  exact ⟨off, hi, hv, hlt, by simp; omega,
    hs.stab (by simp) (fun q hq _ => getElem?_ext_left (by omega))⟩

/-- A dot-separated, fully-split well-formed label string: labels of 1-63
octets containing no dots. -/
inductive WfLbl : List Nat → Prop where
  | last {l : List Nat} (h1 : 1 ≤ l.length) (h63 : l.length ≤ 63)
      (hd : ∀ b ∈ l, b ≠ 46) : WfLbl l
  | cons {l rest : List Nat} (h1 : 1 ≤ l.length) (h63 : l.length ≤ 63)
      (hd : ∀ b ∈ l, b ≠ 46) (h : WfLbl rest) : WfLbl (l ++ 46 :: rest)

set_option maxHeartbeats 1000000

theorem loopF_hit {c : Ctx} {fuel : Nat} {lbl : List Nat} {p : Nat}
    (h : lookupMap c.labelMap (lowerBytes lbl) = some p) :
    appendLabelLoopF c (fuel + 1) lbl = (wr c (u16 p), none) := by
  simp only [appendLabelLoopF, h]

theorem loopF_last {c : Ctx} {fuel : Nat} {lbl : List Nat}
    (hlk : lookupMap c.labelMap (lowerBytes lbl) = none) (hidx : idxDot lbl = none)
    (h0 : ¬ lbl.length = 0) (h63 : ¬ lbl.length > 63) :
    appendLabelLoopF c (fuel + 1) lbl =
      (wr (if c.rawMsg.length < 0x3fff then
            { c with labelMap := (lowerBytes lbl, c.rawMsg.length ||| 0xc000) :: c.labelMap }
          else c) ([lbl.length] ++ lbl ++ [0]), none) := by
  simp only [appendLabelLoopF, hlk, hidx]
  rw [if_neg h0, if_neg h63]

theorem loopF_cons {c : Ctx} {fuel : Nat} {lbl : List Nat} {pos : Nat}
    (hlk : lookupMap c.labelMap (lowerBytes lbl) = none) (hidx : idxDot lbl = some pos)
    (h0 : ¬ pos = 0) (h63 : ¬ pos > 63) :
    appendLabelLoopF c (fuel + 1) lbl =
      appendLabelLoopF
        (wr (if c.rawMsg.length < 0x3fff then
              { c with labelMap := (lowerBytes lbl, c.rawMsg.length ||| 0xc000) :: c.labelMap }
            else c) ([pos] ++ lbl.take pos)) fuel (lbl.drop (pos + 1)) := by
  simp only [appendLabelLoopF, hlk, hidx]
  rw [if_neg h0, if_neg h63]

/-- Main loop invariant of `appendLabel`: with a well-formed lowercase label
string, a committed-entry cache (modulo entries pending in enclosing
iterations) and an intact placeholder window, the loop succeeds, appends a
relocatable written form of the name, and commits only sound entries. -/
theorem appendLabelLoopF_spec {a : Option Nat} :
    ∀ fuel lbl (c : Ctx), WfLbl lbl → lowerBytes lbl = lbl → lbl.length < fuel →
    (∀ e ∈ c.labelMap, entryOK c.rawMsg a e ∨ PendingFor lbl e.1) →
    (∀ b, a = some b → b + 2 ≤ c.rawMsg.length) →
    ∃ W newE,
      appendLabelLoopF c fuel lbl =
        ({ rawMsg := c.rawMsg ++ W, labelMap := newE ++ c.labelMap,
           name := c.name, marshal := c.marshal }, none) ∧
      WrittenForm (c.rawMsg ++ W) a (c.rawMsg ++ W).length W (lbl ++ [46]) ∧
      ∀ e ∈ newE, entryOK (c.rawMsg ++ W) a e := by
  intro fuel
  induction fuel with
  | zero =>
    intro lbl c _ _ hf
    omega
  | succ f ih =>
    intro lbl c hwf hlow hf hmap hwin
    cases hlk : lookupMap c.labelMap (lowerBytes lbl) with
    | some p =>
      rw [loopF_hit hlk]
      rw [hlow] at hlk
      have hmem := lookupMap_mem hlk
      rcases hmap _ hmem with hok | hpend
      · obtain ⟨off, hi, hv, hlt, hhi, hs⟩ := hok
        simp only at hv hs
        subst hv
        refine ⟨u16 (49152 + off), [], by simp [wr], ?_, by simp⟩
        refine WrittenForm.ptr (by omega) (by simp) ?_
        have hstab : SuffN (c.rawMsg ++ u16 (49152 + off)) a hi off (lbl ++ [46]) :=
          hs.stab (by simp) (fun q hq _ => getElem?_ext_left (by omega))
        refine hstab.mono ?_
        simp only [List.length_append]
        have hu : (u16 (49152 + off)).length = 2 := rfl
        omega
      · obtain ⟨pre, hne, hpe⟩ := hpend
        simp only at hpe
        have hprenil : pre = [] := by
          have hl2 : lbl.length = pre.length + lbl.length := by
            conv_lhs => rw [hpe]
            simp
          cases pre
          · rfl
          · simp at hl2
        exact absurd hprenil hne
    | none =>
      cases hwf with
      | last h1 h63 hd =>
        have hn0 : ¬ (lbl.length = 0) := by omega
        have hn63 : ¬ (lbl.length > 63) := by omega
        rw [loopF_last hlk (idxDot_dotfree hd) hn0 hn63]
        by_cases hins : c.rawMsg.length < 0x3fff
        · rw [if_pos hins]
          refine ⟨lbl.length :: (lbl ++ [0]), [(lowerBytes lbl, c.rawMsg.length ||| 0xc000)],
            by simp [wr], WrittenForm.plain h1 h63, ?_⟩
          intro e he
          simp only [List.mem_singleton] at he
          subst he
          refine ⟨c.rawMsg.length, (c.rawMsg ++ lbl.length :: (lbl ++ [0])).length,
            lor_high (by omega), hins, le_refl _, ?_⟩
          rw [hlow]
          refine (WrittenForm.plain h1 h63).toSuffN c.rawMsg.length [] ?_ (by simp) ?_
          · rw [List.drop_left, List.append_nil]
          · intro i hi1 _
            cases a with
            | none => trivial
            | some b => exact Or.inr (by have := hwin b rfl; omega)
        · rw [if_neg hins]
          exact ⟨lbl.length :: (lbl ++ [0]), [], by simp [wr], WrittenForm.plain h1 h63,
            by simp⟩
      | @cons l rest h1 h63 hd hrest =>
        have hn0 : ¬ (l.length = 0) := by omega
        have hn63 : ¬ (l.length > 63) := by omega
        rw [loopF_cons hlk (idxDot_append hd) hn0 hn63]
        obtain ⟨hlowl, hlowr⟩ := lower_parts hlow
        have htake : (l ++ 46 :: rest).take l.length = l := List.take_left' rfl
        have hdropr : (l ++ 46 :: rest).drop (l.length + 1) = rest := by
          have hsp : l ++ 46 :: rest = (l ++ [46]) ++ rest := by simp
          rw [hsp]
          exact List.drop_left' (by simp)
        have hflen : rest.length < f := by
          have hll : (l ++ 46 :: rest).length = l.length + 1 + rest.length := by
            simp
            omega
          omega
        rw [htake, hdropr]
        by_cases hins : c.rawMsg.length < 0x3fff
        · rw [if_pos hins]
          simp only [wr]
          have hmap2 : ∀ e ∈ (wr { c with labelMap :=
                (lowerBytes (l ++ 46 :: rest), c.rawMsg.length ||| 0xc000) :: c.labelMap }
                ([l.length] ++ l)).labelMap,
              entryOK (wr { c with labelMap :=
                (lowerBytes (l ++ 46 :: rest), c.rawMsg.length ||| 0xc000) :: c.labelMap }
                ([l.length] ++ l)).rawMsg a e ∨ PendingFor rest e.1 := by
            intro e he
            simp only [wr, List.mem_cons] at he
            rcases he with he | he
            · subst he
              right
              exact ⟨l ++ [46], by simp, by rw [hlow]; simp⟩
            · rcases hmap e he with hok | hpend
              · exact Or.inl (entryOK_ext hok)
              · obtain ⟨pre, hne, hpe⟩ := hpend
                right
                exact ⟨pre ++ l ++ [46], by simp, by rw [hpe]; simp⟩
          have hwin2 : ∀ b, a = some b → b + 2 ≤ (wr { c with labelMap :=
                (lowerBytes (l ++ 46 :: rest), c.rawMsg.length ||| 0xc000) :: c.labelMap }
                ([l.length] ++ l)).rawMsg.length := by
            intro b hb
            have := hwin b hb
            simp [wr]
            omega
          obtain ⟨W2, newE2, heq2, hwf2, hok2⟩ := ih rest _ hrest hlowr hflen hmap2 hwin2
          simp only [wr] at heq2 hwf2 hok2
          have hraweq : (c.rawMsg ++ ([l.length] ++ l)) ++ W2 =
              c.rawMsg ++ (l.length :: (l ++ W2)) := by simp
          rw [hraweq] at heq2 hwf2 hok2
          refine ⟨l.length :: (l ++ W2),
            newE2 ++ [(lowerBytes (l ++ 46 :: rest), c.rawMsg.length ||| 0xc000)], ?_, ?_, ?_⟩
          · rw [heq2]
            congr 1
            simp
          · have hwf3 := WrittenForm.lab h1 h63 rfl hwf2
            have hnm : l ++ 46 :: (rest ++ [46]) = (l ++ 46 :: rest) ++ [46] := by simp
            rw [hnm] at hwf3
            exact hwf3
          · intro e he
            simp only [List.mem_append, List.mem_singleton] at he
            rcases he with he | he
            · exact hok2 e he
            · subst he
              refine ⟨c.rawMsg.length, (c.rawMsg ++ (l.length :: (l ++ W2))).length,
                lor_high (by omega), hins, le_refl _, ?_⟩
              rw [hlow]
              have hwf3 := WrittenForm.lab h1 h63 rfl hwf2
              have hnm : l ++ 46 :: (rest ++ [46]) = (l ++ 46 :: rest) ++ [46] := by simp
              rw [hnm] at hwf3
              refine hwf3.toSuffN c.rawMsg.length [] ?_ (by simp) ?_
              · rw [List.drop_left, List.append_nil]
              · intro i hi1 _
                cases a with
                | none => trivial
                | some b => exact Or.inr (by have := hwin b rfl; omega)
        · rw [if_neg hins]
          simp only [wr]
          have hmap2 : ∀ e ∈ (wr c ([l.length] ++ l)).labelMap,
              entryOK (wr c ([l.length] ++ l)).rawMsg a e ∨ PendingFor rest e.1 := by
            intro e he
            rcases hmap e he with hok | hpend
            · exact Or.inl (entryOK_ext hok)
            · obtain ⟨pre, hne, hpe⟩ := hpend
              right
              exact ⟨pre ++ l ++ [46], by simp, by rw [hpe]; simp⟩
          have hwin2 : ∀ b, a = some b → b + 2 ≤ (wr c ([l.length] ++ l)).rawMsg.length := by
            intro b hb
            have := hwin b hb
            simp [wr]
            omega
          obtain ⟨W2, newE2, heq2, hwf2, hok2⟩ := ih rest _ hrest hlowr hflen hmap2 hwin2
          simp only [wr] at heq2 hwf2 hok2
          have hraweq : (c.rawMsg ++ ([l.length] ++ l)) ++ W2 =
              c.rawMsg ++ (l.length :: (l ++ W2)) := by simp
          rw [hraweq] at heq2 hwf2 hok2
          refine ⟨l.length :: (l ++ W2), newE2, ?_, ?_, ?_⟩
          · rw [heq2]
          · have hwf3 := WrittenForm.lab h1 h63 rfl hwf2
            have hnm : l ++ 46 :: (rest ++ [46]) = (l ++ 46 :: rest) ++ [46] := by simp
            rw [hnm] at hwf3
            exact hwf3
          · exact hok2

theorem dropLast_dot {nm : List Nat} (h : hasDotSuffix nm = true) :
    nm.dropLast ++ [46] = nm := by
  obtain ⟨l2, hl⟩ := List.getLast?_eq_some_iff.1 (by simpa [hasDotSuffix] using h)
  subst hl
  simp

/-- A name the encoder accepts and the round trip preserves: a lowercase
fully-qualified name of at most 255 octets whose labels are each 1-63
dot-free octets. -/
def wfNameP (nm : List Nat) : Prop :=
  nm.length ≤ 255 ∧ hasDotSuffix nm = true ∧ WfLbl nm.dropLast ∧ lowerBytes nm = nm

/-- `appendLabel` on a well-formed name: succeeds, appends a relocatable
written form of the name, commits only sound cache entries. -/
theorem appendLabel_spec {a : Option Nat} {c : Ctx} {nm : List Nat}
    (hm : c.marshal = false) (hwf : wfNameP nm)
    (hmap : ∀ e ∈ c.labelMap, entryOK c.rawMsg a e)
    (hwin : ∀ b, a = some b → b + 2 ≤ c.rawMsg.length) :
    ∃ W newE,
      appendLabel c nm =
        ({ rawMsg := c.rawMsg ++ W, labelMap := newE ++ c.labelMap,
           name := c.name, marshal := c.marshal }, none) ∧
      WrittenForm (c.rawMsg ++ W) a (c.rawMsg ++ W).length W nm ∧
      (∀ e ∈ newE, entryOK (c.rawMsg ++ W) a e) ∧ W ≠ [] := by
  obtain ⟨h255, hdot, hlbl, hlow⟩ := hwf
  have hdl : nm.dropLast ++ [46] = nm := dropLast_dot hdot
  have hlow2 : lowerBytes nm.dropLast = nm.dropLast := by
    have h2 : lowerBytes nm.dropLast = (lowerBytes nm).dropLast := by
      simp [lowerBytes, List.map_dropLast]
    rw [h2, hlow]
  obtain ⟨W, newE, heq, hwfm, hok⟩ :=
    appendLabelLoopF_spec (a := a) (nm.dropLast.length + 1) nm.dropLast c hlbl hlow2
      (by omega) (fun e he => Or.inl (hmap e he)) hwin
  rw [hdl] at hwfm
  refine ⟨W, newE, ?_, hwfm, hok, hwfm.ne_nil⟩
  rw [appendLabel, if_neg (by omega : ¬ (nm.length > 255)),
    if_neg (by simp [hm] : ¬ (c.marshal = true)), if_pos (by rw [hdot]), appendLabelLoop]
  exact heq


/-! Window and patch transports -/

theorem WrittenForm.setWF {msg : List Nat} {b hi : Nat} {W nm : List Nat}
    (hb : hi ≤ b) (h : WrittenForm msg none hi W nm) : WrittenForm msg (some b) hi W nm := by
  induction h with
  | zero => exact .zero
  | lab h1 h63 hl _ ih => exact .lab h1 h63 hl ih
  | ptr ho hnm h => exact .ptr ho hnm (h.setW hb)

theorem WrittenForm.length_le {msg : List Nat} {a : Option Nat} {hi : Nat} {W nm : List Nat}
    (h : WrittenForm msg a hi W nm) : 1 ≤ W.length ∧ W.length ≤ nm.length + 1 := by
  induction h with
  | zero => simp
  | @lab v l W nm h1 h63 hl _ ih => simp; omega
  | @ptr off nm ho hnm h =>
    have : 1 ≤ nm.length := by cases nm <;> simp_all
    simp [u16]
    omega

theorem patch_length {msg two : List Nat} {b : Nat} (hb : b + 2 ≤ msg.length)
    (h2 : two.length = 2) :
    (msg.take b ++ two ++ msg.drop (b + 2)).length = msg.length := by
  rw [List.length_append, List.length_append, List.length_take, List.length_drop, h2]
  omega

theorem getElem?_patch {msg two : List Nat} {b q : Nat} (hb : b + 2 ≤ msg.length)
    (h2 : two.length = 2) (hw : notW (some b) q) :
    (msg.take b ++ two ++ msg.drop (b + 2))[q]? = msg[q]? := by
  have hq : q < b ∨ b + 2 ≤ q := hw
  have htl : (msg.take b).length = b := by
    rw [List.length_take]
    omega
  rcases hq with hq | hq
  · rw [List.getElem?_append, if_pos (by rw [List.length_append, htl]; omega),
      List.getElem?_append, if_pos (by rw [htl]; omega), List.getElem?_take, if_pos hq]
  · rw [List.getElem?_append, if_neg (by rw [List.length_append, htl, h2]; omega),
      List.getElem?_drop]
    congr 1
    rw [List.length_append, htl, h2]
    omega

theorem entryOK_intro {msg : List Nat} {b : Nat} {e : List Nat × Nat}
    (hb : msg.length ≤ b) (h : entryOK msg none e) : entryOK msg (some b) e := by
  obtain ⟨off, hi, hv, hlt, hhi, hs⟩ := h
  exact ⟨off, hi, hv, hlt, hhi, hs.setW (by omega)⟩

theorem entryOK_patch {msg two : List Nat} {b : Nat} {e : List Nat × Nat}
    (hb : b + 2 ≤ msg.length) (h2 : two.length = 2) (h : entryOK msg (some b) e) :
    entryOK (msg.take b ++ two ++ msg.drop (b + 2)) none e := by
  obtain ⟨off, hi, hv, hlt, hhi, hs⟩ := h
  refine ⟨off, hi, hv, hlt, by rw [patch_length hb h2]; omega, ?_⟩
  exact (hs.stab (by rw [patch_length hb h2]) (fun q hq hw => getElem?_patch hb h2 hw)).clearW

theorem wf_patch {msg two : List Nat} {b hi : Nat} {W nm : List Nat}
    (hb : b + 2 ≤ msg.length) (h2 : two.length = 2)
    (h : WrittenForm msg (some b) hi W nm) :
    WrittenForm (msg.take b ++ two ++ msg.drop (b + 2)) (some b) hi W nm :=
  h.stabW (by rw [patch_length hb h2]) (fun q hq hw => getElem?_patch hb h2 hw)


/-! ## Round-trip infrastructure: OPT and TXT payloads -/

/-- The byte string `RDataOPT.encode` emits. -/
def optsWire : List (Nat × List Nat) → List Nat
  | [] => []
  | o :: rest => u16 o.1 ++ u16 o.2.length ++ o.2 ++ optsWire rest

theorem encodeOpts_wire {c : Ctx} {opts : List (Nat × List Nat)}
    (h : ∀ o ∈ opts, o.2.length ≤ 65535) :
    encodeOpts c opts = (wr c (optsWire opts), none) := by
  induction opts generalizing c with
  | nil => simp [encodeOpts, optsWire, wr]
  | cons o rest ih =>
    have hlen : ¬ (o.2.length > 0xffff) := by
      have := (h o (by simp))
      omega
    obtain ⟨code, data⟩ := o
    rw [encodeOpts, if_neg hlen, ih (fun o ho => h o (by simp [ho]))]
    simp [wr, optsWire]

theorem decodeOptsF_wire :
    ∀ fuel opts acc, (∀ o ∈ opts, o.1 < 65536 ∧ o.2.length ≤ 65535) →
    List.length opts < fuel →
    decodeOptsF fuel (optsWire opts) acc = .ok (acc ++ opts) := by
  intro fuel
  induction fuel with
  | zero =>
    intro opts acc _ h
    omega
  | succ f ih =>
    intro opts acc hwf hlen
    cases opts with
    | nil => simp [optsWire, decodeOptsF]
    | cons o rest =>
      obtain ⟨ho1, ho2⟩ := hwf o (by simp)
      obtain ⟨code, data⟩ := o
      simp only at ho1 ho2
      have hu1 : u16 code = [code / 256 % 256, code % 256] := rfl
      have hu2 : u16 data.length = [data.length / 256 % 256, data.length % 256] := rfl
      simp only [optsWire, hu1, hu2, List.cons_append, List.nil_append, decodeOptsF]
      have hc : code / 256 % 256 * 256 + code % 256 = code := by omega
      have hd : data.length / 256 % 256 * 256 + data.length % 256 = data.length := by omega
      rw [hc, hd]
      have hsplit : data ++ optsWire rest = data ++ optsWire rest := rfl
      rw [if_neg (by simp)]
      have htake : (data ++ optsWire rest).take data.length = data := List.take_left _ _
      have hdrop : (data ++ optsWire rest).drop data.length = optsWire rest := List.drop_left _ _
      rw [htake, hdrop, ih rest (acc ++ [(code, data)]) (fun o ho => hwf o (by simp [ho]))
        (by simp at hlen ⊢; omega)]
      simp

theorem decodeOpts_wire {opts : List (Nat × List Nat)}
    (h : ∀ o ∈ opts, o.1 < 65536 ∧ o.2.length ≤ 65535) :
    decodeOpts (optsWire opts) = .ok opts := by
  rw [decodeOpts, decodeOptsF_wire _ opts [] h ?_]
  · simp
  · have : List.length opts ≤ (optsWire opts).length := by
      clear h
      induction opts with
      | nil => simp [optsWire]
      | cons o rest ih =>
        have h1 : (u16 o.1).length = 2 := rfl
        have h2 : (u16 o.2.length).length = 2 := rfl
        simp only [optsWire, List.length_append, List.length_cons]
        omega
    omega

theorem txtChunksF_congr :
    ∀ fuel fuel2 s, s.length < fuel → s.length < fuel2 →
      txtChunksF fuel s = txtChunksF fuel2 s := by
  intro fuel
  induction fuel with
  | zero =>
    intro fuel2 s h
    omega
  | succ f ih =>
    intro fuel2 s h h2
    obtain ⟨f2, rfl⟩ : ∃ f2, fuel2 = f2 + 1 := ⟨fuel2 - 1, by omega⟩
    cases s with
    | nil => rfl
    | cons b s' =>
      simp only [txtChunksF]
      have hmge : 1 ≤ min (b :: s').length 255 := le_min (by simp) (by omega)
      have hmle : min (b :: s').length 255 ≤ (b :: s').length := min_le_left _ _
      have hdl : ((b :: s').drop (min (b :: s').length 255)).length =
          (b :: s').length - min (b :: s').length 255 := by simp
      have hlt : ((b :: s').drop (min (b :: s').length 255)).length < f := by omega
      have hlt2 : ((b :: s').drop (min (b :: s').length 255)).length < f2 := by omega
      rw [ih f2 _ hlt hlt2]

theorem txtChunksF_succ_cons (fuel : Nat) (b : Nat) (s2 : List Nat) :
    txtChunksF (fuel + 1) (b :: s2) =
      (min (b :: s2).length 255) :: ((b :: s2).take (min (b :: s2).length 255) ++
        txtChunksF fuel ((b :: s2).drop (min (b :: s2).length 255))) := rfl

theorem txtChunks_drop_min {s : List Nat} (h : s ≠ []) :
    txtChunks s = min s.length 255 :: (s.take (min s.length 255) ++
      txtChunks (s.drop (min s.length 255))) := by
  obtain ⟨b, s2, rfl⟩ : ∃ b s2, s = b :: s2 := by
    cases s with
    | nil => exact absurd rfl h
    | cons x xs => exact ⟨x, xs, rfl⟩
  have hmge : 1 ≤ min (b :: s2).length 255 := le_min (by simp) (by omega)
  have hmle : min (b :: s2).length 255 ≤ (b :: s2).length := min_le_left _ _
  have hdl : ((b :: s2).drop (min (b :: s2).length 255)).length =
      (b :: s2).length - min (b :: s2).length 255 := by simp
  rw [txtChunks, txtChunksF_succ_cons,
    txtChunksF_congr _ (((b :: s2).drop (min (b :: s2).length 255)).length + 1) _
      (by omega) (by omega)]
  rw [txtChunks]

theorem txtChunks_length :
    ∀ s : List Nat, s.length ≤ (txtChunks s).length ∧
      (txtChunks s).length ≤ s.length + s.length / 255 + 1 := by
  intro s
  generalize hfuel : s.length = fl
  induction fl using Nat.strong_induction_on generalizing s with
  | _ fl ih =>
    by_cases hnil : s = []
    · subst hnil
      obtain rfl : fl = 0 := by simpa using hfuel.symm
      simp [txtChunks, txtChunksF]
    · have h1 : 1 ≤ s.length := by
        cases s
        · exact absurd rfl hnil
        · simp
      rw [txtChunks_drop_min hnil]
      have hmge : 1 ≤ min s.length 255 := le_min h1 (by omega)
      have hmle : min s.length 255 ≤ s.length := min_le_left _ _
      have hn255 : min s.length 255 ≤ 255 := min_le_right _ _
      have hdl : (s.drop (min s.length 255)).length = s.length - min s.length 255 :=
        List.length_drop _ _
      have htl : (s.take (min s.length 255)).length = min s.length 255 := by
        rw [List.length_take]
        exact min_eq_left hmle
      have hrec := ih (s.drop (min s.length 255)).length (by omega) _ rfl
      simp only [List.length_cons, List.length_append, htl]
      by_cases hc : s.length ≤ 255
      · have hmeq : min s.length 255 = s.length := min_eq_left (by omega)
        have hde : s.drop (min s.length 255) = [] := by
          rw [hmeq]
          exact List.drop_length _
        rw [hde]
        have hce : txtChunks ([] : List Nat) = [] := rfl
        rw [hce]
        simp only [List.length_nil]
        omega
      · have hmeq : min s.length 255 = 255 := min_eq_right (by omega)
        constructor <;> omega

theorem getD_of_drop {d : List Nat} {pos v : Nat} {tl : List Nat}
    (h : d.drop pos = v :: tl) : d.getD pos 0 = v := by
  rw [List.getD_eq_getElem?_getD, getElem?_of_drop h]
  rfl

theorem parseTXTF_chunks :
    ∀ fuel s (d : List Nat) pos acc, d.drop pos = txtChunks s →
      d.length = pos + (txtChunks s).length → s.length < fuel →
      parseTXTF fuel d pos acc = .ok (acc ++ s) := by
  intro fuel
  induction fuel with
  | zero =>
    intro s d pos acc _ _ h
    omega
  | succ f ih =>
    intro s d pos acc hdrop hlen hf
    by_cases hnil : s = []
    · subst hnil
      have hch : txtChunks ([] : List Nat) = [] := rfl
      rw [hch] at hdrop hlen
      simp only [List.length_nil, Nat.add_zero] at hlen
      rw [parseTXTF, if_neg (by omega)]
      simp
    · have h1 : 1 ≤ s.length := by
        cases s
        · exact absurd rfl hnil
        · simp
      rw [txtChunks_drop_min hnil] at hdrop hlen
      have hmge : 1 ≤ min s.length 255 := le_min h1 (by omega)
      have hmle : min s.length 255 ≤ s.length := min_le_left _ _
      have htl : (s.take (min s.length 255)).length = min s.length 255 := by
        rw [List.length_take]
        exact min_eq_left hmle
      have hpos : pos < d.length :=
        pos_lt_of_drop (W := [min s.length 255]) (by simpa using hdrop) (by simp)
      have hgd : d.getD pos 0 = min s.length 255 := getD_of_drop hdrop
      have hd1 : d.drop (pos + 1) =
          s.take (min s.length 255) ++ txtChunks (s.drop (min s.length 255)) :=
        drop_succ_of_drop hdrop
      have hckl : pos + 1 + min s.length 255 ≤ d.length := by
        simp only [List.length_cons, List.length_append, htl] at hlen
        omega
      rw [parseTXTF, if_pos hpos, hgd, if_neg (by omega)]
      have htake : (d.drop (pos + 1)).take (min s.length 255) = s.take (min s.length 255) := by
        rw [hd1]
        exact List.take_left' htl
      have hdrop2 : d.drop (pos + 1 + min s.length 255) =
          txtChunks (s.drop (min s.length 255)) := by
        have h2 : (d.drop (pos + 1)).drop (min s.length 255) =
            txtChunks (s.drop (min s.length 255)) := by
          rw [hd1]
          exact List.drop_left' htl
        rwa [List.drop_drop] at h2
      have hdl2 : (s.drop (min s.length 255)).length = s.length - min s.length 255 :=
        List.length_drop _ _
      rw [htake, ih (s.drop (min s.length 255)) d (pos + 1 + min s.length 255)
        (acc ++ s.take (min s.length 255)) hdrop2
        (by simp only [List.length_cons, List.length_append, htl] at hlen ⊢; omega)
        (by omega)]
      simp

theorem parseTXT_chunks (s : List Nat) : parseTXT (txtChunks s) = .ok s := by
  have hf : s.length < (txtChunks s).length + 1 := by
    have := txtChunks_length s
    omega
  have h := parseTXTF_chunks ((txtChunks s).length + 1) s (txtChunks s) 0 [] (by simp)
    (by omega) hf
  rw [parseTXT]
  simpa using h

/-! ## Round-trip infrastructure: per-variant RDATA wire forms

`RdW M a hi rd Wr` says `Wr` is the byte string the `encode` method of `rd`
emits, with every embedded name present as a relocatable written form over
`M` and every multi-byte integer within its wire width. -/

inductive RdW (M : List Nat) (a : Option Nat) (hi : Nat) : RData → List Nat → Prop where
  | ip4 {ipb : List Nat} (h : ipb.length = 4) : RdW M a hi (.ip ipb 1) ipb
  | ip6 {ipb : List Nat} (h : ipb.length = 16) : RdW M a hi (.ip ipb 28) ipb
  | lbl {l : List Nat} {t : Nat} {W : List Nat} (h : WrittenForm M a hi W l) :
      RdW M a hi (.lbl l t) W
  | raw {d : List Nat} {t : Nat} : RdW M a hi (.raw d t) d
  | txt {s : List Nat} : RdW M a hi (.txt s) (txtChunks s)
  | mx {pref : Nat} {server W : List Nat} (hp : pref < 65536)
      (h : WrittenForm M a hi W server) :
      RdW M a hi (.mx pref server) (u16 pref ++ W)
  | soa {mn rn W1 W2 : List Nat} {serial refresh retry expire minimum : Nat}
      (h1 : WrittenForm M a hi W1 mn) (h2 : WrittenForm M a hi W2 rn)
      (hb : serial < 4294967296 ∧ refresh < 4294967296 ∧ retry < 4294967296 ∧
            expire < 4294967296 ∧ minimum < 4294967296) :
      RdW M a hi (.soa mn rn serial refresh retry expire minimum)
        (W1 ++ W2 ++ (u32 serial ++ u32 refresh ++ u32 retry ++ u32 expire ++ u32 minimum))
  | opt {opts : List (Nat × List Nat)} (h : ∀ o ∈ opts, o.1 < 65536 ∧ o.2.length ≤ 65535) :
      RdW M a hi (.opt opts) (optsWire opts)
  | dnskey {k : RDataDNSKEY} (hf : k.Flags < 65536) (hp : k.Protocol < 256)
      (ha : k.Algorithm < 256) :
      RdW M a hi (.dnskey k) (u16 k.Flags ++ [k.Protocol, k.Algorithm] ++ k.PublicKey)
  | rrsig {r : RDataRRSIG} {W : List Nat} (hb : r.TypeCovered < 65536 ∧ r.Algorithm < 256 ∧
        r.Labels < 256 ∧ r.OrigTTL < 4294967296 ∧ r.Expiration < 4294967296 ∧
        r.Inception < 4294967296 ∧ r.KeyTag < 65536)
      (h : WrittenForm M a hi W r.SignerName) :
      RdW M a hi (.rrsig r)
        (u16 r.TypeCovered ++ [r.Algorithm, r.Labels] ++ u32 r.OrigTTL ++
          u32 r.Expiration ++ u32 r.Inception ++ u16 r.KeyTag ++ W ++ r.Signature)
  | ds {d : RDataDS} (hk : d.KeyTag < 65536) (ha : d.Algorithm < 256)
      (ht : d.DigestType < 256) :
      RdW M a hi (.ds d) (u16 d.KeyTag ++ [d.Algorithm, d.DigestType] ++ d.Digest)
  | nsec {next bitmap W : List Nat} (h : WrittenForm M a hi W next) :
      RdW M a hi (.nsec next bitmap) (W ++ bitmap)
  | nsec3 {halg flags iter : Nat} {salt nexth bitmap : List Nat} (hh : halg < 256)
      (hf : flags < 256) (hit : iter < 65536) (hs : salt.length < 256)
      (hn : nexth.length < 256) :
      RdW M a hi (.nsec3 halg flags iter salt nexth bitmap)
        ([halg, flags] ++ u16 iter ++ [salt.length] ++ salt ++
          [nexth.length] ++ nexth ++ bitmap)
  | nsec3param {halg flags iter : Nat} {salt : List Nat} (hh : halg < 256)
      (hf : flags < 256) (hit : iter < 65536) (hs : salt.length < 256) :
      RdW M a hi (.nsec3param halg flags iter salt)
        ([halg, flags] ++ u16 iter ++ [salt.length] ++ salt)
  | cert {ctype ktag alg : Nat} {certData : List Nat} (hc : ctype < 65536)
      (hk : ktag < 65536) (ha : alg < 256) :
      RdW M a hi (.cert ctype ktag alg certData) (u16 ctype ++ u16 ktag ++ [alg] ++ certData)
  | tsig {alg : List Nat} {timeSigned fudge : Nat} {mac : List Nat} {origID errCode : Nat}
      {other W : List Nat} (hb : timeSigned < 281474976710656 ∧ fudge < 65536 ∧
        mac.length < 65536 ∧ origID < 65536 ∧ errCode < 65536 ∧ other.length < 65536)
      (h : WrittenForm M a hi W alg) :
      RdW M a hi (.tsig alg timeSigned fudge mac origID errCode other)
        (W ++ (u48 timeSigned ++ u16 fudge ++ u16 mac.length ++ mac ++ u16 origID ++
          u16 errCode ++ u16 other.length ++ other))
  | tkey {alg : List Nat} {incep expir mode errCode : Nat} {keyData other W : List Nat}
      (hb : incep < 4294967296 ∧ expir < 4294967296 ∧ mode < 65536 ∧ errCode < 65536 ∧
        keyData.length < 65536 ∧ other.length < 65536) (h : WrittenForm M a hi W alg) :
      RdW M a hi (.tkey alg incep expir mode errCode keyData other)
        (W ++ (u32 incep ++ u32 expir ++ u16 mode ++ u16 errCode ++ u16 keyData.length ++
          keyData ++ u16 other.length ++ other))
  | srv {prio weight port : Nat} {target W : List Nat}
      (hb : prio < 65536 ∧ weight < 65536 ∧ port < 65536)
      (h : WrittenForm M a hi W target) :
      RdW M a hi (.srv prio weight port target) (u16 prio ++ u16 weight ++ u16 port ++ W)
  | tlsa {usage sel mtype : Nat} {certData : List Nat} (hu : usage < 256) (hs : sel < 256)
      (hm : mtype < 256) :
      RdW M a hi (.tlsa usage sel mtype certData) ([usage, sel, mtype] ++ certData)
  | sshfp {alg ftype : Nat} {fp : List Nat} (ha : alg < 256) (hf : ftype < 256) :
      RdW M a hi (.sshfp alg ftype fp) ([alg, ftype] ++ fp)
  | caa {flags : Nat} {tag value : List Nat} (hf : flags < 256) (ht : tag.length < 256) :
      RdW M a hi (.caa flags tag value) ([flags, tag.length] ++ tag ++ value)
  | uri {prio weight : Nat} {target : List Nat} (hp : prio < 65536) (hw : weight < 65536) :
      RdW M a hi (.uri prio weight target) (u16 prio ++ u16 weight ++ target)
  | naptr {order pref : Nat} {flags service regexp replacement W : List Nat}
      (hb : order < 65536 ∧ pref < 65536 ∧ flags.length ≤ 255 ∧ service.length ≤ 255 ∧
        regexp.length ≤ 255)
      (h : WrittenForm M a hi W replacement) :
      RdW M a hi (.naptr order pref flags service regexp replacement)
        (u16 order ++ u16 pref ++ ([flags.length] ++ flags) ++ ([service.length] ++ service) ++
          ([regexp.length] ++ regexp) ++ W)
  | hinfo {cpu os : List Nat} (hc : cpu.length ≤ 255) (ho : os.length ≤ 255) :
      RdW M a hi (.hinfo cpu os) (([cpu.length] ++ cpu) ++ ([os.length] ++ os))
  | rp {mbox txtName W1 W2 : List Nat} (h1 : WrittenForm M a hi W1 mbox)
      (h2 : WrittenForm M a hi W2 txtName) :
      RdW M a hi (.rp mbox txtName) (W1 ++ W2)
  | afsdb {subtype : Nat} {hostname W : List Nat} (hs : subtype < 65536)
      (h : WrittenForm M a hi W hostname) :
      RdW M a hi (.afsdb subtype hostname) (u16 subtype ++ W)

theorem RdW.stabR {M M2 : List Nat} {a : Option Nat} {hi : Nat} {rd : RData} {Wr : List Nat}
    (hlen : M.length ≤ M2.length)
    (heq : ∀ q, q < hi → notW a q → M2[q]? = M[q]?)
    (h : RdW M a hi rd Wr) : RdW M2 a hi rd Wr := by
  induction h with
  | ip4 h => exact .ip4 h
  | ip6 h => exact .ip6 h
  | lbl h => exact .lbl (h.stabW hlen heq)
  | raw => exact .raw
  | txt => exact .txt
  | mx hp h => exact .mx hp (h.stabW hlen heq)
  | soa h1 h2 hb => exact .soa (h1.stabW hlen heq) (h2.stabW hlen heq) hb
  | opt h => exact .opt h
  | dnskey hf hp ha => exact .dnskey hf hp ha
  | rrsig hb h => exact .rrsig hb (h.stabW hlen heq)
  | ds hk ha ht => exact .ds hk ha ht
  | nsec h => exact .nsec (h.stabW hlen heq)
  | nsec3 hh hf hit hs hn => exact .nsec3 hh hf hit hs hn
  | nsec3param hh hf hit hs => exact .nsec3param hh hf hit hs
  | cert hc hk ha => exact .cert hc hk ha
  | tsig hb h => exact .tsig hb (h.stabW hlen heq)
  | tkey hb h => exact .tkey hb (h.stabW hlen heq)
  | srv hb h => exact .srv hb (h.stabW hlen heq)
  | tlsa hu hs hm => exact .tlsa hu hs hm
  | sshfp ha hf => exact .sshfp ha hf
  | caa hf ht => exact .caa hf ht
  | uri hp hw => exact .uri hp hw
  | naptr hb h => exact .naptr hb (h.stabW hlen heq)
  | hinfo hc ho => exact .hinfo hc ho
  | rp h1 h2 => exact .rp (h1.stabW hlen heq) (h2.stabW hlen heq)
  | afsdb hs h => exact .afsdb hs (h.stabW hlen heq)

theorem RdW.clearR {M : List Nat} {b hi : Nat} {rd : RData} {Wr : List Nat}
    (h : RdW M (some b) hi rd Wr) : RdW M none hi rd Wr := by
  induction h with
  | ip4 h => exact .ip4 h
  | ip6 h => exact .ip6 h
  | lbl h => exact .lbl h.clearWF
  | raw => exact .raw
  | txt => exact .txt
  | mx hp h => exact .mx hp h.clearWF
  | soa h1 h2 hb => exact .soa h1.clearWF h2.clearWF hb
  | opt h => exact .opt h
  | dnskey hf hp ha => exact .dnskey hf hp ha
  | rrsig hb h => exact .rrsig hb h.clearWF
  | ds hk ha ht => exact .ds hk ha ht
  | nsec h => exact .nsec h.clearWF
  | nsec3 hh hf hit hs hn => exact .nsec3 hh hf hit hs hn
  | nsec3param hh hf hit hs => exact .nsec3param hh hf hit hs
  | cert hc hk ha => exact .cert hc hk ha
  | tsig hb h => exact .tsig hb h.clearWF
  | tkey hb h => exact .tkey hb h.clearWF
  | srv hb h => exact .srv hb h.clearWF
  | tlsa hu hs hm => exact .tlsa hu hs hm
  | sshfp ha hf => exact .sshfp ha hf
  | caa hf ht => exact .caa hf ht
  | uri hp hw => exact .uri hp hw
  | naptr hb h => exact .naptr hb h.clearWF
  | hinfo hc ho => exact .hinfo hc ho
  | rp h1 h2 => exact .rp h1.clearWF h2.clearWF
  | afsdb hs h => exact .afsdb hs h.clearWF

/-- Uncompressed upper bound on the wire size of a record's RDATA. -/
def rdWireMax : RData → Nat
  | .ip _ _ => 16
  | .lbl l _ => l.length + 1
  | .raw d _ => d.length
  | .txt s => s.length + s.length / 255 + 1
  | .mx _ server => 2 + (server.length + 1)
  | .soa mn rn _ _ _ _ _ => (mn.length + 1) + (rn.length + 1) + 20
  | .opt opts => (optsWire opts).length
  | .dnskey k => 4 + k.PublicKey.length
  | .rrsig r => 18 + (r.SignerName.length + 1) + r.Signature.length
  | .ds d => 4 + d.Digest.length
  | .nsec next bm => (next.length + 1) + bm.length
  | .nsec3 _ _ _ salt nexth bm => 6 + salt.length + nexth.length + bm.length
  | .nsec3param _ _ _ salt => 5 + salt.length
  | .cert _ _ _ cd => 5 + cd.length
  | .tsig alg _ _ mac _ _ other => (alg.length + 1) + 16 + mac.length + other.length
  | .tkey alg _ _ _ _ kd other => (alg.length + 1) + 16 + kd.length + other.length
  | .srv _ _ _ target => 6 + (target.length + 1)
  | .tlsa _ _ _ cd => 3 + cd.length
  | .sshfp _ _ fp => 2 + fp.length
  | .caa _ tag value => 2 + tag.length + value.length
  | .uri _ _ target => 4 + target.length
  | .naptr _ _ f s r2 repl =>
      4 + (1 + f.length) + (1 + s.length) + (1 + r2.length) + (repl.length + 1)
  | .hinfo cpu os => (1 + cpu.length) + (1 + os.length)
  | .rp mbox txtName => (mbox.length + 1) + (txtName.length + 1)
  | .afsdb _ hostname => 2 + (hostname.length + 1)

theorem RdW.sizeLe {M : List Nat} {a : Option Nat} {hi : Nat} {rd : RData} {Wr : List Nat}
    (h : RdW M a hi rd Wr) : Wr.length ≤ rdWireMax rd := by
  induction h with
  | ip4 h => simp [rdWireMax, h]
  | ip6 h => simp [rdWireMax, h]
  | lbl h => have := h.length_le; simp [rdWireMax]; omega
  | raw => simp [rdWireMax]
  | txt => have := txtChunks_length; simp [rdWireMax]; exact (this _).2
  | mx hp h =>
    have := h.length_le
    simp [rdWireMax, u16]
    omega
  | soa h1 h2 hb =>
    have ha := h1.length_le
    have hb2 := h2.length_le
    simp [rdWireMax, u32]
    omega
  | opt h => simp [rdWireMax]
  | dnskey hf hp ha => simp [rdWireMax, u16]; omega
  | rrsig hb h =>
    have := h.length_le
    simp [rdWireMax, u16, u32]
    omega
  | ds hk ha ht => simp [rdWireMax, u16]; omega
  | nsec h =>
    have := h.length_le
    simp [rdWireMax]
    omega
  | nsec3 hh hf hit hs hn => simp [rdWireMax, u16]; omega
  | nsec3param hh hf hit hs => simp [rdWireMax, u16]; omega
  | cert hc hk ha => simp [rdWireMax, u16]; omega
  | tsig hb h =>
    have := h.length_le
    simp [rdWireMax, u16, u48]
    omega
  | tkey hb h =>
    have := h.length_le
    simp [rdWireMax, u16, u32]
    omega
  | srv hb h =>
    have := h.length_le
    simp [rdWireMax, u16]
    omega
  | tlsa hu hs hm => simp [rdWireMax]; omega
  | sshfp ha hf => simp [rdWireMax]; omega
  | caa hf ht => simp [rdWireMax]; omega
  | uri hp hw => simp [rdWireMax, u16]; omega
  | naptr hb h =>
    have := h.length_le
    simp [rdWireMax, u16]
    omega
  | hinfo hc ho => simp [rdWireMax]; omega
  | rp h1 h2 =>
    have ha := h1.length_le
    have hb2 := h2.length_le
    simp [rdWireMax]
    omega
  | afsdb hs h =>
    have := h.length_le
    simp [rdWireMax, u16]
    omega

/-- Per-variant well-formedness: the conditions under which a record's
RDATA survives the encode/decode round trip. -/
def wfRData : RData → Prop
  | .ip ipb t => (t = 1 ∧ ipb.length = 4) ∨ (t = 28 ∧ ipb.length = 16)
  | .lbl l t =>
      (t = 2 ∨ t = 3 ∨ t = 4 ∨ t = 5 ∨ t = 7 ∨ t = 8 ∨ t = 9 ∨ t = 12 ∨ t = 39) ∧ wfNameP l
  | .raw _ t => t = 10
  | .txt _ => True
  | .mx pref server => pref < 65536 ∧ wfNameP server
  | .soa mn rn serial refresh retry expire minimum =>
      wfNameP mn ∧ wfNameP rn ∧ serial < 4294967296 ∧ refresh < 4294967296 ∧
        retry < 4294967296 ∧ expire < 4294967296 ∧ minimum < 4294967296
  | .opt opts => ∀ o ∈ opts, o.1 < 65536 ∧ o.2.length ≤ 65535
  | .dnskey k => k.Flags < 65536 ∧ k.Protocol < 256 ∧ k.Algorithm < 256
  | .rrsig r => r.TypeCovered < 65536 ∧ r.Algorithm < 256 ∧ r.Labels < 256 ∧
      r.OrigTTL < 4294967296 ∧ r.Expiration < 4294967296 ∧ r.Inception < 4294967296 ∧
      r.KeyTag < 65536 ∧ wfNameP r.SignerName
  | .ds d => d.KeyTag < 65536 ∧ d.Algorithm < 256 ∧ d.DigestType < 256
  | .nsec next _ => wfNameP next
  | .nsec3 halg flags iter salt nexth _ =>
      halg < 256 ∧ flags < 256 ∧ iter < 65536 ∧ salt.length < 256 ∧ nexth.length < 256
  | .nsec3param halg flags iter salt =>
      halg < 256 ∧ flags < 256 ∧ iter < 65536 ∧ salt.length < 256
  | .cert ctype ktag alg _ => ctype < 65536 ∧ ktag < 65536 ∧ alg < 256
  | .tsig alg timeSigned fudge mac origID errCode other =>
      wfNameP alg ∧ timeSigned < 281474976710656 ∧ fudge < 65536 ∧ mac.length < 65536 ∧
        origID < 65536 ∧ errCode < 65536 ∧ other.length < 65536
  | .tkey alg incep expir mode errCode keyData other =>
      wfNameP alg ∧ incep < 4294967296 ∧ expir < 4294967296 ∧ mode < 65536 ∧
        errCode < 65536 ∧ keyData.length < 65536 ∧ other.length < 65536
  | .srv prio weight port target =>
      prio < 65536 ∧ weight < 65536 ∧ port < 65536 ∧ wfNameP target
  | .tlsa usage sel mtype _ => usage < 256 ∧ sel < 256 ∧ mtype < 256
  | .sshfp alg ftype _ => alg < 256 ∧ ftype < 256
  | .caa flags tag _ => flags < 256 ∧ tag.length < 256
  | .uri prio weight _ => prio < 65536 ∧ weight < 65536
  | .naptr order pref flags service regexp replacement =>
      order < 65536 ∧ pref < 65536 ∧ flags.length ≤ 255 ∧ service.length ≤ 255 ∧
        regexp.length ≤ 255 ∧ wfNameP replacement
  | .hinfo cpu os => cpu.length ≤ 255 ∧ os.length ≤ 255
  | .rp mbox txtName => wfNameP mbox ∧ wfNameP txtName
  | .afsdb subtype hostname => subtype < 65536 ∧ wfNameP hostname

/-! ## Round-trip infrastructure: decoding each RDATA wire form -/

theorem wf_rdRead {M : List Nat} {hi : Nat} {W nm : List Nat}
    (h : WrittenForm M none hi W nm) (rest : List Nat) :
    ∃ K, ∀ F, K ≤ F → rdReadLabel F M (W ++ rest) = .ok (nm, W.length) :=
  rdReadLabel_run (h.localName rest)

theorem wf_rdRead_nil {M : List Nat} {hi : Nat} {W nm : List Nat}
    (h : WrittenForm M none hi W nm) :
    ∃ K, ∀ F, K ≤ F → rdReadLabel F M W = .ok (nm, W.length) := by
  have h2 := wf_rdRead h []
  simpa using h2

/-! Branch equations of the `parseRData` dispatch, one per type code. -/

theorem parseRData_eq1 (F : Nat) (M d : List Nat) :
    parseRData F M 1 d =
      (if d.length ≠ 4 then .error (.go .invalidLen) else .ok (.ip d 1)) := by
  simp [parseRData]

theorem parseRData_eq28 (F : Nat) (M d : List Nat) :
    parseRData F M 28 d =
      (if d.length ≠ 16 then .error (.go .invalidLen) else .ok (.ip d 28)) := by
  simp [parseRData]

theorem parseRData_eqLbl (F : Nat) (M d : List Nat) {t : Nat}
    (ht : t = 2 ∨ t = 3 ∨ t = 4 ∨ t = 5 ∨ t = 7 ∨ t = 8 ∨ t = 9 ∨ t = 12 ∨ t = 39) :
    parseRData F M t d =
      (match rdReadLabel F M d with
       | .error e => .error e
       | .ok (l, _) => .ok (.lbl l t)) := by
  rcases ht with rfl | rfl | rfl | rfl | rfl | rfl | rfl | rfl | rfl <;> simp [parseRData]

theorem parseRData_eq6 (F : Nat) (M d : List Nat) :
    parseRData F M 6 d = decodeSOA F M d := by
  simp [parseRData]

theorem parseRData_eq10 (F : Nat) (M d : List Nat) :
    parseRData F M 10 d = .ok (.raw d 10) := by
  simp [parseRData]

theorem parseRData_eq15 (F : Nat) (M d : List Nat) :
    parseRData F M 15 d =
      (if d.length < 3 then .error (.go .invalidLen)
       else match rdReadLabel F M (d.drop 2) with
       | .error e => .error e
       | .ok (l, _) => .ok (.mx (be16 d 0) l)) := by
  simp [parseRData]

theorem parseRData_eq16 (F : Nat) (M d : List Nat) :
    parseRData F M 16 d =
      (match parseTXT d with
       | .error e => .error e
       | .ok s => .ok (.txt s)) := by
  simp [parseRData]

theorem parseRData_eq41 (F : Nat) (M d : List Nat) :
    parseRData F M 41 d =
      (match decodeOpts d with
       | .error e => .error e
       | .ok opts => .ok (.opt opts)) := by
  simp [parseRData]

theorem parseRData_eq48 (F : Nat) (M d : List Nat) :
    parseRData F M 48 d =
      (if d.length < 4 then .error (.go .invalidLen)
       else .ok (.dnskey ⟨be16 d 0, d.getD 2 0, d.getD 3 0, d.drop 4⟩)) := by
  simp [parseRData]

theorem parseRData_eq46 (F : Nat) (M d : List Nat) :
    parseRData F M 46 d =
      (if d.length < 18 then .error (.go .invalidLen)
       else match rdReadLabel F M (d.drop 18) with
       | .error e => .error e
       | .ok (signerName, n) =>
         .ok (.rrsig ⟨be16 d 0, d.getD 2 0, d.getD 3 0, be32 d 4, be32 d 8, be32 d 12,
           be16 d 16, signerName, d.drop (18 + n)⟩)) := by
  simp [parseRData]

theorem parseRData_eq43 (F : Nat) (M d : List Nat) :
    parseRData F M 43 d =
      (if d.length < 4 then .error (.go .invalidLen)
       else .ok (.ds ⟨be16 d 0, d.getD 2 0, d.getD 3 0, d.drop 4⟩)) := by
  simp [parseRData]

theorem parseRData_eq47 (F : Nat) (M d : List Nat) :
    parseRData F M 47 d =
      (if d.length < 1 then .error (.go .invalidLen)
       else match rdReadLabel F M d with
       | .error e => .error e
       | .ok (next, n) => .ok (.nsec next (d.drop n))) := by
  simp [parseRData]

theorem parseRData_eq50 (F : Nat) (M d : List Nat) :
    parseRData F M 50 d = decodeNSEC3 d := by
  simp [parseRData]

theorem parseRData_eq51 (F : Nat) (M d : List Nat) :
    parseRData F M 51 d =
      (if d.length < 5 then .error (.go .invalidLen)
       else
         let saltLen := d.getD 4 0
         if d.length < 5 + saltLen then .error (.go .invalidLen)
         else .ok (.nsec3param (d.getD 0 0) (d.getD 1 0) (be16 d 2)
           ((d.drop 5).take saltLen))) := by
  simp [parseRData]

theorem parseRData_eq37 (F : Nat) (M d : List Nat) :
    parseRData F M 37 d =
      (if d.length < 5 then .error (.go .invalidLen)
       else .ok (.cert (be16 d 0) (be16 d 2) (d.getD 4 0) (d.drop 5))) := by
  simp [parseRData]

theorem parseRData_eq250 (F : Nat) (M d : List Nat) :
    parseRData F M 250 d = decodeTSIG F M d := by
  simp [parseRData]

theorem parseRData_eq249 (F : Nat) (M d : List Nat) :
    parseRData F M 249 d = decodeTKEY F M d := by
  simp [parseRData]

theorem parseRData_eq33 (F : Nat) (M d : List Nat) :
    parseRData F M 33 d =
      (if d.length < 7 then .error (.go .invalidLen)
       else match rdReadLabel F M (d.drop 6) with
       | .error e => .error e
       | .ok (target, _) => .ok (.srv (be16 d 0) (be16 d 2) (be16 d 4) target)) := by
  simp [parseRData]

theorem parseRData_eq52 (F : Nat) (M d : List Nat) :
    parseRData F M 52 d =
      (if d.length < 3 then .error (.go .invalidLen)
       else .ok (.tlsa (d.getD 0 0) (d.getD 1 0) (d.getD 2 0) (d.drop 3))) := by
  simp [parseRData]

theorem parseRData_eq44 (F : Nat) (M d : List Nat) :
    parseRData F M 44 d =
      (if d.length < 2 then .error (.go .invalidLen)
       else .ok (.sshfp (d.getD 0 0) (d.getD 1 0) (d.drop 2))) := by
  simp [parseRData]

theorem parseRData_eq257 (F : Nat) (M d : List Nat) :
    parseRData F M 257 d =
      (if d.length < 2 then .error (.go .invalidLen)
       else
         let tagLen := d.getD 1 0
         if d.length < 2 + tagLen then .error (.go .invalidLen)
         else .ok (.caa (d.getD 0 0) ((d.drop 2).take tagLen) (d.drop (2 + tagLen)))) := by
  simp [parseRData]

theorem parseRData_eq256 (F : Nat) (M d : List Nat) :
    parseRData F M 256 d =
      (if d.length < 4 then .error (.go .invalidLen)
       else .ok (.uri (be16 d 0) (be16 d 2) (d.drop 4))) := by
  simp [parseRData]

theorem parseRData_eq35 (F : Nat) (M d : List Nat) :
    parseRData F M 35 d = decodeNAPTR F M d := by
  simp [parseRData]

theorem parseRData_eq13 (F : Nat) (M d : List Nat) :
    parseRData F M 13 d =
      (match readCharString d with
       | .error e => .error e
       | .ok (cpu, r1) =>
         match readCharString (d.drop r1) with
         | .error e => .error e
         | .ok (os, _) => .ok (.hinfo cpu os)) := by
  simp [parseRData]

theorem parseRData_eq17 (F : Nat) (M d : List Nat) :
    parseRData F M 17 d =
      (match rdReadLabel F M d with
       | .error e => .error e
       | .ok (mbox, n) =>
         match rdReadLabel F M (d.drop n) with
         | .error e => .error e
         | .ok (txtName, _) => .ok (.rp mbox txtName)) := by
  simp [parseRData]

theorem parseRData_eq18 (F : Nat) (M d : List Nat) :
    parseRData F M 18 d =
      (if d.length < 3 then .error (.go .invalidLen)
       else match rdReadLabel F M (d.drop 2) with
       | .error e => .error e
       | .ok (hostname, _) => .ok (.afsdb (be16 d 0) hostname)) := by
  simp [parseRData]

theorem readCharString_at {s tl : List Nat} :
    readCharString (s.length :: (s ++ tl)) = .ok (s, 1 + s.length) := by
  simp only [readCharString]
  rw [if_neg (by simp only [List.length_append]; omega), List.take_left' rfl]

theorem readCharString_at0 {s : List Nat} :
    readCharString (s.length :: s) = .ok (s, 1 + s.length) := by
  have h := @readCharString_at s []
  simpa using h

theorem drop_charString {s tl : List Nat} :
    (s.length :: (s ++ tl)).drop (1 + s.length) = tl := by
  have h : s.length :: (s ++ tl) = (s.length :: s) ++ tl := by simp
  rw [h]
  exact List.drop_left' (by simp [Nat.add_comm])

theorem getD_at {xs ys : List Nat} {v : Nat} {tl : List Nat} {n : Nat} (hn : xs.length = n)
    (h : ys = v :: tl) : (xs ++ ys).getD n 0 = v := by
  subst hn
  subst h
  rw [List.getD_eq_getElem?_getD, List.getElem?_append, if_neg (by omega)]
  simp

/-- Decoding inverts each RDATA wire form: `parseRData` at the record's own
type code returns the original record, for every sufficiently large name
budget. -/
theorem RdW_parse {M : List Nat} {hi : Nat} {rd : RData} {Wr : List Nat}
    (h : RdW M none hi rd Wr) (hwf : wfRData rd) :
    ∃ K, ∀ F, K ≤ F → parseRData F M rd.getType Wr = .ok rd := by
  cases h with
  | @ip4 ipb h =>
    exact ⟨0, fun F _ => by simp [RData.getType, parseRData_eq1, h]⟩
  | @ip6 ipb h =>
    exact ⟨0, fun F _ => by simp [RData.getType, parseRData_eq28, h]⟩
  | @lbl l t W h =>
    obtain ⟨ht, hn⟩ := hwf
    obtain ⟨K, hK⟩ := wf_rdRead_nil h
    refine ⟨K, fun F hF => ?_⟩
    have hty : (RData.lbl l t).getType = t := rfl
    rw [hty, parseRData_eqLbl F M Wr ht, hK F hF]
  | @raw d t =>
    subst hwf
    exact ⟨0, fun F _ => by simp [RData.getType, parseRData_eq10]⟩
  | @txt s =>
    exact ⟨0, fun F _ => by simp [RData.getType, parseRData_eq16, parseTXT_chunks]⟩
  | @opt opts h =>
    exact ⟨0, fun F _ => by simp [RData.getType, parseRData_eq41, decodeOpts_wire h]⟩
  | @mx pref server W hp h =>
    obtain ⟨K, hK⟩ := wf_rdRead_nil h
    refine ⟨K, fun F hF => ?_⟩
    have hW1 : 1 ≤ W.length := (h.length_le).1
    have hty : (RData.mx pref server).getType = 15 := rfl
    have hdrop : (u16 pref ++ W).drop 2 = W := by simp [u16]
    have hbe : be16 (u16 pref ++ W) 0 = pref := by
      simp [be16, u16]
      omega
    rw [hty, parseRData_eq15, if_neg (by simp [u16]; omega), hdrop, hK F hF]
    simp [hbe]
  | @dnskey k hf hp ha =>
    refine ⟨0, fun F _ => ?_⟩
    have hty : (RData.dnskey k).getType = 48 := rfl
    rw [hty, parseRData_eq48, if_neg (by simp [u16])]
    simp only [u16, be16, List.cons_append, List.nil_append, List.getD_cons_zero,
      List.getD_cons_succ, List.drop_succ_cons, List.drop_zero]
    have he1 : k.Flags / 256 % 256 * 256 + k.Flags % 256 = k.Flags := by omega
    simp [he1]
  | @ds d hk ha ht =>
    refine ⟨0, fun F _ => ?_⟩
    have hty : (RData.ds d).getType = 43 := rfl
    rw [hty, parseRData_eq43, if_neg (by simp [u16])]
    simp only [u16, be16, List.cons_append, List.nil_append, List.getD_cons_zero,
      List.getD_cons_succ, List.drop_succ_cons, List.drop_zero]
    have he1 : d.KeyTag / 256 % 256 * 256 + d.KeyTag % 256 = d.KeyTag := by omega
    simp [he1]
  | @nsec next bitmap W h =>
    obtain ⟨K, hK⟩ := wf_rdRead h bitmap
    refine ⟨K, fun F hF => ?_⟩
    have hW1 : 1 ≤ W.length := (h.length_le).1
    have hty : (RData.nsec next bitmap).getType = 47 := rfl
    have hdrop : (W ++ bitmap).drop W.length = bitmap := List.drop_left _ _
    rw [hty, parseRData_eq47, if_neg (by simp only [List.length_append]; omega), hK F hF]
    simp [hdrop]
  | @tlsa usage sel mtype certData hu hs hm =>
    refine ⟨0, fun F _ => ?_⟩
    have hty : (RData.tlsa usage sel mtype certData).getType = 52 := rfl
    rw [hty, parseRData_eq52, if_neg (by simp)]
    simp
  | @sshfp alg ftype fp ha hf =>
    refine ⟨0, fun F _ => ?_⟩
    have hty : (RData.sshfp alg ftype fp).getType = 44 := rfl
    rw [hty, parseRData_eq44, if_neg (by simp)]
    simp
  | @uri prio weight target hp hw =>
    refine ⟨0, fun F _ => ?_⟩
    have hty : (RData.uri prio weight target).getType = 256 := rfl
    rw [hty, parseRData_eq256, if_neg (by simp [u16])]
    simp only [u16, be16, List.cons_append, List.nil_append, List.getD_cons_zero,
      List.getD_cons_succ, List.drop_succ_cons, List.drop_zero]
    have he1 : prio / 256 % 256 * 256 + prio % 256 = prio := by omega
    have he2 : weight / 256 % 256 * 256 + weight % 256 = weight := by omega
    simp [he1, he2]
  | @cert ctype ktag alg certData hc hk ha =>
    refine ⟨0, fun F _ => ?_⟩
    have hty : (RData.cert ctype ktag alg certData).getType = 37 := rfl
    rw [hty, parseRData_eq37, if_neg (by simp [u16])]
    simp only [u16, be16, List.cons_append, List.nil_append, List.getD_cons_zero,
      List.getD_cons_succ, List.drop_succ_cons, List.drop_zero]
    have he1 : ctype / 256 % 256 * 256 + ctype % 256 = ctype := by omega
    have he2 : ktag / 256 % 256 * 256 + ktag % 256 = ktag := by omega
    simp [he1, he2]
  | @hinfo cpu os hc ho =>
    refine ⟨0, fun F _ => ?_⟩
    have hty : (RData.hinfo cpu os).getType = 13 := rfl
    have hw : (([cpu.length] ++ cpu) ++ ([os.length] ++ os)) =
        cpu.length :: (cpu ++ (os.length :: os)) := by simp
    rw [hty, parseRData_eq13, hw]
    simp [readCharString_at, readCharString_at0, drop_charString]
  | @soa mn rn W1 W2 serial refresh retry expire minimum h1 h2 hb =>
    obtain ⟨K1, hK1⟩ := wf_rdRead h1 (W2 ++ (u32 serial ++ u32 refresh ++ u32 retry ++
      u32 expire ++ u32 minimum))
    obtain ⟨K2, hK2⟩ := wf_rdRead h2 (u32 serial ++ u32 refresh ++ u32 retry ++
      u32 expire ++ u32 minimum)
    refine ⟨K1 + K2, fun F hF => ?_⟩
    have hty : (RData.soa mn rn serial refresh retry expire minimum).getType = 6 := rfl
    have hd1 : (W1 ++ (W2 ++ (u32 serial ++ u32 refresh ++ u32 retry ++ u32 expire ++
        u32 minimum))).drop W1.length = W2 ++ (u32 serial ++ u32 refresh ++ u32 retry ++
        u32 expire ++ u32 minimum) := List.drop_left _ _
    have hd2 : (W2 ++ (u32 serial ++ u32 refresh ++ u32 retry ++ u32 expire ++
        u32 minimum)).drop W2.length = u32 serial ++ u32 refresh ++ u32 retry ++
        u32 expire ++ u32 minimum := List.drop_left _ _
    have e1 : serial / 16777216 % 256 * 16777216 + serial / 65536 % 256 * 65536 +
        serial / 256 % 256 * 256 + serial % 256 = serial := by omega
    have e2 : refresh / 16777216 % 256 * 16777216 + refresh / 65536 % 256 * 65536 +
        refresh / 256 % 256 * 256 + refresh % 256 = refresh := by omega
    have e3 : retry / 16777216 % 256 * 16777216 + retry / 65536 % 256 * 65536 +
        retry / 256 % 256 * 256 + retry % 256 = retry := by omega
    have e4 : expire / 16777216 % 256 * 16777216 + expire / 65536 % 256 * 65536 +
        expire / 256 % 256 * 256 + expire % 256 = expire := by omega
    have e5 : minimum / 16777216 % 256 * 16777216 + minimum / 65536 % 256 * 65536 +
        minimum / 256 % 256 * 256 + minimum % 256 = minimum := by omega
    rw [hty, parseRData_eq6]
    simp only [decodeSOA, List.append_assoc]
    simp only [List.append_assoc] at hK1 hK2 hd1 hd2
    rw [hK1 F (by omega)]
    simp only [hd1]
    rw [hK2 F (by omega)]
    simp only [hd2]
    rw [if_neg (by simp [u32])]
    simp only [u32, List.cons_append, List.nil_append, List.getD_cons_zero,
      List.getD_cons_succ, e1, e2, e3, e4, e5]
  | @rrsig r W hb h =>
    obtain ⟨K, hK⟩ := wf_rdRead h r.Signature
    refine ⟨K, fun F hF => ?_⟩
    obtain ⟨hb1, hb2, hb3, hb4, hb5, hb6, hb7⟩ := hb
    have hW1 : 1 ≤ W.length := (h.length_le).1
    have hty : (RData.rrsig r).getType = 46 := rfl
    have hlen : ¬ ((u16 r.TypeCovered ++ [r.Algorithm, r.Labels] ++ u32 r.OrigTTL ++
        u32 r.Expiration ++ u32 r.Inception ++ u16 r.KeyTag ++ W ++ r.Signature).length
        < 18) := by
      simp [u16, u32]
    have hd18 : (u16 r.TypeCovered ++ [r.Algorithm, r.Labels] ++ u32 r.OrigTTL ++
        u32 r.Expiration ++ u32 r.Inception ++ u16 r.KeyTag ++ W ++ r.Signature).drop 18 =
        W ++ r.Signature := by
      simp [u16, u32]
    have hdsig : (u16 r.TypeCovered ++ [r.Algorithm, r.Labels] ++ u32 r.OrigTTL ++
        u32 r.Expiration ++ u32 r.Inception ++ u16 r.KeyTag ++ W ++ r.Signature).drop
        (18 + W.length) = r.Signature := by
      rw [show u16 r.TypeCovered ++ [r.Algorithm, r.Labels] ++ u32 r.OrigTTL ++
          u32 r.Expiration ++ u32 r.Inception ++ u16 r.KeyTag ++ W ++ r.Signature =
          (u16 r.TypeCovered ++ [r.Algorithm, r.Labels] ++ u32 r.OrigTTL ++
          u32 r.Expiration ++ u32 r.Inception ++ u16 r.KeyTag ++ W) ++ r.Signature from
          by simp]
      exact List.drop_left' (by simp [u16, u32]; omega)
    have e1 : r.TypeCovered / 256 % 256 * 256 + r.TypeCovered % 256 = r.TypeCovered := by
      omega
    have e2 : r.OrigTTL / 16777216 % 256 * 16777216 + r.OrigTTL / 65536 % 256 * 65536 +
        r.OrigTTL / 256 % 256 * 256 + r.OrigTTL % 256 = r.OrigTTL := by omega
    have e3 : r.Expiration / 16777216 % 256 * 16777216 + r.Expiration / 65536 % 256 * 65536 +
        r.Expiration / 256 % 256 * 256 + r.Expiration % 256 = r.Expiration := by omega
    have e4 : r.Inception / 16777216 % 256 * 16777216 + r.Inception / 65536 % 256 * 65536 +
        r.Inception / 256 % 256 * 256 + r.Inception % 256 = r.Inception := by omega
    have e5 : r.KeyTag / 256 % 256 * 256 + r.KeyTag % 256 = r.KeyTag := by omega
    rw [hty, parseRData_eq46, if_neg hlen, hd18, hK F hF]
    simp only [be16, be32]
    rw [hdsig]
    simp only [u16, u32, List.cons_append, List.nil_append, List.getD_cons_zero,
      List.getD_cons_succ, e1, e2, e3, e4, e5]
  | @nsec3 halg flags iter salt nexth bitmap hh hf hit hs hn =>
    refine ⟨0, fun F _ => ?_⟩
    have hty : (RData.nsec3 halg flags iter salt nexth bitmap).getType = 50 := rfl
    have hw : [halg, flags] ++ u16 iter ++ [salt.length] ++ salt ++
        [nexth.length] ++ nexth ++ bitmap =
        halg :: flags :: (iter / 256 % 256) :: (iter % 256) :: salt.length ::
          (salt ++ (nexth.length :: (nexth ++ bitmap))) := by
      simp [u16]
    have hgd4 : (halg :: flags :: (iter / 256 % 256) :: (iter % 256) :: salt.length ::
        (salt ++ (nexth.length :: (nexth ++ bitmap)))).getD 4 0 = salt.length := by simp
    have hgd5s : (halg :: flags :: (iter / 256 % 256) :: (iter % 256) :: salt.length ::
        (salt ++ (nexth.length :: (nexth ++ bitmap)))).getD (5 + salt.length) 0 =
        nexth.length := by
      rw [show halg :: flags :: (iter / 256 % 256) :: (iter % 256) :: salt.length ::
          (salt ++ (nexth.length :: (nexth ++ bitmap))) =
          (halg :: flags :: (iter / 256 % 256) :: (iter % 256) :: salt.length :: salt) ++
          (nexth.length :: (nexth ++ bitmap)) from by simp]
      exact getD_at (by simp; omega) rfl
    have hd5 : (halg :: flags :: (iter / 256 % 256) :: (iter % 256) :: salt.length ::
        (salt ++ (nexth.length :: (nexth ++ bitmap)))).drop 5 =
        salt ++ (nexth.length :: (nexth ++ bitmap)) := by simp
    have hd6 : (halg :: flags :: (iter / 256 % 256) :: (iter % 256) :: salt.length ::
        (salt ++ (nexth.length :: (nexth ++ bitmap)))).drop (6 + salt.length) =
        nexth ++ bitmap := by
      rw [show halg :: flags :: (iter / 256 % 256) :: (iter % 256) :: salt.length ::
          (salt ++ (nexth.length :: (nexth ++ bitmap))) =
          (halg :: flags :: (iter / 256 % 256) :: (iter % 256) :: salt.length ::
            (salt ++ [nexth.length])) ++ (nexth ++ bitmap) from by simp]
      exact List.drop_left' (by simp; omega)
    have hd6h : (halg :: flags :: (iter / 256 % 256) :: (iter % 256) :: salt.length ::
        (salt ++ (nexth.length :: (nexth ++ bitmap)))).drop
        (6 + salt.length + nexth.length) = bitmap := by
      rw [show halg :: flags :: (iter / 256 % 256) :: (iter % 256) :: salt.length ::
          (salt ++ (nexth.length :: (nexth ++ bitmap))) =
          (halg :: flags :: (iter / 256 % 256) :: (iter % 256) :: salt.length ::
            (salt ++ (nexth.length :: nexth))) ++ bitmap from by simp]
      exact List.drop_left' (by simp; omega)
    have hlen : (halg :: flags :: (iter / 256 % 256) :: (iter % 256) :: salt.length ::
        (salt ++ (nexth.length :: (nexth ++ bitmap)))).length =
        6 + salt.length + nexth.length + bitmap.length := by simp; omega
    have e1 : iter / 256 % 256 * 256 + iter % 256 = iter := by omega
    rw [hty, parseRData_eq50, hw]
    simp only [decodeNSEC3, hgd4, hgd5s, hlen]
    rw [if_neg (by omega), if_neg (by omega), if_neg (by omega)]
    rw [hd5, hd6, hd6h]
    simp only [be16, List.getD_cons_zero, List.getD_cons_succ, e1]
    rw [List.take_left' rfl, List.take_left' rfl]
  | @nsec3param halg flags iter salt hh hf hit hs =>
    refine ⟨0, fun F _ => ?_⟩
    have hty : (RData.nsec3param halg flags iter salt).getType = 51 := rfl
    have hw : [halg, flags] ++ u16 iter ++ [salt.length] ++ salt =
        halg :: flags :: (iter / 256 % 256) :: (iter % 256) :: salt.length :: salt := by
      simp [u16]
    have e1 : iter / 256 % 256 * 256 + iter % 256 = iter := by omega
    rw [hty, parseRData_eq51, hw]
    simp only [List.length_cons, List.getD_cons_zero, List.getD_cons_succ, be16]
    rw [if_neg (by first | (simp; omega) | simp | omega),
      if_neg (by first | (simp; omega) | simp | omega)]
    simp only [List.drop_succ_cons, List.drop_zero, List.take_length, e1]
  | @tsig alg timeSigned fudge mac origID errCode other W hb h =>
    obtain ⟨K, hK⟩ := wf_rdRead h (u48 timeSigned ++ u16 fudge ++ u16 mac.length ++ mac ++
      u16 origID ++ u16 errCode ++ u16 other.length ++ other)
    refine ⟨K, fun F hF => ?_⟩
    obtain ⟨hb1, hb2, hb3, hb4, hb5, hb6⟩ := hb
    have hW1 : 1 ≤ W.length := (h.length_le).1
    have hty : (RData.tsig alg timeSigned fudge mac origID errCode other).getType =
        250 := rfl
    have hdW : (W ++ (u48 timeSigned ++ u16 fudge ++ u16 mac.length ++ mac ++
        u16 origID ++ u16 errCode ++ u16 other.length ++ other)).drop W.length =
        u48 timeSigned ++ u16 fudge ++ u16 mac.length ++ mac ++ u16 origID ++
        u16 errCode ++ u16 other.length ++ other := List.drop_left _ _
    have hw : u48 timeSigned ++ u16 fudge ++ u16 mac.length ++ mac ++ u16 origID ++
        u16 errCode ++ u16 other.length ++ other =
        (timeSigned / 1099511627776 % 256) :: (timeSigned / 4294967296 % 256) ::
        (timeSigned / 16777216 % 256) :: (timeSigned / 65536 % 256) ::
        (timeSigned / 256 % 256) :: (timeSigned % 256) ::
        (fudge / 256 % 256) :: (fudge % 256) ::
        (mac.length / 256 % 256) :: (mac.length % 256) ::
        (mac ++ ((origID / 256 % 256) :: (origID % 256) ::
          (errCode / 256 % 256) :: (errCode % 256) ::
          (other.length / 256 % 256) :: (other.length % 256) :: other)) := by
      simp [u48, u16]
    have e0 : timeSigned / 1099511627776 % 256 * 1099511627776 +
        timeSigned / 4294967296 % 256 * 4294967296 + timeSigned / 16777216 % 256 * 16777216 +
        timeSigned / 65536 % 256 * 65536 + timeSigned / 256 % 256 * 256 +
        timeSigned % 256 = timeSigned := by omega
    have e1 : fudge / 256 % 256 * 256 + fudge % 256 = fudge := by omega
    have e2 : mac.length / 256 % 256 * 256 + mac.length % 256 = mac.length := by omega
    have e3 : origID / 256 % 256 * 256 + origID % 256 = origID := by omega
    have e4 : errCode / 256 % 256 * 256 + errCode % 256 = errCode := by omega
    have e5 : other.length / 256 % 256 * 256 + other.length % 256 = other.length := by omega
    have hd10 : ((timeSigned / 1099511627776 % 256) :: (timeSigned / 4294967296 % 256) ::
        (timeSigned / 16777216 % 256) :: (timeSigned / 65536 % 256) ::
        (timeSigned / 256 % 256) :: (timeSigned % 256) ::
        (fudge / 256 % 256) :: (fudge % 256) ::
        (mac.length / 256 % 256) :: (mac.length % 256) ::
        (mac ++ ((origID / 256 % 256) :: (origID % 256) ::
          (errCode / 256 % 256) :: (errCode % 256) ::
          (other.length / 256 % 256) :: (other.length % 256) :: other))).drop 10 =
        mac ++ ((origID / 256 % 256) :: (origID % 256) ::
          (errCode / 256 % 256) :: (errCode % 256) ::
          (other.length / 256 % 256) :: (other.length % 256) :: other) := by simp
    have hc1 : ¬ ((W ++ (u48 timeSigned ++ u16 fudge ++ u16 mac.length ++ mac ++
        u16 origID ++ u16 errCode ++ u16 other.length ++ other)).length < 1) := by
      simp only [List.length_append]
      omega
    have hc2 : ¬ (((timeSigned / 1099511627776 % 256) :: (timeSigned / 4294967296 % 256) ::
        (timeSigned / 16777216 % 256) :: (timeSigned / 65536 % 256) ::
        (timeSigned / 256 % 256) :: (timeSigned % 256) ::
        (fudge / 256 % 256) :: (fudge % 256) ::
        (mac.length / 256 % 256) :: (mac.length % 256) ::
        (mac ++ ((origID / 256 % 256) :: (origID % 256) ::
          (errCode / 256 % 256) :: (errCode % 256) ::
          (other.length / 256 % 256) :: (other.length % 256) :: other))).length < 16) := by
      simp only [List.length_cons, List.length_append]
      omega
    have hc3 : ¬ ((mac ++ ((origID / 256 % 256) :: (origID % 256) ::
        (errCode / 256 % 256) :: (errCode % 256) ::
        (other.length / 256 % 256) :: (other.length % 256) :: other)).length <
        mac.length + 6) := by
      simp only [List.length_append, List.length_cons]
      omega
    have hc4 : ¬ (other.length < other.length) := by omega
    rw [hty, parseRData_eq250]
    simp only [decodeTSIG]
    rw [if_neg hc1, hK F hF]
    simp only [hw, List.drop_left]
    simp only [be16, List.getD_cons_zero, List.getD_cons_succ, e0, e1, e2]
    rw [if_neg hc2]
    simp only [hd10]
    rw [if_neg hc3]
    simp only [List.take_left, List.drop_left]
    simp only [be16, List.getD_cons_zero, List.getD_cons_succ, e3, e4, e5,
      List.drop_succ_cons, List.drop_zero]
    rw [if_neg hc4, List.take_length]
  | @tkey alg incep expir mode errCode keyData other W hb h =>
    obtain ⟨K, hK⟩ := wf_rdRead h (u32 incep ++ u32 expir ++ u16 mode ++ u16 errCode ++
      u16 keyData.length ++ keyData ++ u16 other.length ++ other)
    refine ⟨K, fun F hF => ?_⟩
    obtain ⟨hb1, hb2, hb3, hb4, hb5, hb6⟩ := hb
    have hW1 : 1 ≤ W.length := (h.length_le).1
    have hty : (RData.tkey alg incep expir mode errCode keyData other).getType = 249 := rfl
    have hdW : (W ++ (u32 incep ++ u32 expir ++ u16 mode ++ u16 errCode ++
        u16 keyData.length ++ keyData ++ u16 other.length ++ other)).drop W.length =
        u32 incep ++ u32 expir ++ u16 mode ++ u16 errCode ++ u16 keyData.length ++
        keyData ++ u16 other.length ++ other := List.drop_left _ _
    have hw : u32 incep ++ u32 expir ++ u16 mode ++ u16 errCode ++ u16 keyData.length ++
        keyData ++ u16 other.length ++ other =
        (incep / 16777216 % 256) :: (incep / 65536 % 256) :: (incep / 256 % 256) ::
        (incep % 256) :: (expir / 16777216 % 256) :: (expir / 65536 % 256) ::
        (expir / 256 % 256) :: (expir % 256) :: (mode / 256 % 256) :: (mode % 256) ::
        (errCode / 256 % 256) :: (errCode % 256) ::
        (keyData.length / 256 % 256) :: (keyData.length % 256) ::
        (keyData ++ ((other.length / 256 % 256) :: (other.length % 256) :: other)) := by
      simp [u32, u16]
    have e0 : incep / 16777216 % 256 * 16777216 + incep / 65536 % 256 * 65536 +
        incep / 256 % 256 * 256 + incep % 256 = incep := by omega
    have e1 : expir / 16777216 % 256 * 16777216 + expir / 65536 % 256 * 65536 +
        expir / 256 % 256 * 256 + expir % 256 = expir := by omega
    have e2 : mode / 256 % 256 * 256 + mode % 256 = mode := by omega
    have e3 : errCode / 256 % 256 * 256 + errCode % 256 = errCode := by omega
    have e4 : keyData.length / 256 % 256 * 256 + keyData.length % 256 =
        keyData.length := by omega
    have e5 : other.length / 256 % 256 * 256 + other.length % 256 = other.length := by omega
    have hd14 : ((incep / 16777216 % 256) :: (incep / 65536 % 256) :: (incep / 256 % 256) ::
        (incep % 256) :: (expir / 16777216 % 256) :: (expir / 65536 % 256) ::
        (expir / 256 % 256) :: (expir % 256) :: (mode / 256 % 256) :: (mode % 256) ::
        (errCode / 256 % 256) :: (errCode % 256) ::
        (keyData.length / 256 % 256) :: (keyData.length % 256) ::
        (keyData ++ ((other.length / 256 % 256) :: (other.length % 256) :: other))).drop
        14 = keyData ++ ((other.length / 256 % 256) :: (other.length % 256) :: other) := by
      simp
    have hc1 : ¬ ((W ++ (u32 incep ++ u32 expir ++ u16 mode ++ u16 errCode ++
        u16 keyData.length ++ keyData ++ u16 other.length ++ other)).length < 1) := by
      simp only [List.length_append]
      omega
    have hc2 : ¬ (((incep / 16777216 % 256) :: (incep / 65536 % 256) ::
        (incep / 256 % 256) :: (incep % 256) :: (expir / 16777216 % 256) ::
        (expir / 65536 % 256) :: (expir / 256 % 256) :: (expir % 256) ::
        (mode / 256 % 256) :: (mode % 256) :: (errCode / 256 % 256) :: (errCode % 256) ::
        (keyData.length / 256 % 256) :: (keyData.length % 256) ::
        (keyData ++ ((other.length / 256 % 256) :: (other.length % 256) ::
          other))).length < 16) := by
      simp only [List.length_cons, List.length_append]
      omega
    have hc3 : ¬ ((keyData ++ ((other.length / 256 % 256) :: (other.length % 256) ::
        other)).length < keyData.length + 2) := by
      simp only [List.length_append, List.length_cons]
      omega
    have hc4 : ¬ (other.length < other.length) := by omega
    rw [hty, parseRData_eq249]
    simp only [decodeTKEY]
    rw [if_neg hc1, hK F hF]
    simp only [hw, List.drop_left]
    simp only [be16, be32, List.getD_cons_zero, List.getD_cons_succ, e0, e1, e2, e3, e4]
    rw [if_neg hc2]
    simp only [hd14]
    rw [if_neg hc3]
    simp only [List.take_left, List.drop_left]
    simp only [be16, List.getD_cons_zero, List.getD_cons_succ, e5,
      List.drop_succ_cons, List.drop_zero]
    rw [if_neg hc4, List.take_length]
  | @srv prio weight port target W hb h =>
    obtain ⟨K, hK⟩ := wf_rdRead_nil h
    refine ⟨K, fun F hF => ?_⟩
    obtain ⟨hb1, hb2, hb3⟩ := hb
    have hW1 : 1 ≤ W.length := (h.length_le).1
    have hty : (RData.srv prio weight port target).getType = 33 := rfl
    have hdrop : (u16 prio ++ u16 weight ++ u16 port ++ W).drop 6 = W := by
      simp [u16]
    have e1 : prio / 256 % 256 * 256 + prio % 256 = prio := by omega
    have e2 : weight / 256 % 256 * 256 + weight % 256 = weight := by omega
    have e3 : port / 256 % 256 * 256 + port % 256 = port := by omega
    rw [hty, parseRData_eq33, if_neg (by first | (simp [u16]; omega) | simp [u16] | omega), hdrop, hK F hF]
    simp only [be16, u16, List.cons_append, List.nil_append, List.getD_cons_zero,
      List.getD_cons_succ, e1, e2, e3]
  | @caa flags tag value hf ht =>
    refine ⟨0, fun F _ => ?_⟩
    have hty : (RData.caa flags tag value).getType = 257 := rfl
    have hw : [flags, tag.length] ++ tag ++ value =
        flags :: tag.length :: (tag ++ value) := by simp
    have hd2t : (flags :: tag.length :: (tag ++ value)).drop (2 + tag.length) = value := by
      rw [show flags :: tag.length :: (tag ++ value) =
          (flags :: tag.length :: tag) ++ value from by simp]
      exact List.drop_left' (by simp; omega)
    rw [hty, parseRData_eq257, hw]
    simp only [List.length_cons, List.length_append, List.getD_cons_zero,
      List.getD_cons_succ]
    rw [if_neg (by omega), if_neg (by omega)]
    simp only [List.drop_succ_cons, List.drop_zero]
    rw [List.take_left' rfl, hd2t]
  | @naptr order pref flags service regexp replacement W hb h =>
    obtain ⟨K, hK⟩ := wf_rdRead_nil h
    refine ⟨K, fun F hF => ?_⟩
    obtain ⟨hb1, hb2, hb3, hb4, hb5⟩ := hb
    have hW1 : 1 ≤ W.length := (h.length_le).1
    have hty : (RData.naptr order pref flags service regexp replacement).getType =
        35 := rfl
    have hd4 : (u16 order ++ u16 pref ++ ([flags.length] ++ flags) ++
        ([service.length] ++ service) ++ ([regexp.length] ++ regexp) ++ W).drop 4 =
        flags.length :: (flags ++ (service.length :: (service ++
          (regexp.length :: (regexp ++ W))))) := by
      simp [u16]
    have e1 : order / 256 % 256 * 256 + order % 256 = order := by omega
    have e2 : pref / 256 % 256 * 256 + pref % 256 = pref := by omega
    rw [hty, parseRData_eq35]
    simp only [decodeNAPTR]
    rw [if_neg (by first | (simp [u16]; omega) | simp [u16] | omega)]
    simp only [hd4]
    rw [readCharString_at]
    simp only [drop_charString]
    rw [readCharString_at]
    simp only [drop_charString]
    rw [readCharString_at]
    simp only [drop_charString]
    rw [hK F hF]
    simp only [be16, u16, List.cons_append, List.nil_append, List.getD_cons_zero,
      List.getD_cons_succ, e1, e2]
  | @rp mbox txtName W1 W2 h1 h2 =>
    obtain ⟨K1, hK1⟩ := wf_rdRead h1 W2
    obtain ⟨K2, hK2⟩ := wf_rdRead_nil h2
    refine ⟨K1 + K2, fun F hF => ?_⟩
    have hty : (RData.rp mbox txtName).getType = 17 := rfl
    have hdrop : (W1 ++ W2).drop W1.length = W2 := List.drop_left _ _
    rw [hty, parseRData_eq17, hK1 F (by omega)]
    simp only [hdrop]
    rw [hK2 F (by omega)]
  | @afsdb subtype hostname W hs h =>
    obtain ⟨K, hK⟩ := wf_rdRead_nil h
    refine ⟨K, fun F hF => ?_⟩
    have hW1 : 1 ≤ W.length := (h.length_le).1
    have hty : (RData.afsdb subtype hostname).getType = 18 := rfl
    have hdrop : (u16 subtype ++ W).drop 2 = W := by simp [u16]
    have e1 : subtype / 256 % 256 * 256 + subtype % 256 = subtype := by omega
    rw [hty, parseRData_eq18, if_neg (by simp [u16]; omega), hdrop, hK F hF]
    simp only [be16, u16, List.cons_append, List.nil_append, List.getD_cons_zero,
      List.getD_cons_succ, e1]

/-! ## Round-trip infrastructure: encoding each RDATA -/

/-- Extend the carrier message of a full-height written form. -/
theorem wf_ext_len {msg ext : List Nat} {a : Option Nat} {W nm : List Nat}
    (h : WrittenForm msg a msg.length W nm) :
    WrittenForm (msg ++ ext) a (msg ++ ext).length W nm :=
  (h.stabW (by simp) (fun q hq _ => getElem?_ext_left (by omega))).monoW (by simp)

/-- The `encode` method of each well-formed record appends its RDATA wire
form, touches nothing else, and commits only sound cache entries. -/
theorem encodeRData_spec {a : Option Nat} {c : Ctx} {rd : RData}
    (hm : c.marshal = false) (hwf : wfRData rd)
    (hmap : ∀ e ∈ c.labelMap, entryOK c.rawMsg a e)
    (hwin : ∀ b, a = some b → b + 2 ≤ c.rawMsg.length) :
    ∃ Wr newE,
      encodeRData c rd =
        ({ rawMsg := c.rawMsg ++ Wr, labelMap := newE ++ c.labelMap,
           name := c.name, marshal := c.marshal }, none) ∧
      RdW (c.rawMsg ++ Wr) a (c.rawMsg ++ Wr).length rd Wr ∧
      ∀ e ∈ newE, entryOK (c.rawMsg ++ Wr) a e := by
  cases rd with
  | ip ipb t =>
    rcases hwf with ⟨rfl, h4⟩ | ⟨rfl, h16⟩
    · refine ⟨ipb, [], ?_, .ip4 h4, by simp⟩
      simp [encodeRData, goTo4, h4, wr]
    · refine ⟨ipb, [], ?_, .ip6 h16, by simp⟩
      simp [encodeRData, goTo16, h16, wr]
  | lbl l t =>
    obtain ⟨ht, hn⟩ := hwf
    obtain ⟨W, newE, heq, hwfm, hok, hne⟩ := appendLabel_spec hm hn hmap hwin
    exact ⟨W, newE, heq, .lbl hwfm, hok⟩
  | raw d t =>
    subst hwf
    exact ⟨d, [], by simp [encodeRData, wr], .raw, by simp⟩
  | txt s =>
    exact ⟨txtChunks s, [], by simp [encodeRData, wr], .txt, by simp⟩
  | mx pref server =>
    obtain ⟨hp, hn⟩ := hwf
    obtain ⟨W, newE, heq, hwfm, hok, hne⟩ :=
      appendLabel_spec (a := a) (c := wr c (u16 pref)) hm hn
        (fun e he => entryOK_ext (hmap e he))
        (fun b hb => by have := hwin b hb; simp [wr]; omega)
    refine ⟨u16 pref ++ W, newE, ?_, ?_, ?_⟩
    · rw [show encodeRData c (.mx pref server) = appendLabel (wr c (u16 pref)) server
        from rfl, heq]
      simp [wr]
    · have hM : c.rawMsg ++ (u16 pref ++ W) = (wr c (u16 pref)).rawMsg ++ W := by simp [wr]
      refine RdW.mx hp ?_
      rw [hM]; exact hwfm
    · intro e he
      have hM : c.rawMsg ++ (u16 pref ++ W) = (wr c (u16 pref)).rawMsg ++ W := by simp [wr]
      rw [hM]; exact hok e he
  | opt opts =>
    refine ⟨optsWire opts, [], ?_, .opt hwf, by simp⟩
    rw [show encodeRData c (.opt opts) = encodeOpts c opts from rfl,
      encodeOpts_wire (fun o ho => (hwf o ho).2)]
    simp [wr]
  | dnskey k =>
    obtain ⟨hf, hp, ha⟩ := hwf
    refine ⟨u16 k.Flags ++ [k.Protocol, k.Algorithm] ++ k.PublicKey, [], ?_,
      .dnskey hf hp ha, by simp⟩
    have e1 : k.Protocol % 256 = k.Protocol := Nat.mod_eq_of_lt hp
    have e2 : k.Algorithm % 256 = k.Algorithm := Nat.mod_eq_of_lt ha
    simp [encodeRData, wr, e1, e2]
  | ds d =>
    obtain ⟨hk, ha, ht⟩ := hwf
    refine ⟨u16 d.KeyTag ++ [d.Algorithm, d.DigestType] ++ d.Digest, [], ?_,
      .ds hk ha ht, by simp⟩
    have e1 : d.Algorithm % 256 = d.Algorithm := Nat.mod_eq_of_lt ha
    have e2 : d.DigestType % 256 = d.DigestType := Nat.mod_eq_of_lt ht
    simp [encodeRData, wr, e1, e2]
  | nsec3 halg flags iter salt nexth bitmap =>
    obtain ⟨hh, hf, hit, hs, hn⟩ := hwf
    refine ⟨[halg, flags] ++ u16 iter ++ [salt.length] ++ salt ++
      [nexth.length] ++ nexth ++ bitmap, [], ?_, .nsec3 hh hf hit hs hn, by simp⟩
    have e1 : halg % 256 = halg := Nat.mod_eq_of_lt hh
    have e2 : flags % 256 = flags := Nat.mod_eq_of_lt hf
    have e3 : salt.length % 256 = salt.length := Nat.mod_eq_of_lt hs
    have e4 : nexth.length % 256 = nexth.length := Nat.mod_eq_of_lt hn
    simp [encodeRData, wr, e1, e2, e3, e4]
  | nsec3param halg flags iter salt =>
    obtain ⟨hh, hf, hit, hs⟩ := hwf
    refine ⟨[halg, flags] ++ u16 iter ++ [salt.length] ++ salt, [], ?_,
      .nsec3param hh hf hit hs, by simp⟩
    have e1 : halg % 256 = halg := Nat.mod_eq_of_lt hh
    have e2 : flags % 256 = flags := Nat.mod_eq_of_lt hf
    have e3 : salt.length % 256 = salt.length := Nat.mod_eq_of_lt hs
    simp [encodeRData, wr, e1, e2, e3]
  | cert ctype ktag alg certData =>
    obtain ⟨hc, hk, ha⟩ := hwf
    refine ⟨u16 ctype ++ u16 ktag ++ [alg] ++ certData, [], ?_, .cert hc hk ha, by simp⟩
    have e1 : alg % 256 = alg := Nat.mod_eq_of_lt ha
    simp [encodeRData, wr, e1]
  | tlsa usage sel mtype certData =>
    obtain ⟨hu, hs, hm2⟩ := hwf
    refine ⟨[usage, sel, mtype] ++ certData, [], ?_, .tlsa hu hs hm2, by simp⟩
    have e1 : usage % 256 = usage := Nat.mod_eq_of_lt hu
    have e2 : sel % 256 = sel := Nat.mod_eq_of_lt hs
    have e3 : mtype % 256 = mtype := Nat.mod_eq_of_lt hm2
    simp [encodeRData, wr, e1, e2, e3]
  | sshfp alg ftype fp =>
    obtain ⟨ha, hf⟩ := hwf
    refine ⟨[alg, ftype] ++ fp, [], ?_, .sshfp ha hf, by simp⟩
    have e1 : alg % 256 = alg := Nat.mod_eq_of_lt ha
    have e2 : ftype % 256 = ftype := Nat.mod_eq_of_lt hf
    simp [encodeRData, wr, e1, e2]
  | caa flags tag value =>
    obtain ⟨hf, ht⟩ := hwf
    refine ⟨[flags, tag.length] ++ tag ++ value, [], ?_, .caa hf ht, by simp⟩
    have e1 : flags % 256 = flags := Nat.mod_eq_of_lt hf
    have e2 : tag.length % 256 = tag.length := Nat.mod_eq_of_lt ht
    simp [encodeRData, wr, e1, e2]
  | uri prio weight target =>
    obtain ⟨hp, hw⟩ := hwf
    exact ⟨u16 prio ++ u16 weight ++ target, [], by simp [encodeRData, wr],
      .uri hp hw, by simp⟩
  | hinfo cpu os =>
    obtain ⟨hc, ho⟩ := hwf
    refine ⟨([cpu.length] ++ cpu) ++ ([os.length] ++ os), [], ?_, .hinfo hc ho, by simp⟩
    rw [show encodeRData c (.hinfo cpu os) =
      andThen (writeCharString c cpu) (fun c => writeCharString c os) from rfl]
    rw [writeCharString, if_neg (by omega)]
    rw [andThen, writeCharString, if_neg (by simp [wr]; omega)]
    simp [wr]
  | soa mn rn serial refresh retry expire minimum =>
    obtain ⟨hn1, hn2, hs, hr, hrt, he, hmin⟩ := hwf
    obtain ⟨W1, E1, heq1, hw1, hok1, hne1⟩ := appendLabel_spec (a := a) hm hn1 hmap hwin
    obtain ⟨W2, E2, heq2, hw2, hok2, hne2⟩ :=
      appendLabel_spec (a := a)
        (c := { rawMsg := c.rawMsg ++ W1, labelMap := E1 ++ c.labelMap,
                name := c.name, marshal := c.marshal }) hm hn2
        (fun e he => by
          rcases List.mem_append.1 he with h | h
          · exact hok1 e h
          · exact entryOK_ext (hmap e h))
        (fun b hb => by have := hwin b hb; simp; omega)
    refine ⟨W1 ++ W2 ++ (u32 serial ++ u32 refresh ++ u32 retry ++ u32 expire ++ u32 minimum),
      E2 ++ E1, ?_, ?_, ?_⟩
    · rw [show encodeRData c (.soa mn rn serial refresh retry expire minimum) =
        andThen (appendLabel c mn) (fun c => andThen (appendLabel c rn) (fun c =>
          (wr c (u32 serial ++ u32 refresh ++ u32 retry ++ u32 expire ++ u32 minimum), none)))
        from rfl, heq1]
      simp only [andThen]
      rw [heq2]
      simp only [andThen]
      simp [wr]
    · have hM1 : c.rawMsg ++ (W1 ++ W2 ++
          (u32 serial ++ u32 refresh ++ u32 retry ++ u32 expire ++ u32 minimum)) =
          (c.rawMsg ++ W1) ++ (W2 ++
          (u32 serial ++ u32 refresh ++ u32 retry ++ u32 expire ++ u32 minimum)) := by simp
      have hM2 : c.rawMsg ++ (W1 ++ W2 ++
          (u32 serial ++ u32 refresh ++ u32 retry ++ u32 expire ++ u32 minimum)) =
          (((c.rawMsg ++ W1) ++ W2) ++
          (u32 serial ++ u32 refresh ++ u32 retry ++ u32 expire ++ u32 minimum)) := by simp
      refine RdW.soa ?_ ?_ ⟨hs, hr, hrt, he, hmin⟩
      · rw [hM1]; exact wf_ext_len hw1
      · rw [hM2]; exact wf_ext_len hw2
    · intro e he
      have hM1 : c.rawMsg ++ (W1 ++ W2 ++
          (u32 serial ++ u32 refresh ++ u32 retry ++ u32 expire ++ u32 minimum)) =
          (c.rawMsg ++ W1) ++ (W2 ++
          (u32 serial ++ u32 refresh ++ u32 retry ++ u32 expire ++ u32 minimum)) := by simp
      have hM2 : c.rawMsg ++ (W1 ++ W2 ++
          (u32 serial ++ u32 refresh ++ u32 retry ++ u32 expire ++ u32 minimum)) =
          (((c.rawMsg ++ W1) ++ W2) ++
          (u32 serial ++ u32 refresh ++ u32 retry ++ u32 expire ++ u32 minimum)) := by simp
      rcases List.mem_append.1 he with h | h
      · rw [hM2]; exact entryOK_ext (hok2 e h)
      · rw [hM1]; exact entryOK_ext (hok1 e h)
  | rrsig r =>
    obtain ⟨htc, hal, hlb, hot, hex, hin, hkt, hn⟩ := hwf
    have e1 : r.Algorithm % 256 = r.Algorithm := Nat.mod_eq_of_lt hal
    have e2 : r.Labels % 256 = r.Labels := Nat.mod_eq_of_lt hlb
    obtain ⟨W, newE, heq, hwfm, hok, hne⟩ :=
      appendLabel_spec (a := a)
        (c := wr c (u16 r.TypeCovered ++ [r.Algorithm, r.Labels] ++ u32 r.OrigTTL ++
          u32 r.Expiration ++ u32 r.Inception ++ u16 r.KeyTag)) hm hn
        (fun e he => entryOK_ext (hmap e he))
        (fun b hb => by have := hwin b hb; simp [wr]; omega)
    refine ⟨u16 r.TypeCovered ++ [r.Algorithm, r.Labels] ++ u32 r.OrigTTL ++
      u32 r.Expiration ++ u32 r.Inception ++ u16 r.KeyTag ++ W ++ r.Signature, newE, ?_, ?_, ?_⟩
    · rw [show encodeRData c (.rrsig r) =
        andThen (appendLabel (wr c (u16 r.TypeCovered ++ [r.Algorithm % 256, r.Labels % 256] ++
          u32 r.OrigTTL ++ u32 r.Expiration ++ u32 r.Inception ++ u16 r.KeyTag)) r.SignerName)
          (fun c => (wr c r.Signature, none)) from rfl, e1, e2, heq]
      simp only [andThen]
      simp [wr]
    · have hM : c.rawMsg ++ (u16 r.TypeCovered ++ [r.Algorithm, r.Labels] ++ u32 r.OrigTTL ++
          u32 r.Expiration ++ u32 r.Inception ++ u16 r.KeyTag ++ W ++ r.Signature) =
          ((wr c (u16 r.TypeCovered ++ [r.Algorithm, r.Labels] ++ u32 r.OrigTTL ++
            u32 r.Expiration ++ u32 r.Inception ++ u16 r.KeyTag)).rawMsg ++ W) ++
            r.Signature := by simp [wr]
      refine RdW.rrsig ⟨htc, hal, hlb, hot, hex, hin, hkt⟩ ?_
      rw [hM]; exact wf_ext_len hwfm
    · intro e he
      have hM : c.rawMsg ++ (u16 r.TypeCovered ++ [r.Algorithm, r.Labels] ++ u32 r.OrigTTL ++
          u32 r.Expiration ++ u32 r.Inception ++ u16 r.KeyTag ++ W ++ r.Signature) =
          ((wr c (u16 r.TypeCovered ++ [r.Algorithm, r.Labels] ++ u32 r.OrigTTL ++
            u32 r.Expiration ++ u32 r.Inception ++ u16 r.KeyTag)).rawMsg ++ W) ++
            r.Signature := by simp [wr]
      rw [hM]; exact entryOK_ext (hok e he)
  | nsec next bitmap =>
    obtain ⟨W, newE, heq, hwfm, hok, hne⟩ := appendLabel_spec (a := a) hm hwf hmap hwin
    refine ⟨W ++ bitmap, newE, ?_, ?_, ?_⟩
    · rw [show encodeRData c (.nsec next bitmap) =
        andThen (appendLabel c next) (fun c => (wr c bitmap, none)) from rfl, heq]
      simp only [andThen]
      simp [wr]
    · have hM : c.rawMsg ++ (W ++ bitmap) = (c.rawMsg ++ W) ++ bitmap := by simp
      refine RdW.nsec ?_
      rw [hM]; exact wf_ext_len hwfm
    · intro e he
      have hM : c.rawMsg ++ (W ++ bitmap) = (c.rawMsg ++ W) ++ bitmap := by simp
      rw [hM]; exact entryOK_ext (hok e he)
  | tsig alg timeSigned fudge mac origID errCode other =>
    obtain ⟨hn, hts, hfu, hmc, hoi, hec, hoth⟩ := hwf
    obtain ⟨W, newE, heq, hwfm, hok, hne⟩ := appendLabel_spec (a := a) hm hn hmap hwin
    refine ⟨W ++ (u48 timeSigned ++ u16 fudge ++ u16 mac.length ++ mac ++ u16 origID ++
      u16 errCode ++ u16 other.length ++ other), newE, ?_, ?_, ?_⟩
    · rw [show encodeRData c (.tsig alg timeSigned fudge mac origID errCode other) =
        andThen (appendLabel c alg) (fun c =>
          (wr c (u48 timeSigned ++ u16 fudge ++ u16 mac.length ++ mac ++ u16 origID ++
            u16 errCode ++ u16 other.length ++ other), none)) from rfl, heq]
      simp only [andThen]
      simp [wr]
    · have hM : c.rawMsg ++ (W ++ (u48 timeSigned ++ u16 fudge ++ u16 mac.length ++ mac ++
          u16 origID ++ u16 errCode ++ u16 other.length ++ other)) =
          (c.rawMsg ++ W) ++ (u48 timeSigned ++ u16 fudge ++ u16 mac.length ++ mac ++
          u16 origID ++ u16 errCode ++ u16 other.length ++ other) := by simp
      refine RdW.tsig ⟨hts, hfu, hmc, hoi, hec, hoth⟩ ?_
      rw [hM]; exact wf_ext_len hwfm
    · intro e he
      have hM : c.rawMsg ++ (W ++ (u48 timeSigned ++ u16 fudge ++ u16 mac.length ++ mac ++
          u16 origID ++ u16 errCode ++ u16 other.length ++ other)) =
          (c.rawMsg ++ W) ++ (u48 timeSigned ++ u16 fudge ++ u16 mac.length ++ mac ++
          u16 origID ++ u16 errCode ++ u16 other.length ++ other) := by simp
      rw [hM]; exact entryOK_ext (hok e he)
  | tkey alg incep expir mode errCode keyData other =>
    obtain ⟨hn, hic, hep, hmd, hec, hkd, hoth⟩ := hwf
    obtain ⟨W, newE, heq, hwfm, hok, hne⟩ := appendLabel_spec (a := a) hm hn hmap hwin
    refine ⟨W ++ (u32 incep ++ u32 expir ++ u16 mode ++ u16 errCode ++ u16 keyData.length ++
      keyData ++ u16 other.length ++ other), newE, ?_, ?_, ?_⟩
    · rw [show encodeRData c (.tkey alg incep expir mode errCode keyData other) =
        andThen (appendLabel c alg) (fun c =>
          (wr c (u32 incep ++ u32 expir ++ u16 mode ++ u16 errCode ++ u16 keyData.length ++
            keyData ++ u16 other.length ++ other), none)) from rfl, heq]
      simp only [andThen]
      simp [wr]
    · have hM : c.rawMsg ++ (W ++ (u32 incep ++ u32 expir ++ u16 mode ++ u16 errCode ++
          u16 keyData.length ++ keyData ++ u16 other.length ++ other)) =
          (c.rawMsg ++ W) ++ (u32 incep ++ u32 expir ++ u16 mode ++ u16 errCode ++
          u16 keyData.length ++ keyData ++ u16 other.length ++ other) := by simp
      refine RdW.tkey ⟨hic, hep, hmd, hec, hkd, hoth⟩ ?_
      rw [hM]; exact wf_ext_len hwfm
    · intro e he
      have hM : c.rawMsg ++ (W ++ (u32 incep ++ u32 expir ++ u16 mode ++ u16 errCode ++
          u16 keyData.length ++ keyData ++ u16 other.length ++ other)) =
          (c.rawMsg ++ W) ++ (u32 incep ++ u32 expir ++ u16 mode ++ u16 errCode ++
          u16 keyData.length ++ keyData ++ u16 other.length ++ other) := by simp
      rw [hM]; exact entryOK_ext (hok e he)
  | srv prio weight port target =>
    obtain ⟨hp, hw, hpt, hn⟩ := hwf
    obtain ⟨W, newE, heq, hwfm, hok, hne⟩ :=
      appendLabel_spec (a := a) (c := wr c (u16 prio ++ u16 weight ++ u16 port)) hm hn
        (fun e he => entryOK_ext (hmap e he))
        (fun b hb => by have := hwin b hb; simp [wr]; omega)
    refine ⟨u16 prio ++ u16 weight ++ u16 port ++ W, newE, ?_, ?_, ?_⟩
    · rw [show encodeRData c (.srv prio weight port target) =
        appendLabel (wr c (u16 prio ++ u16 weight ++ u16 port)) target from rfl, heq]
      simp [wr]
    · have hM : c.rawMsg ++ (u16 prio ++ u16 weight ++ u16 port ++ W) =
          (wr c (u16 prio ++ u16 weight ++ u16 port)).rawMsg ++ W := by simp [wr]
      refine RdW.srv ⟨hp, hw, hpt⟩ ?_
      rw [hM]; exact hwfm
    · intro e he
      have hM : c.rawMsg ++ (u16 prio ++ u16 weight ++ u16 port ++ W) =
          (wr c (u16 prio ++ u16 weight ++ u16 port)).rawMsg ++ W := by simp [wr]
      rw [hM]; exact hok e he
  | naptr order pref flags service regexp replacement =>
    obtain ⟨ho, hp, hfl, hsv, hrg, hn⟩ := hwf
    obtain ⟨W, newE, heq, hwfm, hok, hne⟩ :=
      appendLabel_spec (a := a)
        (c := wr (wr (wr (wr c (u16 order ++ u16 pref)) ([flags.length] ++ flags))
          ([service.length] ++ service)) ([regexp.length] ++ regexp)) hm hn
        (fun e he => entryOK_ext (entryOK_ext (entryOK_ext (entryOK_ext (hmap e he)))))
        (fun b hb => by have := hwin b hb; simp [wr]; omega)
    refine ⟨u16 order ++ u16 pref ++ ([flags.length] ++ flags) ++ ([service.length] ++ service) ++
      ([regexp.length] ++ regexp) ++ W, newE, ?_, ?_, ?_⟩
    · rw [show encodeRData c (.naptr order pref flags service regexp replacement) =
        andThen (writeCharString (wr c (u16 order ++ u16 pref)) flags) (fun c =>
        andThen (writeCharString c service) (fun c =>
        andThen (writeCharString c regexp) (fun c => appendLabel c replacement))) from rfl]
      rw [writeCharString, if_neg (by omega)]
      simp only [andThen]
      rw [writeCharString, if_neg (by omega)]
      simp only [andThen]
      rw [writeCharString, if_neg (by omega)]
      simp only [andThen]
      rw [heq]
      simp [wr]
    · have hM : c.rawMsg ++ (u16 order ++ u16 pref ++ ([flags.length] ++ flags) ++
          ([service.length] ++ service) ++ ([regexp.length] ++ regexp) ++ W) =
          (wr (wr (wr (wr c (u16 order ++ u16 pref)) ([flags.length] ++ flags))
            ([service.length] ++ service)) ([regexp.length] ++ regexp)).rawMsg ++ W := by
        simp [wr]
      refine RdW.naptr ⟨ho, hp, hfl, hsv, hrg⟩ ?_
      rw [hM]; exact hwfm
    · intro e he
      have hM : c.rawMsg ++ (u16 order ++ u16 pref ++ ([flags.length] ++ flags) ++
          ([service.length] ++ service) ++ ([regexp.length] ++ regexp) ++ W) =
          (wr (wr (wr (wr c (u16 order ++ u16 pref)) ([flags.length] ++ flags))
            ([service.length] ++ service)) ([regexp.length] ++ regexp)).rawMsg ++ W := by
        simp [wr]
      rw [hM]; exact hok e he
  | rp mbox txtName =>
    obtain ⟨hn1, hn2⟩ := hwf
    obtain ⟨W1, E1, heq1, hw1, hok1, hne1⟩ := appendLabel_spec (a := a) hm hn1 hmap hwin
    obtain ⟨W2, E2, heq2, hw2, hok2, hne2⟩ :=
      appendLabel_spec (a := a)
        (c := { rawMsg := c.rawMsg ++ W1, labelMap := E1 ++ c.labelMap,
                name := c.name, marshal := c.marshal }) hm hn2
        (fun e he => by
          rcases List.mem_append.1 he with h | h
          · exact hok1 e h
          · exact entryOK_ext (hmap e h))
        (fun b hb => by have := hwin b hb; simp; omega)
    refine ⟨W1 ++ W2, E2 ++ E1, ?_, ?_, ?_⟩
    · rw [show encodeRData c (.rp mbox txtName) =
        andThen (appendLabel c mbox) (fun c => appendLabel c txtName) from rfl, heq1]
      simp only [andThen]
      rw [heq2]
      simp [wr]
    · have hM1 : c.rawMsg ++ (W1 ++ W2) = (c.rawMsg ++ W1) ++ W2 := by simp
      refine RdW.rp ?_ ?_
      · rw [hM1]; exact wf_ext_len hw1
      · rw [hM1]; exact hw2
    · intro e he
      have hM1 : c.rawMsg ++ (W1 ++ W2) = (c.rawMsg ++ W1) ++ W2 := by simp
      rcases List.mem_append.1 he with h | h
      · rw [hM1]; exact hok2 e h
      · rw [hM1]; exact entryOK_ext (hok1 e h)
  | afsdb subtype hostname =>
    obtain ⟨hs, hn⟩ := hwf
    obtain ⟨W, newE, heq, hwfm, hok, hne⟩ :=
      appendLabel_spec (a := a) (c := wr c (u16 subtype)) hm hn
        (fun e he => entryOK_ext (hmap e he))
        (fun b hb => by have := hwin b hb; simp [wr]; omega)
    refine ⟨u16 subtype ++ W, newE, ?_, ?_, ?_⟩
    · rw [show encodeRData c (.afsdb subtype hostname) =
        appendLabel (wr c (u16 subtype)) hostname from rfl, heq]
      simp [wr]
    · have hM : c.rawMsg ++ (u16 subtype ++ W) = (wr c (u16 subtype)).rawMsg ++ W := by
        simp [wr]
      refine RdW.afsdb hs ?_
      rw [hM]; exact hwfm
    · intro e he
      have hM : c.rawMsg ++ (u16 subtype ++ W) = (wr c (u16 subtype)).rawMsg ++ W := by
        simp [wr]
      rw [hM]; exact hok e he

/-! ## Round-trip infrastructure: cursor-level decoding -/

theorem RdW.monoR {M : List Nat} {a : Option Nat} {hi hi2 : Nat} {rd : RData} {Wr : List Nat}
    (hh : hi ≤ hi2) (h : RdW M a hi rd Wr) : RdW M a hi2 rd Wr := by
  cases h with
  | ip4 h => exact .ip4 h
  | ip6 h => exact .ip6 h
  | lbl h => exact .lbl (h.monoW hh)
  | raw => exact .raw
  | txt => exact .txt
  | mx hp h => exact .mx hp (h.monoW hh)
  | soa h1 h2 hb => exact .soa (h1.monoW hh) (h2.monoW hh) hb
  | opt h => exact .opt h
  | dnskey hf hp ha => exact .dnskey hf hp ha
  | rrsig hb h => exact .rrsig hb (h.monoW hh)
  | ds hk ha ht => exact .ds hk ha ht
  | nsec h => exact .nsec (h.monoW hh)
  | nsec3 hh2 hf hit hs hn => exact .nsec3 hh2 hf hit hs hn
  | nsec3param hh2 hf hit hs => exact .nsec3param hh2 hf hit hs
  | cert hc hk ha => exact .cert hc hk ha
  | tsig hb h => exact .tsig hb (h.monoW hh)
  | tkey hb h => exact .tkey hb (h.monoW hh)
  | srv hb h => exact .srv hb (h.monoW hh)
  | tlsa hu hs hm => exact .tlsa hu hs hm
  | sshfp ha hf => exact .sshfp ha hf
  | caa hf ht => exact .caa hf ht
  | uri hp hw => exact .uri hp hw
  | naptr hb h => exact .naptr hb (h.monoW hh)
  | hinfo hc ho => exact .hinfo hc ho
  | rp h1 h2 => exact .rp (h1.monoW hh) (h2.monoW hh)
  | afsdb hs h => exact .afsdb hs (h.monoW hh)

/-- Extend the carrier of a full-height RDATA wire derivation. -/
theorem RdW_ext_len {M ext : List Nat} {rd : RData} {Wr : List Nat}
    (h : RdW M none M.length rd Wr) : RdW (M ++ ext) none (M ++ ext).length rd Wr :=
  (h.stabR (by simp) (fun q hq _ => getElem?_ext_left (by omega))).monoR (by simp)

/-- A big-endian 16-bit read over bytes laid down by the encoder. -/
theorem readU16_at {msg rest : List Nat} {p v : Nat} (hv : v < 65536)
    (h : msg.drop p = u16 v ++ rest) : readU16 msg p = .ok (v, p + 2) := by
  have hlen : (msg.drop p).length = msg.length - p := by simp
  rw [h] at hlen
  simp [u16] at hlen
  have h2 : readN msg p 2 = .ok ([v / 256 % 256, v % 256], p + 2) := by
    rw [readN, if_neg (by omega), if_neg (by omega), h]
    simp [u16]
  rw [readU16, h2]
  simp
  omega

/-- A big-endian 32-bit read over bytes laid down by the encoder. -/
theorem readU32_at {msg rest : List Nat} {p v : Nat} (hv : v < 4294967296)
    (h : msg.drop p = u32 v ++ rest) : readU32 msg p = .ok (v, p + 4) := by
  have hlen : (msg.drop p).length = msg.length - p := by simp
  rw [h] at hlen
  simp [u32] at hlen
  have h2 : readN msg p 4 =
      .ok ([v / 16777216 % 256, v / 65536 % 256, v / 256 % 256, v % 256], p + 4) := by
    rw [readN, if_neg (by omega), if_neg (by omega), h]
    simp [u32]
  rw [readU32, h2]
  simp
  omega

/-- `readLen` over bytes laid down by the encoder. -/
theorem readLenGo_at {msg D rest : List Nat} {p : Nat} (h : msg.drop p = D ++ rest) :
    readLenGo msg p D.length = .ok (D, p + D.length) := by
  have hlen : (msg.drop p).length = msg.length - p := by simp
  rw [h] at hlen
  simp at hlen
  by_cases h0 : D.length = 0
  · have hD : D = [] := List.eq_nil_of_length_eq_zero h0
    subst hD
    simp [readLenGo]
  · rw [readLenGo, if_neg h0, if_neg (by omega), h]
    simp [List.take_left]

/-- `parseLabel` over a written form placed at the cursor. -/
theorem parseLabel_at {msg : List Nat} {hi : Nat} {W nm rest : List Nat} {p : Nat}
    (h : WrittenForm msg none hi W nm) (hd : msg.drop p = W ++ rest) :
    ∃ K, ∀ F, K ≤ F → parseLabel F msg p = .ok (nm, p + W.length) := by
  obtain ⟨K, hK⟩ := rdReadLabel_run (h.localName rest)
  refine ⟨K, fun F hF => ?_⟩
  have hw : W ≠ [] := h.ne_nil
  have h1 : 1 ≤ W.length := by cases W <;> simp_all
  have hlen : (msg.drop p).length = msg.length - p := by simp
  rw [hd] at hlen
  simp at hlen
  rw [parseLabel, if_neg (by omega), hd, hK F hF]

/-! ## Round-trip infrastructure: question and resource wire layouts -/

/-- Wire layout of an encoded question inside message `M`. -/
def QWire (M : List Nat) (q : Question) (Wq : List Nat) : Prop :=
  q.QType < 65536 ∧ q.QClass < 65536 ∧
  ∃ W, Wq = W ++ (u16 q.QType ++ u16 q.QClass) ∧ WrittenForm M none M.length W q.Name

theorem QWire_ext {M ext : List Nat} {q : Question} {Wq : List Nat}
    (h : QWire M q Wq) : QWire (M ++ ext) q Wq := by
  obtain ⟨h1, h2, W, hW, hwf⟩ := h
  exact ⟨h1, h2, W, hW, wf_ext_len hwf⟩

/-- Wire layout of an encoded resource record inside message `M`: owner
name form, fixed header fields, the measured RDLENGTH, then the RDATA
wire form. -/
def RWire (M : List Nat) (r : Resource) (Wres : List Nat) : Prop :=
  r.RType < 65536 ∧ r.RClass < 65536 ∧ r.TTL < 4294967296 ∧ r.RType = r.Data.getType ∧
  wfRData r.Data ∧
  ∃ W Wr, Wres = W ++ (u16 r.RType ++ u16 r.RClass ++ u32 r.TTL) ++ u16 Wr.length ++ Wr ∧
    Wr.length ≤ 65535 ∧
    WrittenForm M none M.length W r.Name ∧ RdW M none M.length r.Data Wr

theorem RWire_ext {M ext : List Nat} {r : Resource} {Wres : List Nat}
    (h : RWire M r Wres) : RWire (M ++ ext) r Wres := by
  obtain ⟨h1, h2, h3, h4, h5, W, Wr, hW, hl, hwf, hrd⟩ := h
  exact ⟨h1, h2, h3, h4, h5, W, Wr, hW, hl, wf_ext_len hwf, RdW_ext_len hrd⟩

/-- `parseQuestion` over an encoded question placed at the cursor. -/
theorem parseQuestion_at {M : List Nat} {q : Question} {Wq rest : List Nat} {p : Nat}
    (h : QWire M q Wq) (hd : M.drop p = Wq ++ rest) :
    ∃ K, ∀ F, K ≤ F → parseQuestion F M p = .ok (q, p + Wq.length) := by
  obtain ⟨h1, h2, W, hW, hwf⟩ := h
  subst hW
  have hd1 : M.drop p = W ++ ((u16 q.QType ++ u16 q.QClass) ++ rest) := by
    rw [hd]; simp
  obtain ⟨K, hK⟩ := parseLabel_at hwf hd1
  refine ⟨K, fun F hF => ?_⟩
  have hd2 : M.drop (p + W.length) = u16 q.QType ++ (u16 q.QClass ++ rest) := by
    rw [← List.drop_drop, hd1, List.drop_left]
    simp
  have hd3 : M.drop (p + W.length + 2) = u16 q.QClass ++ rest := by
    rw [← List.drop_drop, hd2]
    simp [u16]
  rw [parseQuestion]
  simp only [hK F hF, readU16_at h1 hd2, readU16_at h2 hd3]
  have hP : p + W.length + 2 + 2 = p + (W ++ (u16 q.QType ++ u16 q.QClass)).length := by
    simp [u16]; omega
  rw [hP]

/-- `parseResource` over an encoded resource placed at the cursor. -/
theorem parseResource_at {M : List Nat} {r : Resource} {Wres rest : List Nat} {p : Nat}
    (h : RWire M r Wres) (hd : M.drop p = Wres ++ rest) :
    ∃ K, ∀ F, K ≤ F → parseResource F M p = .ok (r, p + Wres.length) := by
  obtain ⟨h1, h2, h3, h4, h5, W, Wr, hW, hl, hwf, hrd⟩ := h
  subst hW
  have hd1 : M.drop p = W ++ ((u16 r.RType ++ u16 r.RClass ++ u32 r.TTL) ++
      (u16 Wr.length ++ (Wr ++ rest))) := by
    rw [hd]; simp
  obtain ⟨K1, hK1⟩ := parseLabel_at hwf hd1
  obtain ⟨K2, hK2⟩ := RdW_parse hrd h5
  refine ⟨max K1 K2, fun F hF => ?_⟩
  have hd2 : M.drop (p + W.length) = u16 r.RType ++ (u16 r.RClass ++ (u32 r.TTL ++
      (u16 Wr.length ++ (Wr ++ rest)))) := by
    rw [← List.drop_drop, hd1, List.drop_left]
    simp
  have hd3 : M.drop (p + W.length + 2) = u16 r.RClass ++ (u32 r.TTL ++
      (u16 Wr.length ++ (Wr ++ rest))) := by
    rw [← List.drop_drop, hd2]
    simp [u16]
  have hd4 : M.drop (p + W.length + 2 + 2) = u32 r.TTL ++ (u16 Wr.length ++ (Wr ++ rest)) := by
    rw [← List.drop_drop, hd3]
    simp [u16]
  have hd5 : M.drop (p + W.length + 2 + 2 + 4) = u16 Wr.length ++ (Wr ++ rest) := by
    rw [← List.drop_drop, hd4]
    simp [u32]
  have hd6 : M.drop (p + W.length + 2 + 2 + 4 + 2) = Wr ++ rest := by
    rw [← List.drop_drop, hd5]
    simp [u16]
  have hK2' : parseRData F M r.RType Wr = .ok r.Data := by
    rw [h4]; exact hK2 F (le_trans (Nat.le_max_right K1 K2) hF)
  rw [parseResource]
  simp only [hK1 F (le_trans (Nat.le_max_left K1 K2) hF), readU16_at h1 hd2,
    readU16_at h2 hd3, readU32_at h3 hd4, readU16_at (by omega : Wr.length < 65536) hd5,
    readLenGo_at hd6, hK2']
  have hP : p + W.length + 2 + 2 + 4 + 2 + Wr.length =
      p + (W ++ (u16 r.RType ++ u16 r.RClass ++ u32 r.TTL) ++ u16 Wr.length ++ Wr).length := by
    simp [u16, u32]; omega
  rw [hP]

/-! ## Round-trip infrastructure: encoding questions and resources -/

/-- `Question.encode` appends the question wire layout. -/
theorem encodeQuestion_spec {c : Ctx} {q : Question}
    (hm : c.marshal = false) (hn : wfNameP q.Name) (h1 : q.QType < 65536)
    (h2 : q.QClass < 65536)
    (hmap : ∀ e ∈ c.labelMap, entryOK c.rawMsg none e) :
    ∃ Wq newE,
      encodeQuestion c q =
        ({ rawMsg := c.rawMsg ++ Wq, labelMap := newE ++ c.labelMap,
           name := c.name, marshal := c.marshal }, none) ∧
      QWire (c.rawMsg ++ Wq) q Wq ∧
      ∀ e ∈ newE, entryOK (c.rawMsg ++ Wq) none e := by
  obtain ⟨W, newE, heq, hwfm, hok, hne⟩ :=
    appendLabel_spec (a := none) hm hn hmap (fun b hb => by simp at hb)
  refine ⟨W ++ (u16 q.QType ++ u16 q.QClass), newE, ?_, ?_, ?_⟩
  · rw [encodeQuestion, heq]
    simp only [andThen]
    simp [wr]
  · refine ⟨h1, h2, W, rfl, ?_⟩
    have hM : c.rawMsg ++ (W ++ (u16 q.QType ++ u16 q.QClass)) =
        (c.rawMsg ++ W) ++ (u16 q.QType ++ u16 q.QClass) := by simp
    rw [hM]; exact wf_ext_len hwfm
  · intro e he
    have hM : c.rawMsg ++ (W ++ (u16 q.QType ++ u16 q.QClass)) =
        (c.rawMsg ++ W) ++ (u16 q.QType ++ u16 q.QClass) := by simp
    rw [hM]; exact entryOK_ext (hok e he)


theorem take_patch {A Wr : List Nat} : (A ++ [0, 0] ++ Wr).take A.length = A := by
  rw [List.append_assoc, List.take_left]

theorem drop_patch {A Wr : List Nat} : (A ++ [0, 0] ++ Wr).drop (A.length + 2) = Wr := by
  have h : A.length + 2 = (A ++ [0, 0]).length := by simp
  rw [h, List.drop_left]

/-- `Resource.encode` appends the resource wire layout: owner form, fixed
fields, RDLENGTH back-patched over the placeholder, RDATA wire form. -/
theorem encodeResource_spec {c : Ctx} {r : Resource}
    (hm : c.marshal = false) (hn : wfNameP r.Name) (h1 : r.RType < 65536)
    (h2 : r.RClass < 65536) (h3 : r.TTL < 4294967296) (h4 : r.RType = r.Data.getType)
    (h5 : wfRData r.Data) (h6 : rdWireMax r.Data ≤ 65535)
    (hmap : ∀ e ∈ c.labelMap, entryOK c.rawMsg none e) :
    ∃ Wres newE,
      encodeResource c r =
        ({ rawMsg := c.rawMsg ++ Wres, labelMap := newE ++ c.labelMap,
           name := c.name, marshal := c.marshal }, none) ∧
      RWire (c.rawMsg ++ Wres) r Wres ∧
      ∀ e ∈ newE, entryOK (c.rawMsg ++ Wres) none e := by
  obtain ⟨W, E1, heq1, hw1, hok1, hne1⟩ :=
    appendLabel_spec (a := none) hm hn hmap (fun b hb => by simp at hb)
  obtain ⟨Wr, E2, heq2, hrd, hok2⟩ :=
    encodeRData_spec
      (a := some ((wr { rawMsg := c.rawMsg ++ W, labelMap := E1 ++ c.labelMap,
                        name := c.name, marshal := c.marshal }
           (u16 r.RType ++ u16 r.RClass ++ u32 r.TTL)).rawMsg.length))
      (c := wr (wr { rawMsg := c.rawMsg ++ W, labelMap := E1 ++ c.labelMap,
                     name := c.name, marshal := c.marshal }
           (u16 r.RType ++ u16 r.RClass ++ u32 r.TTL)) [0, 0])
      (by simp [wr, hm]) h5
      (by
        intro e he
        simp only [wr] at he ⊢
        rcases List.mem_append.1 he with h | h
        · exact entryOK_ext (entryOK_intro (by simp) (entryOK_ext (hok1 e h)))
        · exact entryOK_ext (entryOK_intro (by simp) (entryOK_ext (entryOK_ext (hmap e h)))))
      (by intro b hb; simp [wr] at hb ⊢; omega)
  have hlenWr : Wr.length ≤ 65535 := le_trans hrd.sizeLe h6
  simp only [wr] at hrd hok2
  have hb : (c.rawMsg ++ W ++ (u16 r.RType ++ u16 r.RClass ++ u32 r.TTL)).length + 2 ≤
      (c.rawMsg ++ W ++ (u16 r.RType ++ u16 r.RClass ++ u32 r.TTL) ++ [0, 0] ++
        Wr).length := by simp; omega
  have h2' : (u16 Wr.length).length = 2 := rfl
  have hMP : (c.rawMsg ++ W ++ (u16 r.RType ++ u16 r.RClass ++ u32 r.TTL) ++ [0, 0] ++
        Wr).take (c.rawMsg ++ W ++ (u16 r.RType ++ u16 r.RClass ++ u32 r.TTL)).length ++
        u16 Wr.length ++
        (c.rawMsg ++ W ++ (u16 r.RType ++ u16 r.RClass ++ u32 r.TTL) ++ [0, 0] ++
        Wr).drop ((c.rawMsg ++ W ++ (u16 r.RType ++ u16 r.RClass ++ u32 r.TTL)).length + 2) =
        c.rawMsg ++ (W ++ (u16 r.RType ++ u16 r.RClass ++ u32 r.TTL) ++
        u16 Wr.length ++ Wr) := by
    rw [take_patch, drop_patch]; simp
  refine ⟨W ++ (u16 r.RType ++ u16 r.RClass ++ u32 r.TTL) ++ u16 Wr.length ++ Wr,
    E2 ++ E1, ?_, ?_, ?_⟩
  · rw [encodeResource, heq1]
    simp only [andThen]
    rw [heq2]
    simp only [wr]
    have hdiff : (c.rawMsg ++ W ++ (u16 r.RType ++ u16 r.RClass ++ u32 r.TTL) ++ [0, 0] ++
        Wr).length - (c.rawMsg ++ W ++ (u16 r.RType ++ u16 r.RClass ++ u32 r.TTL) ++
        [0, 0]).length = Wr.length := by simp; omega
    rw [hdiff, if_neg (by omega)]
    simp only [putU16]
    simp only [take_patch, drop_patch]
    simp
  · refine ⟨h1, h2, h3, h4, h5, W, Wr, rfl, hlenWr, ?_, ?_⟩
    · have hM : c.rawMsg ++ (W ++ (u16 r.RType ++ u16 r.RClass ++ u32 r.TTL) ++
          u16 Wr.length ++ Wr) = (c.rawMsg ++ W) ++
          ((u16 r.RType ++ u16 r.RClass ++ u32 r.TTL) ++ u16 Wr.length ++ Wr) := by simp
      rw [hM]; exact wf_ext_len hw1
    · have hstab := (hrd.stabR (by rw [patch_length hb h2'])
        (fun q hq hw => getElem?_patch hb h2' hw)).clearR
      rw [← hMP]
      exact hstab.monoR (le_of_eq (patch_length hb h2').symm)
  · intro e he
    rcases List.mem_append.1 he with h | h
    · have h3' := entryOK_patch hb h2' (hok2 e h)
      rw [← hMP]
      exact h3'
    · have hM : c.rawMsg ++ (W ++ (u16 r.RType ++ u16 r.RClass ++ u32 r.TTL) ++
          u16 Wr.length ++ Wr) = (c.rawMsg ++ W) ++
          ((u16 r.RType ++ u16 r.RClass ++ u32 r.TTL) ++ u16 Wr.length ++ Wr) := by simp
      rw [hM]
      exact entryOK_ext (hok1 e h)


/-! ## Round-trip infrastructure: whole sections -/

/-- Wire layout of an encoded question section. -/
inductive QsWire (M : List Nat) : List Question → List Nat → Prop where
  | nil : QsWire M [] []
  | cons {q : Question} {qs : List Question} {Wq Ws : List Nat}
      (h : QWire M q Wq) (t : QsWire M qs Ws) : QsWire M (q :: qs) (Wq ++ Ws)

theorem QsWire.extL {M ext : List Nat} {qs : List Question} {Ws : List Nat}
    (h : QsWire M qs Ws) : QsWire (M ++ ext) qs Ws := by
  induction h with
  | nil => exact .nil
  | cons h _ ih => exact .cons (QWire_ext h) ih

/-- Wire layout of an encoded resource section. -/
inductive RsWire (M : List Nat) : List Resource → List Nat → Prop where
  | nil : RsWire M [] []
  | cons {r : Resource} {rs : List Resource} {Wr Ws : List Nat}
      (h : RWire M r Wr) (t : RsWire M rs Ws) : RsWire M (r :: rs) (Wr ++ Ws)

theorem RsWire.extR {M ext : List Nat} {rs : List Resource} {Ws : List Nat}
    (h : RsWire M rs Ws) : RsWire (M ++ ext) rs Ws := by
  induction h with
  | nil => exact .nil
  | cons h _ ih => exact .cons (RWire_ext h) ih

/-- Encodability of a question: name well-formed, fields in 16-bit range. -/
def wfQuestion (q : Question) : Prop :=
  wfNameP q.Name ∧ q.QType < 65536 ∧ q.QClass < 65536

/-- Encodability of a resource: name and RDATA well-formed, fields in
range, type field consistent with the data variant, RDATA under the
RDLENGTH limit. -/
def wfResource (r : Resource) : Prop :=
  wfNameP r.Name ∧ r.RType < 65536 ∧ r.RClass < 65536 ∧ r.TTL < 4294967296 ∧
  r.RType = r.Data.getType ∧ wfRData r.Data ∧ rdWireMax r.Data ≤ 65535

/-- The question-section encoder loop appends the section wire layout. -/
theorem encList_questions_spec {qs : List Question} :
    ∀ {c : Ctx}, c.marshal = false → (∀ q ∈ qs, wfQuestion q) →
    (∀ e ∈ c.labelMap, entryOK c.rawMsg none e) →
    ∃ Ws newE,
      encList encodeQuestion c qs =
        ({ rawMsg := c.rawMsg ++ Ws, labelMap := newE ++ c.labelMap,
           name := c.name, marshal := c.marshal }, none) ∧
      QsWire (c.rawMsg ++ Ws) qs Ws ∧
      ∀ e ∈ newE, entryOK (c.rawMsg ++ Ws) none e := by
  induction qs with
  | nil =>
    intro c hm hwf hmap
    refine ⟨[], [], ?_, .nil, by simp⟩
    rw [encList]
    cases c
    simp
  | cons q qs ih =>
    intro c hm hwf hmap
    obtain ⟨hqn, hq1, hq2⟩ := hwf q (by simp)
    obtain ⟨Wq, E1, heq1, hqw, hok1⟩ := encodeQuestion_spec hm hqn hq1 hq2 hmap
    obtain ⟨Ws, E2, heq2, hsw, hok2⟩ :=
      ih (c := { rawMsg := c.rawMsg ++ Wq, labelMap := E1 ++ c.labelMap,
                 name := c.name, marshal := c.marshal })
        hm (fun q hq => hwf q (by simp [hq]))
        (fun e he => by
          rcases List.mem_append.1 he with h | h
          · exact hok1 e h
          · exact entryOK_ext (hmap e h))
    have hM : c.rawMsg ++ (Wq ++ Ws) = (c.rawMsg ++ Wq) ++ Ws := by simp
    refine ⟨Wq ++ Ws, E2 ++ E1, ?_, ?_, ?_⟩
    · rw [encList, heq1]
      simp only [andThen]
      rw [heq2]
      simp
    · rw [hM]
      exact .cons (QWire_ext hqw) hsw
    · intro e he
      rw [hM]
      rcases List.mem_append.1 he with h | h
      · exact hok2 e h
      · exact entryOK_ext (hok1 e h)

/-- The resource-section encoder loop appends the section wire layout. -/
theorem encList_resources_spec {rs : List Resource} :
    ∀ {c : Ctx}, c.marshal = false → (∀ r ∈ rs, wfResource r) →
    (∀ e ∈ c.labelMap, entryOK c.rawMsg none e) →
    ∃ Ws newE,
      encList encodeResource c rs =
        ({ rawMsg := c.rawMsg ++ Ws, labelMap := newE ++ c.labelMap,
           name := c.name, marshal := c.marshal }, none) ∧
      RsWire (c.rawMsg ++ Ws) rs Ws ∧
      ∀ e ∈ newE, entryOK (c.rawMsg ++ Ws) none e := by
  induction rs with
  | nil =>
    intro c hm hwf hmap
    refine ⟨[], [], ?_, .nil, by simp⟩
    rw [encList]
    cases c
    simp
  | cons r rs ih =>
    intro c hm hwf hmap
    obtain ⟨hrn, hr1, hr2, hr3, hr4, hr5, hr6⟩ := hwf r (by simp)
    obtain ⟨Wr, E1, heq1, hrw, hok1⟩ := encodeResource_spec hm hrn hr1 hr2 hr3 hr4 hr5 hr6 hmap
    obtain ⟨Ws, E2, heq2, hsw, hok2⟩ :=
      ih (c := { rawMsg := c.rawMsg ++ Wr, labelMap := E1 ++ c.labelMap,
                 name := c.name, marshal := c.marshal })
        hm (fun r hr => hwf r (by simp [hr]))
        (fun e he => by
          rcases List.mem_append.1 he with h | h
          · exact hok1 e h
          · exact entryOK_ext (hmap e h))
    have hM : c.rawMsg ++ (Wr ++ Ws) = (c.rawMsg ++ Wr) ++ Ws := by simp
    refine ⟨Wr ++ Ws, E2 ++ E1, ?_, ?_, ?_⟩
    · rw [encList, heq1]
      simp only [andThen]
      rw [heq2]
      simp
    · rw [hM]
      exact .cons (RWire_ext hrw) hsw
    · intro e he
      rw [hM]
      rcases List.mem_append.1 he with h | h
      · exact hok2 e h
      · exact entryOK_ext (hok1 e h)


/-- The question-section decoder loop over an encoded section. -/
theorem parseQuestions_at {M : List Nat} {qs : List Question} {Ws : List Nat}
    (h : QsWire M qs Ws) :
    ∀ {p : Nat} {rest : List Nat} (acc : List Question), M.drop p = Ws ++ rest →
    ∃ K, ∀ F, K ≤ F →
      parseQuestions F M qs.length p acc = .ok (acc ++ qs, p + Ws.length) := by
  induction h with
  | nil =>
    intro p rest acc hd
    exact ⟨0, fun F hF => by simp [parseQuestions]⟩
  | @cons q qs Wq Ws hq t ih =>
    intro p rest acc hd
    have hd1 : M.drop p = Wq ++ (Ws ++ rest) := by rw [hd]; simp
    obtain ⟨K1, hK1⟩ := parseQuestion_at hq hd1
    have hd2 : M.drop (p + Wq.length) = Ws ++ rest := by
      rw [← List.drop_drop, hd1, List.drop_left]
    obtain ⟨K2, hK2⟩ := ih (acc ++ [q]) hd2
    refine ⟨max K1 K2, fun F hF => ?_⟩
    have e1 := hK1 F (le_trans (Nat.le_max_left K1 K2) hF)
    have e2 := hK2 F (le_trans (Nat.le_max_right K1 K2) hF)
    rw [show (q :: qs).length = qs.length + 1 from rfl]
    simp only [parseQuestions, e1, e2]
    first
    | (simp; omega)
    | simp

/-- The answer/authority decoder loop over an encoded section. -/
theorem parseResources_at {M : List Nat} {rs : List Resource} {Ws : List Nat}
    (h : RsWire M rs Ws) :
    ∀ {p : Nat} {rest : List Nat} (acc : List Resource), M.drop p = Ws ++ rest →
    ∃ K, ∀ F, K ≤ F →
      parseResources F M rs.length p acc = .ok (acc ++ rs, p + Ws.length) := by
  induction h with
  | nil =>
    intro p rest acc hd
    exact ⟨0, fun F hF => by simp [parseResources]⟩
  | @cons r rs Wr Ws hr t ih =>
    intro p rest acc hd
    have hd1 : M.drop p = Wr ++ (Ws ++ rest) := by rw [hd]; simp
    obtain ⟨K1, hK1⟩ := parseResource_at hr hd1
    have hd2 : M.drop (p + Wr.length) = Ws ++ rest := by
      rw [← List.drop_drop, hd1, List.drop_left]
    obtain ⟨K2, hK2⟩ := ih (acc ++ [r]) hd2
    refine ⟨max K1 K2, fun F hF => ?_⟩
    have e1 := hK1 F (le_trans (Nat.le_max_left K1 K2) hF)
    have e2 := hK2 F (le_trans (Nat.le_max_right K1 K2) hF)
    rw [show (r :: rs).length = rs.length + 1 from rfl]
    simp only [parseResources, e1, e2]
    first
    | (simp; omega)
    | simp

/-- The additional-section decoder loop over an encoded section of
non-OPT records: every record is appended verbatim. -/
theorem parseAdditional_at {M : List Nat} {rs : List Resource} {Ws : List Nat}
    (h : RsWire M rs Ws) (h41 : ∀ r ∈ rs, r.RType ≠ 41) :
    ∀ {p : Nat} {rest : List Nat} (m : Message), M.drop p = Ws ++ rest →
    ∃ K, ∀ F, K ≤ F →
      parseAdditional F M rs.length p m =
        .ok ({ m with Additional := m.Additional ++ rs }, p + Ws.length) := by
  induction h with
  | nil =>
    intro p rest m hd
    refine ⟨0, fun F hF => ?_⟩
    cases m
    simp [parseAdditional]
  | @cons r rs Wr Ws hr t ih =>
    intro p rest m hd
    have hd1 : M.drop p = Wr ++ (Ws ++ rest) := by rw [hd]; simp
    obtain ⟨K1, hK1⟩ := parseResource_at hr hd1
    have hd2 : M.drop (p + Wr.length) = Ws ++ rest := by
      rw [← List.drop_drop, hd1, List.drop_left]
    obtain ⟨K2, hK2⟩ :=
      ih (fun r2 hr2 => h41 r2 (by simp [hr2]))
        ({ m with Additional := m.Additional ++ [r] }) hd2
    refine ⟨max K1 K2, fun F hF => ?_⟩
    have e1 := hK1 F (le_trans (Nat.le_max_left K1 K2) hF)
    have e2 := hK2 F (le_trans (Nat.le_max_right K1 K2) hF)
    rw [show (r :: rs).length = rs.length + 1 from rfl]
    simp only [parseAdditional, e1]
    rw [if_neg (h41 r (by simp))]
    simp only [e2]
    cases m
    first
    | (simp; omega)
    | simp


/-- `MarshalBinary` on a message of well-formed sections: 12-byte header
followed by the four section wire layouts. -/
theorem MarshalBinary_ok {m : Message}
    (hq : ∀ q ∈ m.Question, wfQuestion q) (ha : ∀ r ∈ m.Answer, wfResource r)
    (hau : ∀ r ∈ m.Authority, wfResource r) (had : ∀ r ∈ m.Additional, wfResource r) :
    ∃ B Wq Wa Wau Wad,
      marshalBytes m = some B ∧
      B = (u16 m.ID ++ u16 m.Bits ++ u16 m.Question.length ++ u16 m.Answer.length ++
        u16 m.Authority.length ++ u16 m.Additional.length) ++ (Wq ++ (Wa ++ (Wau ++ Wad))) ∧
      QsWire B m.Question Wq ∧ RsWire B m.Answer Wa ∧
      RsWire B m.Authority Wau ∧ RsWire B m.Additional Wad := by
  set c1 : Ctx := wr ⟨[], [], m.Base, false⟩ (u16 m.ID ++ u16 m.Bits ++
    u16 m.Question.length ++ u16 m.Answer.length ++ u16 m.Authority.length ++
    u16 m.Additional.length) with hc1
  have hm1 : c1.marshal = false := by simp [hc1, wr]
  have hmap1 : ∀ e ∈ c1.labelMap, entryOK c1.rawMsg none e := by
    intro e he; rw [hc1] at he; simp [wr] at he
  obtain ⟨Wq, E1, heq1, hw1, hok1⟩ := encList_questions_spec hm1 hq hmap1
  set c2 : Ctx := { rawMsg := c1.rawMsg ++ Wq, labelMap := E1 ++ c1.labelMap,
                    name := c1.name, marshal := c1.marshal } with hc2
  have hm2 : c2.marshal = false := by rw [hc2]; exact hm1
  have hmap2 : ∀ e ∈ c2.labelMap, entryOK c2.rawMsg none e := by
    intro e he
    simp only [hc2] at he ⊢
    rcases List.mem_append.1 he with h | h
    · exact hok1 e h
    · rw [hc1] at h; simp [wr] at h
  obtain ⟨Wa, E2, heq2, hw2, hok2⟩ := encList_resources_spec hm2 ha hmap2
  set c3 : Ctx := { rawMsg := c2.rawMsg ++ Wa, labelMap := E2 ++ c2.labelMap,
                    name := c2.name, marshal := c2.marshal } with hc3
  have hm3 : c3.marshal = false := by rw [hc3]; exact hm2
  have hmap3 : ∀ e ∈ c3.labelMap, entryOK c3.rawMsg none e := by
    intro e he
    simp only [hc3] at he ⊢
    rcases List.mem_append.1 he with h | h
    · exact hok2 e h
    · rcases List.mem_append.1 h with h2 | h2
      · exact entryOK_ext (hok1 e h2)
      · rw [hc1] at h2; simp [wr] at h2
  obtain ⟨Wau, E3, heq3, hw3, hok3⟩ := encList_resources_spec hm3 hau hmap3
  set c4 : Ctx := { rawMsg := c3.rawMsg ++ Wau, labelMap := E3 ++ c3.labelMap,
                    name := c3.name, marshal := c3.marshal } with hc4
  have hm4 : c4.marshal = false := by rw [hc4]; exact hm3
  have hmap4 : ∀ e ∈ c4.labelMap, entryOK c4.rawMsg none e := by
    intro e he
    simp only [hc4] at he ⊢
    rcases List.mem_append.1 he with h | h
    · exact hok3 e h
    · rcases List.mem_append.1 h with h2 | h2
      · exact entryOK_ext (hok2 e h2)
      · rcases List.mem_append.1 h2 with h3 | h3
        · exact entryOK_ext (entryOK_ext (hok1 e h3))
        · rw [hc1] at h3; simp [wr] at h3
  obtain ⟨Wad, E4, heq4, hw4, hok4⟩ := encList_resources_spec hm4 had hmap4
  have hMB : MarshalBinary m =
      ({ rawMsg := c4.rawMsg ++ Wad, labelMap := E4 ++ c4.labelMap,
         name := c4.name, marshal := c4.marshal }, none) := by
    simp only [MarshalBinary]
    rw [← hc1, heq1]
    simp only [andThen]
    rw [heq2]
    simp only [andThen]
    rw [heq3]
    simp only [andThen]
    rw [heq4]
  refine ⟨c4.rawMsg ++ Wad, Wq, Wa, Wau, Wad, ?_, ?_, ?_, ?_, ?_, hw4⟩
  · simp only [marshalBytes, hMB]
  · simp [hc4, hc3, hc2, hc1, wr]
  · exact hw1.extL.extL.extL
  · exact hw2.extR.extR
  · exact hw3.extR


/-- `UnmarshalBinary` over the encoder's layout recovers the message
(EDNS-free: the four sections, ID and flags; nothing else is encoded). -/
theorem ParseF_of_layout {m : Message} {B Wq Wa Wau Wad : List Nat}
    (hB : B = (u16 m.ID ++ u16 m.Bits ++ u16 m.Question.length ++ u16 m.Answer.length ++
      u16 m.Authority.length ++ u16 m.Additional.length) ++ (Wq ++ (Wa ++ (Wau ++ Wad))))
    (hid : m.ID < 65536) (hbits : m.Bits < 65536)
    (hql : m.Question.length < 65536) (hal : m.Answer.length < 65536)
    (haul : m.Authority.length < 65536) (hadl : m.Additional.length < 65536)
    (hqw : QsWire B m.Question Wq) (haw : RsWire B m.Answer Wa)
    (hauw : RsWire B m.Authority Wau) (hadw : RsWire B m.Additional Wad)
    (h41 : ∀ r ∈ m.Additional, r.RType ≠ 41)
    (hEDNS : m.HasEDNS = false) (hOpts : m.Opts = []) (hUDP : m.ReqUDPSize = 0)
    (hRC : m.OptRCode = 0) (hBase : m.Base = []) :
    ∃ K, ∀ F, K ≤ F → ParseF F B = .ok m := by
  have hd0 : B.drop 0 = u16 m.ID ++ (u16 m.Bits ++ (u16 m.Question.length ++
      (u16 m.Answer.length ++ (u16 m.Authority.length ++ (u16 m.Additional.length ++
      (Wq ++ (Wa ++ (Wau ++ Wad)))))))) := by
    rw [hB]; simp
  have hd2 : B.drop 2 = u16 m.Bits ++ (u16 m.Question.length ++
      (u16 m.Answer.length ++ (u16 m.Authority.length ++ (u16 m.Additional.length ++
      (Wq ++ (Wa ++ (Wau ++ Wad))))))) := by
    rw [hB]; simp [u16]
  have hd4 : B.drop 4 = u16 m.Question.length ++
      (u16 m.Answer.length ++ (u16 m.Authority.length ++ (u16 m.Additional.length ++
      (Wq ++ (Wa ++ (Wau ++ Wad)))))) := by
    rw [hB]; simp [u16]
  have hd6 : B.drop 6 = u16 m.Answer.length ++ (u16 m.Authority.length ++
      (u16 m.Additional.length ++ (Wq ++ (Wa ++ (Wau ++ Wad))))) := by
    rw [hB]; simp [u16]
  have hd8 : B.drop 8 = u16 m.Authority.length ++ (u16 m.Additional.length ++
      (Wq ++ (Wa ++ (Wau ++ Wad)))) := by
    rw [hB]; simp [u16]
  have hd10 : B.drop 10 = u16 m.Additional.length ++ (Wq ++ (Wa ++ (Wau ++ Wad))) := by
    rw [hB]; simp [u16]
  have hd12 : B.drop 12 = Wq ++ (Wa ++ (Wau ++ Wad)) := by
    rw [hB]; simp [u16]
  have hdA : B.drop (12 + Wq.length) = Wa ++ (Wau ++ Wad) := by
    rw [← List.drop_drop, hd12, List.drop_left]
  have hdAU : B.drop (12 + Wq.length + Wa.length) = Wau ++ Wad := by
    rw [← List.drop_drop, hdA, List.drop_left]
  have hdAD : B.drop (12 + Wq.length + Wa.length + Wau.length) = Wad ++ [] := by
    rw [← List.drop_drop, hdAU, List.drop_left]
    simp
  obtain ⟨K1, hK1⟩ := parseQuestions_at hqw [] hd12
  obtain ⟨K2, hK2⟩ := parseResources_at haw [] hdA
  obtain ⟨K3, hK3⟩ := parseResources_at hauw [] hdAU
  obtain ⟨K4, hK4⟩ :=
    parseAdditional_at hadw h41
      (⟨m.ID, m.Bits, [] ++ m.Question, [] ++ m.Answer, [] ++ m.Authority,
        [], false, [], 0, 0, []⟩ : Message) hdAD
  refine ⟨max (max K1 K2) (max K3 K4), fun F hF => ?_⟩
  have e0 := readU16_at hid hd0
  have e2 := readU16_at hbits hd2
  have e4 := readU16_at hql hd4
  have e6 := readU16_at hal hd6
  have e8 := readU16_at haul hd8
  have e10 := readU16_at hadl hd10
  have eQ := hK1 F (le_trans (le_trans (Nat.le_max_left K1 K2) (Nat.le_max_left _ _)) hF)
  have eA := hK2 F (le_trans (le_trans (Nat.le_max_right K1 K2) (Nat.le_max_left _ _)) hF)
  have eAU := hK3 F (le_trans (le_trans (Nat.le_max_left K3 K4) (Nat.le_max_right _ _)) hF)
  have eAD := hK4 F (le_trans (le_trans (Nat.le_max_right K3 K4) (Nat.le_max_right _ _)) hF)
  rw [ParseF]
  simp only [e0, e2, e4, e6, e8, e10, eQ, eA, eAU, eAD]
  cases m
  subst hEDNS hOpts hUDP hRC hBase
  simp

/-! ## Claim C2: the encode/decode round trip

The claim as stated fails on three independent points, each witnessed by a
concrete message below: (a) `MarshalBinary` never synthesizes an OPT
pseudo-record from the EDNS fields, so they are silently lost; (b) the
compression cache is looked up under the lowercased name, so a later
mixed-case spelling of an equal name is emitted as a pointer to the earlier
spelling and decodes to different bytes; (c) an OPT record placed in the
additional section is folded into the EDNS fields on decode instead of
being returned as a record. -/

/-- The name `EX.com.`. -/
def upperExName : List Nat := [69, 88, 46, 99, 111, 109, 46]

/-- The name `ex.com.`. -/
def lowerExName : List Nat := [101, 120, 46, 99, 111, 109, 46]

/-- A message with EDNS flagged and a requested UDP payload size, but no
explicit OPT record. -/
def ednsMsg : Message := { newMessage 291 with HasEDNS := true, ReqUDPSize := 512 }

/-- A message whose two questions spell the same name in different case. -/
def caseMsg : Message :=
  { newMessage 291 with Question := [⟨upperExName, 1, 1⟩, ⟨lowerExName, 1, 1⟩] }

/-- A message carrying an explicit OPT record in its additional section. -/
def optMsg : Message :=
  { newMessage 291 with Additional := [⟨lowerExName, 41, 512, 77, .opt [(10, [1, 2])]⟩] }

/-- Claim C2, refutation of the statement as written.  (a) Encoding `ednsMsg`
produces the bare 12-byte header — no OPT pseudo-record is synthesized — and
decoding it back loses `HasEDNS` and `ReqUDPSize`; (b) decoding the encoding
of `caseMsg` returns `EX.com.` for the second question, not the `ex.com.`
that was encoded, because the compression cache aliases names modulo case;
(c) decoding the encoding of `optMsg` returns an empty additional section,
the OPT record having been folded into the EDNS fields. -/
theorem marshal_parse_roundtrip_counterexample :
    (marshalBytes ednsMsg = some [1, 35, 0, 0, 0, 0, 0, 0, 0, 0, 0, 0] ∧
      (marshalBytes ednsMsg).map Parse = some (.ok (newMessage 291))) ∧
    ((marshalBytes caseMsg).map Parse =
      some (.ok { newMessage 291 with
                    Question := [⟨upperExName, 1, 1⟩, ⟨upperExName, 1, 1⟩] })) ∧
    ((marshalBytes optMsg).map Parse =
      some (.ok { newMessage 291 with
                    HasEDNS := true, Opts := [(10, [1, 2])],
                    ReqUDPSize := 512, OptRCode := 77 })) := by
  refine ⟨⟨by decide, by decide⟩, by decide, by decide⟩


/-- Encodability of a whole message, and absence of the state the encoder
cannot represent: section lengths and header fields in range, every record
well-formed, no OPT record in the additional section (decode folds those
into the EDNS fields), and no EDNS state (the encoder drops it). -/
def wfMessage (m : Message) : Prop :=
  m.ID < 65536 ∧ m.Bits < 65536 ∧ m.Question.length < 65536 ∧ m.Answer.length < 65536 ∧
  m.Authority.length < 65536 ∧ m.Additional.length < 65536 ∧
  (∀ q ∈ m.Question, wfQuestion q) ∧ (∀ r ∈ m.Answer, wfResource r) ∧
  (∀ r ∈ m.Authority, wfResource r) ∧ (∀ r ∈ m.Additional, wfResource r) ∧
  (∀ r ∈ m.Additional, r.RType ≠ 41) ∧
  m.HasEDNS = false ∧ m.Opts = [] ∧ m.ReqUDPSize = 0 ∧ m.OptRCode = 0 ∧ m.Base = []

/-- Claim C2, amended: for every well-formed message without EDNS state,
decoding the encoding recovers the message exactly — same ID, header bits,
and question/answer/authority/additional sections (names, TTLs and record
data byte-for-byte).  The name-decode budget `F` embeds the unbounded
recursion of the Go decoder, so the equation holds for every sufficiently
large budget.  The EDNS clause of the original claim is false: the encoder
never synthesizes an OPT pseudo-record (see
`marshal_parse_roundtrip_counterexample`). -/
theorem marshal_parse_roundtrip {m : Message} (hwf : wfMessage m) :
    ∃ bytes, marshalBytes m = some bytes ∧
      ∃ K, ∀ F, K ≤ F → ParseF F bytes = .ok m := by
  obtain ⟨hid, hbits, hql, hal, haul, hadl, hq, ha, hau, had, h41,
    hEDNS, hOpts, hUDP, hRC, hBase⟩ := hwf
  obtain ⟨B, Wq, Wa, Wau, Wad, hmb, hB, hqw, haw, hauw, hadw⟩ :=
    MarshalBinary_ok hq ha hau had
  exact ⟨B, hmb, ParseF_of_layout hB hid hbits hql hal haul hadl hqw haw hauw hadw h41
    hEDNS hOpts hUDP hRC hBase⟩

/-- A concrete round-trip input: one question and one A answer for
`ex.com.`. -/
def rtMsg : Message :=
  { ID := 291, Bits := 256,
    Question := [⟨lowerExName, 1, 1⟩],
    Answer := [⟨lowerExName, 1, 1, 300, .ip [192, 0, 2, 1] 1⟩],
    Authority := [], Additional := [],
    HasEDNS := false, Opts := [], ReqUDPSize := 0, OptRCode := 0, Base := [] }

/-- The amended round trip at the concrete message `rtMsg`. -/
theorem marshal_parse_roundtrip_witness :
    ∃ bytes, marshalBytes rtMsg = some bytes ∧
      ∃ K, ∀ F, K ≤ F → ParseF F bytes = .ok rtMsg :=
  marshal_parse_roundtrip (by
    have hname : wfNameP lowerExName := by
      refine ⟨by decide, by decide, ?_, by decide⟩
      exact @WfLbl.cons [101, 120] [99, 111, 109] (by decide) (by decide) (by decide)
        (@WfLbl.last [99, 111, 109] (by decide) (by decide) (by decide))
    refine ⟨by decide, by decide, by decide, by decide, by decide, by decide,
      ?_, ?_, ?_, ?_, ?_, rfl, rfl, rfl, rfl, rfl⟩
    · intro q hq
      simp [rtMsg] at hq
      subst hq
      exact ⟨hname, by decide, by decide⟩
    · intro r hr
      simp [rtMsg] at hr
      subst hr
      exact ⟨hname, by decide, by decide, by decide, by decide, Or.inl ⟨rfl, rfl⟩, by decide⟩
    · intro r hr
      simp [rtMsg] at hr
    · intro r hr
      simp [rtMsg] at hr
    · intro r hr
      simp [rtMsg] at hr)


end DnsProof
